import Mathlib

/-!
Verification of the `prezzemolo` graph library (`src/prezzemolo/graph.py`).

The Python heap of `Vertex` objects is modelled as a list of vertex records
(`Heap`); vertex identity is the `name` string, matching the library's
name-based `__eq__`/`__hash__` (one record per name models Python's one
canonical object per name).  Edge weights (Python floats) are modelled as
rationals.  Python's `float("inf")` initial distance is modelled as `none` in
an `Option ℚ` distance value.  Stateful loops are modelled with explicit fuel:
an outer `none` result marks fuel exhaustion, which is proved unreachable for
the fuel the public entry points supply.  Python exceptions are modelled with
`Except GErr`.
-/

/-- Errors raised by the library: `ValueError` for the referential-integrity
failure in BFS, `KeyError` for a failed dictionary lookup, `TypeError` for the
`_ShortestDistance` comparison mismatch. -/
inductive GErr where
  | refIntegrity (vname : String)
  | keyError (key : String)
  | typeError
  deriving DecidableEq, Repr

/-- Modelled from the spec: `vertex.py` is not under `src/`, only its callers
are.  A `Vertex` has a `name` (its identity), and an insertion-ordered list of
neighbors, each with the edge weight recorded for it (`add_neighbor` upserts,
so neighbor names are unique and `edge_weight`/`get_weight` is the stored
weight; the caller-supplied `value` payload is never read by any algorithm and
is omitted). -/
structure Vertex where
  name : String
  neighbors : List (String × ℚ)
  deriving DecidableEq, Repr

/-- The Python object heap: every vertex object that exists, indexed by name. -/
abbrev Heap := List Vertex

/-- Dereference a vertex name in the heap.  In Python a neighbor reference is
always a real object; names outside the heap resolve to an inert default so
that the model is total (theorems about real object graphs restrict to heaps
that contain every referenced name). -/
def resolve (hp : Heap) (n : String) : Vertex :=
  (hp.find? (fun v => v.name == n)).getD ⟨n, []⟩

/-- Lookup in an association list modelling a Python `dict` (keys unique,
insertion ordered). -/
def lookupAssoc {α : Type} (l : List (String × α)) (k : String) : Option α :=
  (l.find? (fun p => p.1 == k)).map Prod.snd

/-- Python `dict` assignment `d[k] = a`: overwrite in place if the key exists,
else append. -/
def updateAssoc {α : Type} : List (String × α) → String → α → List (String × α)
  | [], k, a => [(k, a)]
  | p :: rest, k, a => if p.1 == k then (p.1, a) :: rest else p :: updateAssoc rest k a

/-- Python `set.add` on a list used as a set. -/
def setInsert (l : List String) (x : String) : List String :=
  if x ∈ l then l else l ++ [x]

/-- State of a `Graph`: the vertex index `self.__vertexes` (dict keys, in
insertion order) and the set `self.__non_validated_vertexes`. -/
structure Graph where
  vertexes : List String
  nonValidated : List String
  deriving DecidableEq, Repr

/-- `Graph._validate_vertex`: a vertex not in the non-validated set passes
immediately; otherwise it passes (and is removed from the set) iff every
neighbor is in the index; on failure the set is unchanged.  (The caller's
`v in set and not validate(v)` short-circuit is equivalent to always calling
this, since the first branch is the identity.) -/
def validate_vertex (hp : Heap) (g : Graph) (v : String) : Bool × Graph :=
  if v ∉ g.nonValidated then (true, g)
  else if (resolve hp v).neighbors.all (fun p => decide (p.1 ∈ g.vertexes)) then
    (true, ⟨g.vertexes, g.nonValidated.erase v⟩)
  else (false, g)

/-- `Graph.add_vertex`: index the vertex, mark it non-validated, attempt
validation. -/
def add_vertex (hp : Heap) (g : Graph) (v : String) : Graph :=
  (validate_vertex hp ⟨setInsert g.vertexes v, setInsert g.nonValidated v⟩ v).2

/-- `Graph.__init__`: index the given vertexes (first occurrence wins a
duplicate name's position), mark all non-validated, then attempt validation of
each in index order. -/
def graphInit (hp : Heap) (vs : List String) : Graph :=
  let keys := vs.foldl (fun acc v => setInsert acc v) []
  keys.foldl (fun g v => (validate_vertex hp g v).2) ⟨keys, keys⟩

/-- A directed edge from `a` to `b` exists: `b` appears among `a`'s neighbors. -/
def hasEdge (hp : Heap) (a b : String) : Prop :=
  b ∈ (resolve hp a).neighbors.map Prod.fst

instance (hp : Heap) (a b : String) : Decidable (hasEdge hp a b) := by
  unfold hasEdge; infer_instance

/-- A directed path from `a` to `b`: `l` lists the successive vertices after
`a`, the last being `b` (empty `l` is the trivial path, `a = b`). -/
inductive Chain (hp : Heap) : String → List String → String → Prop where
  | nil (a : String) : Chain hp a [] a
  | cons {a x b : String} {l : List String} (h : hasEdge hp a x) (t : Chain hp x l b) :
      Chain hp a (x :: l) b

/-- `b` is reachable from `a` (a directed path exists, possibly empty). -/
def Reach (hp : Heap) (a b : String) : Prop := ∃ l, Chain hp a l b

/-- `b` is reachable from `a` by a path with at least one edge. -/
def ReachNE (hp : Heap) (a b : String) : Prop := ∃ x l, Chain hp a (x :: l) b

/-- The recorded weight of the edge from `a` to `b`. -/
def lookupWeight (hp : Heap) (a b : String) : Option ℚ :=
  lookupAssoc (resolve hp a).neighbors b

/-- A directed path together with its total edge weight. -/
inductive CChain (hp : Heap) : String → List String → String → ℚ → Prop where
  | nil (a : String) : CChain hp a [] a 0
  | cons {a x b : String} {w c : ℚ} {l : List String} (h : lookupWeight hp a x = some w)
      (t : CChain hp x l b c) : CChain hp a (x :: l) b (w + c)

/-- A parent map (`vertex_2_parent` dict): vertex name to optional parent. -/
abbrev PMap := List (String × Option String)

/-- `Graph._extract_path_from_parent_dictionary`: walk parent links from
`last` until a `None` parent, collecting vertices in end-to-start order.  A
missing key raises `KeyError`. -/
def extract_path (pm : PMap) : Nat → Option String → Option (Except GErr (List String))
  | 0, _ => none
  | _, none => some (.ok [])
  | fuel + 1, some v =>
      match lookupAssoc pm v with
      | none => some (.error (.keyError v))
      | some p =>
          match extract_path pm fuel p with
          | none => none
          | some (.error e) => some (.error e)
          | some (.ok l) => some (.ok (v :: l))

/-- Mutable state of `_breadth_first_search`: the marked set, the FIFO queue,
and the optional parent map. -/
structure BfsSt where
  marked : List String
  queue : List String
  pm : Option PMap
  deriving DecidableEq, Repr

/-- The inner `for neighbor in vertex.neighbors` loop of BFS: mark, enqueue
and record the parent of each unmarked neighbor; return `true` as soon as a
neighbor equals `end` (even an already-marked one). -/
def bfs_expand (endV : Option String) (v : String) :
    List (String × ℚ) → BfsSt → BfsSt × Bool
  | [], st => (st, false)
  | p :: ns, st =>
      let st' :=
        if p.1 ∈ st.marked then st
        else ⟨st.marked ++ [p.1], st.queue ++ [p.1],
              st.pm.map (fun m => updateAssoc m p.1 (some v))⟩
      if endV = some p.1 then (st', true) else bfs_expand endV v ns st'

/-- The `while len(queue) > 0` loop of `_breadth_first_search`: dequeue, lazily
validate (raising `ValueError` on failure), expand neighbors. -/
def bfs_loop (hp : Heap) (endV : Option String) :
    Nat → Graph → BfsSt → Option (Except GErr (Bool × Graph × BfsSt))
  | 0, _, _ => none
  | fuel + 1, g, st =>
      match st.queue with
      | [] => some (.ok (false, g, st))
      | v :: rest =>
          let res := validate_vertex hp g v
          if res.1 then
            let ex := bfs_expand endV v (resolve hp v).neighbors ⟨st.marked, rest, st.pm⟩
            if ex.2 then some (.ok (true, res.2, ex.1))
            else bfs_loop hp endV fuel res.2 ex.1
          else some (.error (.refIntegrity v))

/-- Every name a traversal from `start` can ever touch: `start`, the heap's
names, and every neighbor name they mention. -/
def traversalNames (hp : Heap) (start : String) : List String :=
  (start :: (hp.map Vertex.name ++ hp.flatMap (fun v => v.neighbors.map Prod.fst))).dedup

/-- Fuel sufficient for the BFS loop (proved in `bfs_loop_isSome`). -/
def bfsFuel (hp : Heap) (start : String) : Nat := 2 * (traversalNames hp start).length + 2

/-- `Graph._breadth_first_search`: seed the queue/marked set with `start`,
record `start`'s parent as `None` when a parent map is supplied, and run the
loop. -/
def breadth_first_search_core (hp : Heap) (g : Graph) (start : String)
    (endV : Option String) (pm0 : Option PMap) :
    Option (Except GErr (Bool × Graph × BfsSt)) :=
  bfs_loop hp endV (bfsFuel hp start) g
    ⟨[start], [start], pm0.map (fun m => updateAssoc m start none)⟩

/-- `Graph.breadth_first_search`: the public reachability query (no parent
map), returning only the boolean. -/
def breadth_first_search (hp : Heap) (g : Graph) (start endV : String) :
    Option (Except GErr Bool) :=
  match breadth_first_search_core hp g start (some endV) none with
  | none => none
  | some (.error e) => some (.error e)
  | some (.ok r) => some (.ok r.1)

/-- `Graph.find_shortest_path`: BFS with parent tracking from an empty dict;
on success extract the path from the parent map; `if not reverse: return
reversed(result)` — so `reverse = true` yields the raw end-to-start order and
`reverse = false` its reversal. -/
def find_shortest_path (hp : Heap) (g : Graph) (start endV : String) (reverse : Bool) :
    Option (Except GErr (Option (List String))) :=
  match breadth_first_search_core hp g start (some endV) (some []) with
  | none => none
  | some (.error e) => some (.error e)
  | some (.ok (found, _, st)) =>
      if found then
        let pm := st.pm.getD []
        match extract_path pm (pm.length + 1) (some endV) with
        | none => none
        | some (.error e) => some (.error e)
        | some (.ok l) => some (.ok (some (if reverse then l else l.reverse)))
      else some (.ok none)

/-- Mutable state of `_dijkstra_search`: the `distance` dict (`none` value =
`float("inf")`), the priority queue's entries, the visited set (kept in visit
order), and the optional parent map. -/
structure DSt where
  dist : List (String × Option ℚ)
  pq : List (ℚ × String)
  visited : List String
  pm : Option PMap
  deriving DecidableEq, Repr

/-- `PriorityQueue.get`: remove and return a minimum-distance entry.  The
source's tie order among equal distances is unspecified (heap order); the
model fixes the leftmost minimal entry. -/
def popMin : List (ℚ × String) → Option ((ℚ × String) × List (ℚ × String))
  | [] => none
  | e :: rest =>
      match popMin rest with
      | none => some (e, [])
      | some (m, rest') => if e.1 ≤ m.1 then some (e, rest) else some (m, e :: rest')

/-- Comparison of a finite candidate distance with a stored distance, where
`none` stores `float("inf")`. -/
def ltInf (a : ℚ) (b : Option ℚ) : Bool :=
  match b with
  | none => true
  | some c => decide (a < c)

/-- The inner `for neighbor in current_vertex.neighbors` loop of Dijkstra:
relax each neighbor of the just-finalized vertex `v` whose distance is `d`.
`distance[neighbor]` raises `KeyError` when the neighbor is not a key. -/
def relax_neighbors (v : String) (d : ℚ) :
    List (String × ℚ) → DSt → Except GErr DSt
  | [], st => .ok st
  | p :: ns, st =>
      let nd := d + p.2
      match lookupAssoc st.dist p.1 with
      | none => .error (.keyError p.1)
      | some dn =>
          if ltInf nd dn then
            relax_neighbors v d ns
              ⟨updateAssoc st.dist p.1 (some nd), st.pq ++ [(nd, p.1)],
               st.visited, st.pm.map (fun m => updateAssoc m p.1 (some v))⟩
          else relax_neighbors v d ns st

/-- The `while not remaining_vertexes.empty()` loop of `_dijkstra_search`:
pop the minimum entry, skip it if already visited, else finalize and relax its
neighbors, returning `true` when the finalized vertex is `end`. -/
def dijkstra_loop (hp : Heap) (endV : Option String) :
    Nat → DSt → Option (Except GErr (Bool × DSt))
  | 0, _ => none
  | fuel + 1, st =>
      match popMin st.pq with
      | none => some (.ok (false, st))
      | some (e, pq') =>
          if e.2 ∈ st.visited then dijkstra_loop hp endV fuel ⟨st.dist, pq', st.visited, st.pm⟩
          else
            match relax_neighbors e.2 e.1 (resolve hp e.2).neighbors
                ⟨st.dist, pq', st.visited ++ [e.2], st.pm⟩ with
            | .error er => some (.error er)
            | .ok st' => if endV = some e.2 then some (.ok (true, st')) else
                dijkstra_loop hp endV fuel st'

/-- Fuel sufficient for the Dijkstra loop (proved in `dijkstra_loop_isSome`). -/
def dijkstraFuel (hp : Heap) (start : String) : Nat :=
  ((traversalNames hp start).map (fun n => (resolve hp n).neighbors.length + 1)).sum + 2

/-- `Graph._dijkstra_search`: distances start at `float("inf")` for every
index vertex and `0.0` for `start`; the queue holds `(0.0, start)`. -/
def dijkstra_search_core (hp : Heap) (g : Graph) (start : String)
    (endV : Option String) (pm0 : Option PMap) :
    Option (Except GErr (Bool × DSt)) :=
  dijkstra_loop hp endV (dijkstraFuel hp start)
    ⟨updateAssoc (g.vertexes.map (fun v => (v, (none : Option ℚ)))) start (some 0),
     [((0 : ℚ), start)], [], pm0⟩

/-- `Graph.dijkstra_search`: the public weighted reachability query (no parent
map), returning only the boolean. -/
def dijkstra_search (hp : Heap) (g : Graph) (start endV : String) :
    Option (Except GErr Bool) :=
  match dijkstra_search_core hp g start (some endV) none with
  | none => none
  | some (.error e) => some (.error e)
  | some (.ok r) => some (.ok r.1)

/-- `Graph.find_weighted_shortest_path`: like `find_shortest_path` but with
Dijkstra, and with the parent map pre-populated with every index vertex
mapped to `None`. -/
def find_weighted_shortest_path (hp : Heap) (g : Graph) (start endV : String)
    (reverse : Bool) : Option (Except GErr (Option (List String))) :=
  match dijkstra_search_core hp g start (some endV)
      (some (g.vertexes.map (fun v => (v, (none : Option String))))) with
  | none => none
  | some (.error e) => some (.error e)
  | some (.ok (found, st)) =>
      if found then
        let pm := st.pm.getD []
        match extract_path pm (pm.length + 1) (some endV) with
        | none => none
        | some (.error e) => some (.error e)
        | some (.ok l) => some (.ok (some (if reverse then l else l.reverse)))
      else some (.ok none)

/-- The `_ShortestDistance` priority-queue entry. -/
structure SDist where
  distance : ℚ
  vertex : String
  deriving DecidableEq, Repr

/-- A Python operand as seen by `_ShortestDistance.__lt__`/`__gt__`: either a
`_ShortestDistance` instance, or any other object carrying only its
truthiness.  A frozen dataclass instance defines neither `__bool__` nor
`__len__`, so a `_ShortestDistance` is always truthy. -/
inductive PyObj where
  | sd (s : SDist)
  | nonSD (truthy : Bool)
  deriving DecidableEq, Repr

/-- Python truthiness of the operand. -/
def PyObj.isTruthy : PyObj → Bool
  | .sd _ => true
  | .nonSD b => b

/-- `_ShortestDistance.__lt__`: falsy operands compare `False`; truthy
operands that are not `_ShortestDistance` raise `TypeError`; otherwise the
distances are compared. -/
def sd_lt (s : SDist) (o : PyObj) : Except GErr Bool :=
  if o.isTruthy = false then .ok false
  else
    match o with
    | .sd t => .ok (decide (s.distance < t.distance))
    | .nonSD _ => .error .typeError

/-- `_ShortestDistance.__gt__`: same shape as `__lt__` with the comparison
flipped. -/
def sd_gt (s : SDist) (o : PyObj) : Except GErr Bool :=
  if o.isTruthy = false then .ok false
  else
    match o with
    | .sd t => .ok (decide (s.distance > t.distance))
    | .nonSD _ => .error .typeError

/-- The neighbor names of the vertex `v` names. -/
def neighborNames (hp : Heap) (v : String) : List String :=
  (resolve hp v).neighbors.map Prod.fst

/-- A heap as Python can build it: one object per name, and neighbor names
unique within a vertex (`add_neighbor` upserts). -/
def WFHeap (hp : Heap) : Prop :=
  (hp.map Vertex.name).Nodup ∧ ∀ v ∈ hp, (v.neighbors.map Prod.fst).Nodup

instance (hp : Heap) : Decidable (WFHeap hp) := by
  unfold WFHeap; infer_instance

/-- All edge weights are non-negative. -/
def NonnegWeights (hp : Heap) : Prop := ∀ v ∈ hp, ∀ p ∈ v.neighbors, 0 ≤ p.2

instance (hp : Heap) : Decidable (NonnegWeights hp) := by
  unfold NonnegWeights; infer_instance

/-- Every vertex a traversal from `start` touches (`start` itself and every
vertex reachable from it) has all its neighbors in the graph's index. -/
def TraversalClosed (hp : Heap) (g : Graph) (start : String) : Prop :=
  ∀ v, (v = start ∨ ReachNE hp start v) → ∀ p ∈ (resolve hp v).neighbors, p.1 ∈ g.vertexes

/-- Ghost state for the BFS proofs: the marked set and queue instrumented
with discovery depths.  Projecting the depths away recovers `BfsSt`. -/
structure GSt where
  m : List (String × Nat)
  q : List (String × Nat)
  pm : PMap

/-- Depth-instrumented mirror of `bfs_expand` (neighbors by name). -/
def g_expand (endV : Option String) (v : String) (k : Nat) :
    List String → GSt → GSt × Bool
  | [], t => (t, false)
  | n :: ns, t =>
      let t' :=
        if n ∈ t.m.map Prod.fst then t
        else ⟨t.m ++ [(n, k + 1)], t.q ++ [(n, k + 1)], updateAssoc t.pm n (some v)⟩
      if endV = some n then (t', true) else g_expand endV v k ns t'

/-- Depth-instrumented mirror of `bfs_loop` (validation dropped: it never
alters the traversal state, only aborts it, and the projection lemma is stated
for runs that did not abort). -/
def g_loop (hp : Heap) (endV : Option String) : Nat → GSt → Option (Bool × GSt)
  | 0, _ => none
  | fuel + 1, t =>
      match t.q with
      | [] => some (false, t)
      | (v, k) :: rest =>
          let ex := g_expand endV v k (neighborNames hp v) ⟨t.m, rest, t.pm⟩
          if ex.2 then some (true, ex.1) else g_loop hp endV fuel ex.1

/-- Ghost initial state for a search from `start`. -/
def gInit (start : String) : GSt := ⟨[(start, 0)], [(start, 0)], [(start, none)]⟩

/-- The projection relating a concrete BFS state to a ghost state. -/
def BfsProj (st : BfsSt) (t : GSt) : Prop :=
  st.marked = t.m.map Prod.fst ∧ st.queue = t.q.map Prod.fst ∧
    ∀ p, st.pm = some p → p = t.pm

/-- Invariant of the marked set and parent map of a BFS from `start`: depths
are recorded once per vertex, parent links step depth down by one along real
edges to `start`, and each recorded depth is exactly the least edge count of a
path from `start`. -/
structure GLocal (hp : Heap) (start : String) (t : GSt) : Prop where
  mnodup : (t.m.map Prod.fst).Nodup
  pm_nodup : (t.pm.map Prod.fst).Nodup
  start_mem : (start, 0) ∈ t.m
  pm_start : lookupAssoc t.pm start = some none
  depth_zero : ∀ v k, (v, k) ∈ t.m → k = 0 → v = start
  pm_dom : ∀ v, (lookupAssoc t.pm v).isSome ↔ v ∈ t.m.map Prod.fst
  parent : ∀ v k, (v, k) ∈ t.m → v ≠ start →
      ∃ u j, lookupAssoc t.pm v = some (some u) ∧ (u, j) ∈ t.m ∧ k = j + 1 ∧ hasEdge hp u v
  sound : ∀ v k, (v, k) ∈ t.m → ∃ l, Chain hp start l v ∧ l.length = k
  minimal : ∀ v k, (v, k) ∈ t.m → ∀ l, Chain hp start l v → k ≤ l.length

/-- Loop invariant of the ghost BFS between iterations. -/
structure GInv (hp : Heap) (start : String) (endV : Option String) (t : GSt)
    extends GLocal hp start t : Prop where
  q_sub : ∀ e ∈ t.q, e ∈ t.m
  q_sorted : t.q.Pairwise (fun a b => a.2 ≤ b.2)
  q_span : ∃ dl, ∀ e ∈ t.q, dl ≤ e.2 ∧ e.2 ≤ dl + 1
  processed : ∀ v k, (v, k) ∈ t.m → v ∉ t.q.map Prod.fst →
      ∀ n ∈ neighborNames hp v, n ∈ t.m.map Prod.fst
  not_found : ∀ v k, (v, k) ∈ t.m → v ∉ t.q.map Prod.fst →
      ∀ n ∈ neighborNames hp v, endV ≠ some n

/-- Invariant maintained while the neighbors of the dequeued vertex `cur`
(of depth `k`) are being expanded. -/
structure ExpInv (hp : Heap) (start : String) (endV : Option String) (cur : String)
    (k : Nat) (t : GSt) extends GLocal hp start t : Prop where
  q_sub : ∀ e ∈ t.q, e ∈ t.m
  q_sorted : t.q.Pairwise (fun a b => a.2 ≤ b.2)
  q_bound : ∀ e ∈ t.q, k ≤ e.2 ∧ e.2 ≤ k + 1
  cur_mem : (cur, k) ∈ t.m
  new_min : ∀ n, n ∉ t.m.map Prod.fst → ∀ l, Chain hp start l n → k + 1 ≤ l.length
  proc_ex : ∀ v j, (v, j) ∈ t.m → v ≠ cur → v ∉ t.q.map Prod.fst →
      ∀ n ∈ neighborNames hp v, n ∈ t.m.map Prod.fst
  nf_ex : ∀ v j, (v, j) ∈ t.m → v ≠ cur → v ∉ t.q.map Prod.fst →
      ∀ n ∈ neighborNames hp v, endV ≠ some n

/-- Invariant of the Dijkstra parent map: parents are visited, parent links
follow real edges with telescoping distance bounds, they respect visit order,
and every vertex other than `start` whose distance became finite has a
recorded parent. -/
structure PmInv (hp : Heap) (g : Graph) (start : String)
    (dist : List (String × Option ℚ)) (visited : List String) (m : PMap) : Prop where
  dom : ∀ n, (lookupAssoc m n).isSome ↔ n ∈ g.vertexes
  at_start : lookupAssoc m start = some none
  parent : ∀ v u, lookupAssoc m v = some (some u) → u ∈ visited ∧
      ∃ w cu cv, lookupWeight hp u v = some w ∧ lookupAssoc dist u = some (some cu) ∧
        lookupAssoc dist v = some (some cv) ∧ cu + w ≤ cv ∧
        (v ∈ visited → visited.indexOf u < visited.indexOf v)
  written : ∀ v c, v ≠ start → lookupAssoc dist v = some (some c) →
      ∃ u, lookupAssoc m v = some (some u)

/-- Loop invariant of `dijkstra_loop` between iterations: distance values are
realized by paths, visited vertices carry settled lower bounds, queue entries
dominate the current dictionary values, every unvisited finite vertex has its
dictionary value in the queue, and every edge out of a visited vertex has been
relaxed. -/
structure DInvP (hp : Heap) (g : Graph) (start : String) (st : DSt) : Prop where
  dkeys : ∀ n, (lookupAssoc st.dist n).isSome ↔ (n ∈ g.vertexes ∨ n = start)
  dstart : lookupAssoc st.dist start = some (some 0)
  dsound : ∀ n c, lookupAssoc st.dist n = some (some c) → ∃ l, CChain hp start l n c
  settled : ∀ v ∈ st.visited, ∃ c, lookupAssoc st.dist v = some (some c) ∧
      ∀ l c', CChain hp start l v c' → c ≤ c'
  qsound : ∀ e ∈ st.pq, ∃ c, lookupAssoc st.dist e.2 = some (some c) ∧ c ≤ e.1
  pending : ∀ n c, n ∉ st.visited → lookupAssoc st.dist n = some (some c) → (c, n) ∈ st.pq
  frontier : ∀ u ∈ st.visited, ∀ p ∈ (resolve hp u).neighbors,
      ∃ cu cx, lookupAssoc st.dist u = some (some cu) ∧
        lookupAssoc st.dist p.1 = some (some cx) ∧ cx ≤ cu + p.2
  vnodup : st.visited.Nodup
  pmap : ∀ m, st.pm = some m → PmInv hp g start st.dist st.visited m

/-- Invariant maintained while the neighbors of the just-finalized vertex `v`
(at settled distance `d`) are being relaxed. -/
structure RInv (hp : Heap) (g : Graph) (start : String) (v : String) (d : ℚ)
    (st : DSt) : Prop where
  dkeys : ∀ n, (lookupAssoc st.dist n).isSome ↔ (n ∈ g.vertexes ∨ n = start)
  dstart : lookupAssoc st.dist start = some (some 0)
  dsound : ∀ n c, lookupAssoc st.dist n = some (some c) → ∃ l, CChain hp start l n c
  settled : ∀ x ∈ st.visited, ∃ c, lookupAssoc st.dist x = some (some c) ∧
      ∀ l c', CChain hp start l x c' → c ≤ c'
  qsound : ∀ e ∈ st.pq, ∃ c, lookupAssoc st.dist e.2 = some (some c) ∧ c ≤ e.1
  pending : ∀ n c, n ∉ st.visited → lookupAssoc st.dist n = some (some c) → (c, n) ∈ st.pq
  frontier_old : ∀ u ∈ st.visited, u ≠ v → ∀ p ∈ (resolve hp u).neighbors,
      ∃ cu cx, lookupAssoc st.dist u = some (some cu) ∧
        lookupAssoc st.dist p.1 = some (some cx) ∧ cx ≤ cu + p.2
  vnodup : st.visited.Nodup
  v_mem : v ∈ st.visited
  v_dist : lookupAssoc st.dist v = some (some d)
  pmap : ∀ m, st.pm = some m → PmInv hp g start st.dist st.visited m

/-- Reweighting a vertex: the name and the neighbor names are kept, each edge
weight is replaced through an arbitrary function `f` of the two endpoint names
and the old weight.  Used to state that BFS results do not depend on edge
weights. -/
def reweightV (f : String → String → ℚ → ℚ) (v : Vertex) : Vertex :=
  ⟨v.name, v.neighbors.map (fun p => (p.1, f v.name p.1 p.2))⟩

/-- A concrete weight change (shift every weight up by one), used to witness
the weight-independence statements on concrete graphs. -/
def bumpWeight : String → String → ℚ → ℚ := fun a b w => w + 1 + (0 : ℚ) * (a.length + b.length)

/-- Two Dijkstra states agree on everything except the parent map: the
`dijkstra_search` run (no parent map) and the `find_weighted_shortest_path`
run (pre-populated parent map) stay in this relation. -/
def DProj (s₁ s₂ : DSt) : Prop :=
  s₁.dist = s₂.dist ∧ s₁.pq = s₂.pq ∧ s₁.visited = s₂.visited

/-! ### Association-list and resolution lemmas -/

theorem lookupAssoc_cons {α : Type} (p : String × α) (l : List (String × α)) (k : String) :
    lookupAssoc (p :: l) k = if p.1 = k then some p.2 else lookupAssoc l k := by
  by_cases h : p.1 = k
  · simp [lookupAssoc, List.find?_cons_of_pos, h]
  · rw [lookupAssoc, List.find?_cons_of_neg]
    · simp [h, lookupAssoc]
    · simp [h]

theorem lookupAssoc_updateAssoc {α : Type} (l : List (String × α)) (k k' : String) (a : α) :
    lookupAssoc (updateAssoc l k a) k' = if k' = k then some a else lookupAssoc l k' := by
  induction l with
  | nil =>
      by_cases h : k' = k
      · simp [updateAssoc, lookupAssoc_cons, h]
      · rw [updateAssoc, lookupAssoc_cons, if_neg (fun h' => absurd h'.symm h), if_neg h]
  | cons p rest ih =>
      by_cases hk : p.1 = k
      · rw [updateAssoc, if_pos (by simpa using hk)]
        by_cases h : k' = k
        · rw [lookupAssoc_cons, if_pos (by rw [hk, h]), if_pos h]
        · rw [lookupAssoc_cons, if_neg (by rw [hk]; exact fun h' => absurd h'.symm h),
            if_neg h, lookupAssoc_cons, if_neg (by rw [hk]; exact fun h' => absurd h'.symm h)]
      · rw [updateAssoc, if_neg (by simpa using hk)]
        by_cases h : k' = p.1
        · rw [lookupAssoc_cons, if_pos h.symm, lookupAssoc_cons, if_pos h.symm]
          have hne : ¬ k' = k := by rw [h]; exact fun h' => hk h'
          rw [if_neg hne]
        · rw [lookupAssoc_cons, if_neg (fun h' => absurd h'.symm h), ih]
          by_cases hkk : k' = k
          · rw [if_pos hkk, if_pos hkk]
          · rw [if_neg hkk, if_neg hkk, lookupAssoc_cons,
              if_neg (fun h' => absurd h'.symm h)]

theorem lookupAssoc_isSome_iff {α : Type} (l : List (String × α)) (k : String) :
    (lookupAssoc l k).isSome ↔ k ∈ l.map Prod.fst := by
  induction l with
  | nil => simp [lookupAssoc]
  | cons p rest ih =>
      rw [lookupAssoc_cons]
      by_cases h : p.1 = k
      · simp [h]
      · simp only [if_neg h, List.map_cons, List.mem_cons, ih]
        constructor
        · exact fun hh => Or.inr hh
        · rintro (hh | hh)
          · exact absurd hh.symm h
          · exact hh

theorem lookupAssoc_mem {α : Type} {l : List (String × α)} {k : String} {a : α}
    (h : lookupAssoc l k = some a) : (k, a) ∈ l := by
  unfold lookupAssoc at h
  cases hf : l.find? (fun p => p.1 == k) with
  | none => rw [hf] at h; simp at h
  | some p =>
      rw [hf] at h
      simp only [Option.map_some'] at h
      have hm := List.mem_of_find?_eq_some hf
      have hp := List.find?_some hf
      have : p.1 = k := by simpa using hp
      have hpk : p = (k, a) := by
        cases p with
        | mk f s =>
            have h1 : f = k := by simpa using this
            have h2 : s = a := by simpa using h
            rw [h1, h2]
      rw [hpk] at hm; exact hm

theorem updateAssoc_map_fst_mem {α : Type} (l : List (String × α)) (k : String) (a : α) :
    k ∈ l.map Prod.fst → (updateAssoc l k a).map Prod.fst = l.map Prod.fst := by
  induction l with
  | nil => simp
  | cons p rest ih =>
      intro hm
      by_cases h : p.1 = k
      · rw [updateAssoc, if_pos (by simpa using h)]; simp
      · rw [updateAssoc, if_neg (by simpa using h)]
        simp only [List.map_cons, List.mem_cons] at hm
        rcases hm with hm | hm
        · exact absurd hm.symm h
        · simp [ih hm]

theorem updateAssoc_map_fst_not_mem {α : Type} (l : List (String × α)) (k : String) (a : α) :
    k ∉ l.map Prod.fst → (updateAssoc l k a).map Prod.fst = l.map Prod.fst ++ [k] := by
  induction l with
  | nil => simp [updateAssoc]
  | cons p rest ih =>
      intro hm
      simp only [List.map_cons, List.mem_cons] at hm
      push_neg at hm
      rw [updateAssoc, if_neg (by simpa using fun h => hm.1 h.symm)]
      simp [ih hm.2]

theorem resolve_mem_or_nil (hp : Heap) (n : String) :
    resolve hp n ∈ hp ∨ (resolve hp n).neighbors = [] := by
  unfold resolve
  cases hf : hp.find? (fun v => v.name == n) with
  | none => right; rfl
  | some v => left; simpa using List.mem_of_find?_eq_some hf

theorem lookupWeight_mem {hp : Heap} {a b : String} {w : ℚ}
    (h : lookupWeight hp a b = some w) : (b, w) ∈ (resolve hp a).neighbors := by
  have := lookupAssoc_mem h
  exact this

theorem hasEdge_of_lookupWeight {hp : Heap} {a b : String} {w : ℚ}
    (h : lookupWeight hp a b = some w) : hasEdge hp a b := by
  unfold hasEdge
  exact List.mem_map.mpr ⟨(b, w), lookupWeight_mem h, rfl⟩

theorem lookupWeight_isSome_of_hasEdge {hp : Heap} {a b : String} (h : hasEdge hp a b) :
    ∃ w, lookupWeight hp a b = some w := by
  unfold hasEdge at h
  have : b ∈ ((resolve hp a).neighbors.map Prod.fst) := h
  have := (lookupAssoc_isSome_iff (resolve hp a).neighbors b).mpr this
  rcases Option.isSome_iff_exists.mp this with ⟨w, hw⟩
  exact ⟨w, hw⟩

theorem mem_lookupWeight {hp : Heap} {a b : String} {w : ℚ}
    (hnd : ((resolve hp a).neighbors.map Prod.fst).Nodup)
    (hm : (b, w) ∈ (resolve hp a).neighbors) : lookupWeight hp a b = some w := by
  unfold lookupWeight lookupAssoc
  cases hf : (resolve hp a).neighbors.find? (fun p => p.1 == b) with
  | none =>
      exfalso
      have := List.find?_eq_none.mp hf (b, w) hm
      simp at this
  | some p =>
      have hpm := List.mem_of_find?_eq_some hf
      have hp1 : p.1 = b := by simpa using List.find?_some hf
      have : p.2 = w := by
        have h1 : p.1 ∈ (resolve hp a).neighbors.map Prod.fst := List.mem_map.mpr ⟨p, hpm, rfl⟩
        have hnodup := hnd
        rcases List.mem_iff_get.mp hpm with ⟨i, hi⟩
        rcases List.mem_iff_get.mp hm with ⟨j, hj⟩
        have hij : ((resolve hp a).neighbors.map Prod.fst).get ⟨i, by simpa using i.2⟩ =
            ((resolve hp a).neighbors.map Prod.fst).get ⟨j, by simpa using j.2⟩ := by
          simp only [List.get_map]
          rw [hi, hj, hp1]
        have := List.Nodup.get_inj_iff hnodup |>.mp hij
        have hij' : (i : ℕ) = (j : ℕ) := by simpa using congrArg Fin.val this
        have : (resolve hp a).neighbors.get i = (resolve hp a).neighbors.get j := by
          congr 1
          exact Fin.ext hij'
        rw [hi, hj] at this
        rw [this]
      simp [this]

/-! ### Chain lemmas -/

theorem chain_append {hp : Heap} {a b c : String} {l₁ l₂ : List String}
    (h₁ : Chain hp a l₁ b) (h₂ : Chain hp b l₂ c) : Chain hp a (l₁ ++ l₂) c := by
  induction h₁ with
  | nil => simpa using h₂
  | cons h t ih => exact Chain.cons h (ih h₂)

theorem chain_snoc_edge {hp : Heap} {a b c : String} {l : List String}
    (h₁ : Chain hp a l b) (h₂ : hasEdge hp b c) : Chain hp a (l ++ [c]) c :=
  chain_append h₁ (Chain.cons h₂ (Chain.nil c))

theorem chain_snoc_decomp {hp : Heap} {c b : String} :
    ∀ {a : String} {l : List String}, Chain hp a (l ++ [c]) b →
      b = c ∧ ∃ y, Chain hp a l y ∧ hasEdge hp y c := by
  intro a l
  induction l generalizing a with
  | nil =>
      intro h
      cases h with
      | cons hd tl =>
          cases tl with
          | nil => exact ⟨rfl, a, Chain.nil a, hd⟩
  | cons x rest ih =>
      intro h
      cases h with
      | cons hd tl =>
          rcases ih tl with ⟨hb, y, hc, he⟩
          exact ⟨hb, y, Chain.cons hd hc, he⟩

theorem chain_ne_decomp {hp : Heap} {a b : String} {L : List String}
    (h : Chain hp a L b) (hne : L ≠ []) :
    ∃ l' y, L = l' ++ [b] ∧ Chain hp a l' y ∧ hasEdge hp y b := by
  rcases List.eq_nil_or_concat L with hL | ⟨l', c, hL⟩
  · exact absurd hL hne
  · rw [List.concat_eq_append] at hL
    subst hL
    rcases chain_snoc_decomp h with ⟨hb, y, hc, he⟩
    subst hb
    exact ⟨l', y, rfl, hc, he⟩

theorem chain_target_eq {hp : Heap} {a b : String} (h : Chain hp a [] b) : a = b := by
  cases h; rfl

theorem cchain_append {hp : Heap} {y b : String} {c₂ : ℚ} {l₂ : List String}
    (h₂ : CChain hp y l₂ b c₂) :
    ∀ {l₁ : List String} {a : String} {c₁ : ℚ},
      CChain hp a l₁ y c₁ → CChain hp a (l₁ ++ l₂) b (c₁ + c₂) := by
  intro l₁
  induction l₁ with
  | nil =>
      intro a c₁ h₁
      cases h₁
      simpa using h₂
  | cons x rest ih =>
      intro a c₁ h₁
      cases h₁ with
      | cons hd tl =>
          have := CChain.cons hd (ih tl)
          simpa [add_assoc] using this

theorem cchain_append_edge {hp : Heap} {a y b : String} {c w : ℚ} {l : List String}
    (h₁ : CChain hp a l y c) (h₂ : lookupWeight hp y b = some w) :
    CChain hp a (l ++ [b]) b (c + w) := by
  have h3 : CChain hp y [b] b (w + 0) := CChain.cons h₂ (CChain.nil b)
  have := cchain_append h3 h₁
  simpa using this

theorem cchain_snoc_decomp {hp : Heap} {c' : ℚ} {b b' : String} :
    ∀ {a : String} {l : List String}, CChain hp a (l ++ [b']) b c' →
      b = b' ∧ ∃ y w cy, CChain hp a l y cy ∧ lookupWeight hp y b' = some w ∧ c' = cy + w := by
  intro a l
  induction l generalizing a c' with
  | nil =>
      intro h
      cases h with
      | cons hd tl =>
          cases tl with
          | nil => exact ⟨rfl, a, _, 0, CChain.nil a, hd, by ring⟩
  | cons x rest ih =>
      intro h
      cases h with
      | cons hd tl =>
          rcases ih tl with ⟨hb, y, w, cy, hc, he, hsum⟩
          exact ⟨hb, y, w, _ + cy, CChain.cons hd hc, he, by rw [hsum]; ring⟩

theorem chain_of_cchain {hp : Heap} {a b : String} {c : ℚ} {l : List String}
    (h : CChain hp a l b c) : Chain hp a l b := by
  induction h with
  | nil a => exact Chain.nil a
  | cons hd _ ih => exact Chain.cons (hasEdge_of_lookupWeight hd) ih

theorem cchain_of_chain {hp : Heap} {a b : String} {l : List String}
    (h : Chain hp a l b) : ∃ c, CChain hp a l b c := by
  induction h with
  | nil a => exact ⟨0, CChain.nil a⟩
  | cons hd _ ih =>
      rcases lookupWeight_isSome_of_hasEdge hd with ⟨w, hw⟩
      rcases ih with ⟨c, hc⟩
      exact ⟨w + c, CChain.cons hw hc⟩

theorem lookupWeight_nonneg {hp : Heap} (hn : NonnegWeights hp) {a b : String} {w : ℚ}
    (h : lookupWeight hp a b = some w) : 0 ≤ w := by
  rcases resolve_mem_or_nil hp a with hm | hm
  · exact hn _ hm _ (lookupWeight_mem h)
  · have := lookupWeight_mem h
    rw [hm] at this
    simp at this

theorem cchain_nonneg {hp : Heap} (hn : NonnegWeights hp) {a b : String} {c : ℚ}
    {l : List String} (h : CChain hp a l b c) : 0 ≤ c := by
  induction h with
  | nil a => exact le_refl 0
  | cons hd _ ih =>
      have hw := lookupWeight_nonneg hn hd
      linarith

/-! ### popMin lemmas -/

theorem popMin_none_iff (l : List (ℚ × String)) : popMin l = none ↔ l = [] := by
  cases l with
  | nil => simp [popMin]
  | cons e rest =>
      simp only [popMin]
      cases h : popMin rest with
      | none => simp
      | some p => cases p with
          | mk m rest' => by_cases hle : e.1 ≤ m.1 <;> simp [hle]

theorem popMin_spec {l l' : List (ℚ × String)} {e : ℚ × String}
    (h : popMin l = some (e, l')) :
    ∃ l₁ l₂, l = l₁ ++ e :: l₂ ∧ l' = l₁ ++ l₂ ∧ ∀ x ∈ l, e.1 ≤ x.1 := by
  induction l generalizing e l' with
  | nil => simp [popMin] at h
  | cons a rest ih =>
      rw [popMin] at h
      cases hr : popMin rest with
      | none =>
          rw [hr] at h
          have hrest : rest = [] := (popMin_none_iff rest).mp hr
          simp only [Option.some.injEq, Prod.mk.injEq] at h
          refine ⟨[], [], ?_, ?_, ?_⟩
          · simp [hrest, h.1]
          · simp [h.2]
          · intro x hx
            rw [hrest] at hx
            simp at hx
            rw [hx, h.1]
      | some p =>
          rcases p with ⟨m, rest'⟩
          rw [hr] at h
          have h2 : (if a.1 ≤ m.1 then some (a, rest) else some (m, a :: rest')) =
              some (e, l') := h
          clear h
          rcases ih hr with ⟨r₁, r₂, hr1, hr2, hmin⟩
          by_cases hle : a.1 ≤ m.1
          · rw [if_pos hle] at h2
            have h := h2
            simp only [Option.some.injEq, Prod.mk.injEq] at h
            refine ⟨[], rest, by simp [h.1], by simp [h.2], ?_⟩
            intro x hx
            rcases List.mem_cons.mp hx with hx | hx
            · rw [hx, ← h.1]
            · rw [← h.1]
              exact le_trans hle (hmin x hx)
          · rw [if_neg hle] at h2
            have h := h2
            simp only [Option.some.injEq, Prod.mk.injEq] at h
            refine ⟨a :: r₁, r₂, by rw [hr1, ← h.1]; simp, by rw [← h.2, hr2]; simp, ?_⟩
            intro x hx
            rcases List.mem_cons.mp hx with hx | hx
            · rw [hx, ← h.1]
              linarith [lt_of_not_le hle]
            · rw [← h.1]
              exact hmin x hx

theorem popMin_mem {l l' : List (ℚ × String)} {e : ℚ × String}
    (h : popMin l = some (e, l')) : e ∈ l := by
  rcases popMin_spec h with ⟨l₁, l₂, h1, _, _⟩
  rw [h1]; simp

theorem popMin_min {l l' : List (ℚ × String)} {e : ℚ × String}
    (h : popMin l = some (e, l')) : ∀ x ∈ l, e.1 ≤ x.1 := by
  rcases popMin_spec h with ⟨_, _, _, _, hmin⟩
  exact hmin

theorem popMin_mem_rest {l l' : List (ℚ × String)} {e x : ℚ × String}
    (h : popMin l = some (e, l')) (hx : x ∈ l) (hne : x ≠ e) : x ∈ l' := by
  rcases popMin_spec h with ⟨l₁, l₂, h1, h2, _⟩
  subst h1; subst h2
  rcases List.mem_append.mp hx with hx | hx
  · exact List.mem_append.mpr (Or.inl hx)
  · rcases List.mem_cons.mp hx with hx | hx
    · exact absurd hx hne
    · exact List.mem_append.mpr (Or.inr hx)

theorem popMin_sub {l l' : List (ℚ × String)} {e : ℚ × String}
    (h : popMin l = some (e, l')) : l' ⊆ l := by
  rcases popMin_spec h with ⟨l₁, l₂, h1, h2, _⟩
  subst h1; subst h2
  intro x hx
  rcases List.mem_append.mp hx with hx | hx
  · exact List.mem_append.mpr (Or.inl hx)
  · exact List.mem_append.mpr (Or.inr (List.mem_cons.mpr (Or.inr hx)))

theorem popMin_length {l l' : List (ℚ × String)} {e : ℚ × String}
    (h : popMin l = some (e, l')) : l.length = l'.length + 1 := by
  rcases popMin_spec h with ⟨l₁, l₂, h1, h2, _⟩
  subst h1; subst h2
  simp [List.length_append]
  ring

/-! ### setInsert and validation lemmas -/

theorem mem_setInsert_self (l : List String) (x : String) : x ∈ setInsert l x := by
  unfold setInsert
  by_cases h : x ∈ l
  · simpa [h]
  · simp [h]

theorem setInsert_of_mem {l : List String} {x : String} (h : x ∈ l) : setInsert l x = l := by
  simp [setInsert, h]

theorem setInsert_of_not_mem {l : List String} {x : String} (h : x ∉ l) :
    setInsert l x = l ++ [x] := by
  simp [setInsert, h]

theorem setInsert_nodup {l : List String} {x : String} (h : l.Nodup) :
    (setInsert l x).Nodup := by
  unfold setInsert
  by_cases hm : x ∈ l
  · simpa [hm]
  · simp only [hm, if_false]
    simpa [List.nodup_append, h] using hm

theorem validate_vertex_vertexes (hp : Heap) (g : Graph) (v : String) :
    (validate_vertex hp g v).2.vertexes = g.vertexes := by
  unfold validate_vertex
  by_cases h : v ∉ g.nonValidated
  · rw [if_pos h]
  · rw [if_neg h]
    by_cases h2 : (resolve hp v).neighbors.all (fun p => decide (p.1 ∈ g.vertexes))
    · rw [if_pos h2]
    · rw [if_neg h2]

theorem validate_vertex_nonValidated_sub (hp : Heap) (g : Graph) (v : String) :
    ∀ x ∈ (validate_vertex hp g v).2.nonValidated, x ∈ g.nonValidated := by
  unfold validate_vertex
  by_cases h : v ∉ g.nonValidated
  · rw [if_pos h]; exact fun x hx => hx
  · rw [if_neg h]
    by_cases h2 : (resolve hp v).neighbors.all (fun p => decide (p.1 ∈ g.vertexes))
    · rw [if_pos h2]
      exact fun x hx => List.mem_of_mem_erase hx
    · rw [if_neg h2]; exact fun x hx => hx

theorem validate_vertex_false (hp : Heap) (g : Graph) (v : String)
    (h : (validate_vertex hp g v).1 = false) :
    v ∈ g.nonValidated ∧ (validate_vertex hp g v).2 = g ∧
      ∃ p ∈ (resolve hp v).neighbors, p.1 ∉ g.vertexes := by
  unfold validate_vertex at h ⊢
  by_cases h1 : v ∉ g.nonValidated
  · rw [if_pos h1] at h; simp at h
  · rw [if_neg h1] at h
    by_cases h2 : (resolve hp v).neighbors.all (fun p => decide (p.1 ∈ g.vertexes))
    · rw [if_pos h2] at h; simp at h
    · rw [if_neg h1, if_neg h2]
      refine ⟨not_not.mp h1, rfl, ?_⟩
      have h3 : ¬ ∀ p ∈ (resolve hp v).neighbors, p.1 ∈ g.vertexes := by
        intro hall
        exact h2 (List.all_eq_true.mpr (fun p hmem => by simpa using hall p hmem))
      push_neg at h3
      exact h3

theorem validate_vertex_true_of_closed (hp : Heap) (g : Graph) (v : String)
    (h : ∀ p ∈ (resolve hp v).neighbors, p.1 ∈ g.vertexes) :
    (validate_vertex hp g v).1 = true := by
  unfold validate_vertex
  by_cases h1 : v ∉ g.nonValidated
  · rw [if_pos h1]
  · rw [if_neg h1, if_pos (List.all_eq_true.mpr (fun p hmem => by simpa using h p hmem))]

theorem validate_vertex_eq_skip (hp : Heap) {g : Graph} {v : String}
    (h : v ∉ g.nonValidated) : validate_vertex hp g v = (true, g) := by
  unfold validate_vertex
  rw [if_pos h]

theorem validate_vertex_eq_pass (hp : Heap) {g : Graph} {v : String}
    (h : v ∈ g.nonValidated)
    (hA : (resolve hp v).neighbors.all (fun p => decide (p.1 ∈ g.vertexes)) = true) :
    validate_vertex hp g v = (true, ⟨g.vertexes, g.nonValidated.erase v⟩) := by
  unfold validate_vertex
  rw [if_neg (not_not.mpr h), if_pos hA]

theorem validate_vertex_eq_fail (hp : Heap) {g : Graph} {v : String}
    (h : v ∈ g.nonValidated)
    (hA : ¬ (resolve hp v).neighbors.all (fun p => decide (p.1 ∈ g.vertexes)) = true) :
    validate_vertex hp g v = (false, g) := by
  unfold validate_vertex
  rw [if_neg (not_not.mpr h), if_neg hA]

theorem add_vertex_idem (hp : Heap) (g : Graph) (v : String)
    (hnd : g.nonValidated.Nodup) :
    add_vertex hp (add_vertex hp g v) v = add_vertex hp g v := by
  have hv1 : v ∈ setInsert g.nonValidated v := mem_setInsert_self _ _
  by_cases hA : (resolve hp v).neighbors.all
      (fun p => decide (p.1 ∈ setInsert g.vertexes v)) = true
  · have h1 : add_vertex hp g v =
        ⟨setInsert g.vertexes v, (setInsert g.nonValidated v).erase v⟩ := by
      unfold add_vertex
      rw [validate_vertex_eq_pass hp hv1 hA]
    have hvm : v ∉ (setInsert g.nonValidated v).erase v :=
      (setInsert_nodup hnd).not_mem_erase
    have h2 : setInsert ((setInsert g.nonValidated v).erase v) v =
        (setInsert g.nonValidated v).erase v ++ [v] := setInsert_of_not_mem hvm
    have h3 : setInsert (setInsert g.vertexes v) v = setInsert g.vertexes v :=
      setInsert_of_mem (mem_setInsert_self _ _)
    have hv2 : v ∈ (setInsert g.nonValidated v).erase v ++ [v] :=
      List.mem_append.mpr (Or.inr (List.mem_singleton.mpr rfl))
    have h4 : add_vertex hp (add_vertex hp g v) v =
        (validate_vertex hp ⟨setInsert g.vertexes v,
          (setInsert g.nonValidated v).erase v ++ [v]⟩ v).2 := by
      rw [h1]
      show (validate_vertex hp ⟨setInsert (setInsert g.vertexes v) v,
          setInsert ((setInsert g.nonValidated v).erase v) v⟩ v).2 = _
      rw [h3, h2]
    rw [h4, validate_vertex_eq_pass hp hv2 hA, h1]
    have h5 : ((setInsert g.nonValidated v).erase v ++ [v]).erase v =
        (setInsert g.nonValidated v).erase v := by
      rw [List.erase_append_right _ hvm, List.erase_cons_head]
      simp
    show (⟨setInsert g.vertexes v,
        ((setInsert g.nonValidated v).erase v ++ [v]).erase v⟩ : Graph) = _
    rw [h5]
  · have h1 : add_vertex hp g v =
        ⟨setInsert g.vertexes v, setInsert g.nonValidated v⟩ := by
      unfold add_vertex
      rw [validate_vertex_eq_fail hp hv1 hA]
    have h3 : setInsert (setInsert g.vertexes v) v = setInsert g.vertexes v :=
      setInsert_of_mem (mem_setInsert_self _ _)
    have h4 : add_vertex hp (add_vertex hp g v) v =
        (validate_vertex hp ⟨setInsert g.vertexes v, setInsert g.nonValidated v⟩ v).2 := by
      rw [h1]
      show (validate_vertex hp ⟨setInsert (setInsert g.vertexes v) v,
          setInsert (setInsert g.nonValidated v) v⟩ v).2 = _
      rw [h3, setInsert_of_mem hv1]
    rw [h4, validate_vertex_eq_fail hp hv1 hA, h1]

/-! ### Traversal-universe lemmas -/

theorem traversalNames_nodup (hp : Heap) (start : String) :
    (traversalNames hp start).Nodup := List.nodup_dedup _

theorem start_mem_traversalNames (hp : Heap) (start : String) :
    start ∈ traversalNames hp start := by
  unfold traversalNames
  exact List.mem_dedup.mpr (List.mem_cons.mpr (Or.inl rfl))

theorem neighbor_mem_traversalNames (hp : Heap) (start : String) (x n : String)
    (h : n ∈ neighborNames hp x) : n ∈ traversalNames hp start := by
  unfold traversalNames
  rcases resolve_mem_or_nil hp x with hm | hm
  · apply List.mem_dedup.mpr
    apply List.mem_cons.mpr
    right
    apply List.mem_append.mpr
    right
    exact List.mem_flatMap.mpr ⟨resolve hp x, hm, h⟩
  · unfold neighborNames at h
    rw [hm] at h
    simp at h

/-! ### Counting lemmas for termination -/

theorem count_drop_one (univ : List String) (hu : univ.Nodup) (m : List String)
    (n : String) (hn : n ∉ m) (hmem : n ∈ univ) :
    (univ.filter (fun x => decide (x ∉ m ++ [n]))).length + 1 =
      (univ.filter (fun x => decide (x ∉ m))).length := by
  have hfeq : univ.filter (fun x => decide (x ∉ m ++ [n])) =
      (univ.filter (fun x => decide (x ∉ m))).filter (fun x => x != n) := by
    rw [List.filter_filter]
    apply List.filter_congr
    intro x _
    by_cases h1 : x = n
    · subst h1
      simp [hn]
    · by_cases h2 : x ∈ m <;> simp [h1, h2]
  have hnodup : (univ.filter (fun x => decide (x ∉ m))).Nodup := hu.filter _
  have hmem2 : n ∈ univ.filter (fun x => decide (x ∉ m)) := by
    apply List.mem_filter.mpr
    exact ⟨hmem, by simpa using hn⟩
  rw [hfeq, ← hnodup.erase_eq_filter n, List.length_erase_of_mem hmem2]
  have hpos : 0 < (univ.filter (fun x => decide (x ∉ m))).length :=
    List.length_pos_of_mem hmem2
  omega

theorem count_drop (univ : List String) (hu : univ.Nodup) :
    ∀ (nw m : List String), (∀ x ∈ nw, x ∉ m) → nw.Nodup → (∀ x ∈ nw, x ∈ univ) →
    (univ.filter (fun x => decide (x ∉ m ++ nw))).length + nw.length =
      (univ.filter (fun x => decide (x ∉ m))).length := by
  intro nw
  induction nw with
  | nil =>
      intro m _ _ _
      simp
  | cons n rest ih =>
      intro m hdis hnd hsub
      have h1 := ih (m ++ [n]) ?_ (List.nodup_cons.mp hnd).2 ?_
      · have heq : univ.filter (fun x => decide (x ∉ m ++ n :: rest)) =
            univ.filter (fun x => decide (x ∉ (m ++ [n]) ++ rest)) := by
          apply List.filter_congr
          intro x _
          have : (x ∈ m ++ n :: rest) ↔ (x ∈ (m ++ [n]) ++ rest) := by
            simp only [List.mem_append, List.mem_cons, List.mem_singleton]
            tauto
          by_cases hx : x ∈ m ++ n :: rest
          · simp [hx, this.mp hx]
          · simp [hx, fun hc => hx (this.mpr hc)]
        rw [heq, List.length_cons]
        have h2 := count_drop_one univ hu m n (hdis n (List.mem_cons_self n rest))
          (hsub n (List.mem_cons_self n rest))
        omega
      · intro x hx
        simp only [List.mem_append, List.mem_singleton]
        push_neg
        refine ⟨hdis x (List.mem_cons_of_mem n hx), ?_⟩
        intro hc
        exact (List.nodup_cons.mp hnd).1 (hc ▸ hx)
      · exact fun x hx => hsub x (List.mem_cons_of_mem n hx)

/-! ### BFS expansion structure and termination -/

theorem bfs_expand_facts (endV : Option String) (v : String) :
    ∀ (ns : List (String × ℚ)) (st : BfsSt),
      ∃ nw : List String,
        (bfs_expand endV v ns st).1.marked = st.marked ++ nw ∧
        (bfs_expand endV v ns st).1.queue = st.queue ++ nw ∧
        nw.Nodup ∧
        (∀ n ∈ nw, n ∈ ns.map Prod.fst ∧ n ∉ st.marked) := by
  intro ns
  induction ns with
  | nil =>
      intro st
      exact ⟨[], by simp [bfs_expand], by simp [bfs_expand], List.nodup_nil, by simp⟩
  | cons p ns ih =>
      intro st
      by_cases hm : p.1 ∈ st.marked
      · by_cases he : endV = some p.1
        · refine ⟨[], ?_, ?_, List.nodup_nil, by simp⟩
          · simp [bfs_expand, hm, he]
          · simp [bfs_expand, hm, he]
        · rcases ih st with ⟨nw, h1, h2, h3, h4⟩
          refine ⟨nw, ?_, ?_, h3, ?_⟩
          · simpa [bfs_expand, hm, he] using h1
          · simpa [bfs_expand, hm, he] using h2
          · intro n hn
            exact ⟨List.mem_cons_of_mem _ (h4 n hn).1, (h4 n hn).2⟩
      · by_cases he : endV = some p.1
        · refine ⟨[p.1], ?_, ?_, List.nodup_singleton _, ?_⟩
          · simp [bfs_expand, hm, he]
          · simp [bfs_expand, hm, he]
          · intro n hn
            rcases List.mem_singleton.mp hn with rfl
            exact ⟨List.mem_cons_self _ _, hm⟩
        · rcases ih ⟨st.marked ++ [p.1], st.queue ++ [p.1],
              st.pm.map (fun m => updateAssoc m p.1 (some v))⟩ with ⟨nw, h1, h2, h3, h4⟩
          refine ⟨p.1 :: nw, ?_, ?_, ?_, ?_⟩
          · have : bfs_expand endV v (p :: ns) st = bfs_expand endV v ns
                ⟨st.marked ++ [p.1], st.queue ++ [p.1],
                  st.pm.map (fun m => updateAssoc m p.1 (some v))⟩ := by
              simp [bfs_expand, hm, he]
            rw [this, h1]
            simp
          · have : bfs_expand endV v (p :: ns) st = bfs_expand endV v ns
                ⟨st.marked ++ [p.1], st.queue ++ [p.1],
                  st.pm.map (fun m => updateAssoc m p.1 (some v))⟩ := by
              simp [bfs_expand, hm, he]
            rw [this, h2]
            simp
          · refine List.nodup_cons.mpr ⟨?_, h3⟩
            intro hc
            have := (h4 _ hc).2
            simp at this
          · intro n hn
            rcases List.mem_cons.mp hn with rfl | hn
            · exact ⟨List.mem_cons_self _ _, hm⟩
            · refine ⟨List.mem_cons_of_mem _ (h4 n hn).1, ?_⟩
              intro hc
              exact (h4 n hn).2 (List.mem_append.mpr (Or.inl hc))

theorem bfs_loop_isSome (hp : Heap) (start : String) (endV : Option String) :
    ∀ (fuel : Nat) (g : Graph) (st : BfsSt),
      (∀ x ∈ st.queue, x ∈ traversalNames hp start) →
      2 * ((traversalNames hp start).filter (fun x => decide (x ∉ st.marked))).length
          + st.queue.length < fuel →
      (bfs_loop hp endV fuel g st).isSome := by
  intro fuel
  induction fuel with
  | zero =>
      intro g st _ hlt
      omega
  | succ f ih =>
      intro g st hq hlt
      cases hqv : st.queue with
      | nil =>
          simp [bfs_loop, hqv]
      | cons v rest =>
          simp only [bfs_loop, hqv]
          by_cases hres : (validate_vertex hp g v).1
          · rw [if_pos hres]
            rcases bfs_expand_facts endV v (resolve hp v).neighbors
                ⟨st.marked, rest, st.pm⟩ with ⟨nw, h1, h2, h3, h4⟩
            by_cases hex : (bfs_expand endV v (resolve hp v).neighbors
                ⟨st.marked, rest, st.pm⟩).2
            · simp [hex]
            · rw [if_neg hex]
              apply ih
              · intro x hx
                rw [h2] at hx
                rcases List.mem_append.mp hx with hx | hx
                · exact hq x (by rw [hqv]; exact List.mem_cons_of_mem v hx)
                · exact neighbor_mem_traversalNames hp start v x (h4 x hx).1
              · rw [h1, h2]
                have hcount := count_drop (traversalNames hp start)
                  (traversalNames_nodup hp start) nw st.marked
                  (fun x hx => (h4 x hx).2) h3
                  (fun x hx => neighbor_mem_traversalNames hp start v x (h4 x hx).1)
                have hql : st.queue.length = rest.length + 1 := by rw [hqv]; rfl
                simp only [List.length_append]
                omega
          · simp [hres]

/-! ### Dijkstra relaxation structure and termination -/

theorem relax_facts (v : String) (d : ℚ) :
    ∀ (ns : List (String × ℚ)) (st : DSt) (st' : DSt),
      relax_neighbors v d ns st = .ok st' →
        st'.visited = st.visited ∧
        st'.pq.length ≤ st.pq.length + ns.length ∧
        (∀ e ∈ st'.pq, e ∈ st.pq ∨ e.2 ∈ ns.map Prod.fst) := by
  intro ns
  induction ns with
  | nil =>
      intro st st' h
      simp only [relax_neighbors] at h
      cases h
      exact ⟨rfl, by simp, fun e he => Or.inl he⟩
  | cons p ns ih =>
      intro st st' h
      simp only [relax_neighbors] at h
      cases hl : lookupAssoc st.dist p.1 with
      | none => rw [hl] at h; cases h
      | some dn =>
          rw [hl] at h
          have h2 : (if ltInf (d + p.2) dn = true then
              relax_neighbors v d ns
                ⟨updateAssoc st.dist p.1 (some (d + p.2)), st.pq ++ [(d + p.2, p.1)],
                  st.visited, st.pm.map (fun m => updateAssoc m p.1 (some v))⟩
            else relax_neighbors v d ns st) = Except.ok st' := h
          clear h
          by_cases hlt : ltInf (d + p.2) dn
          · rw [if_pos hlt] at h2
            rcases ih _ _ h2 with ⟨hv, hlen, hmem⟩
            refine ⟨hv, ?_, ?_⟩
            · simp only [List.length_append, List.length_singleton] at hlen
              simp only [List.length_cons]
              omega
            · intro e he
              rcases hmem e he with he2 | he2
              · rcases List.mem_append.mp he2 with he3 | he3
                · exact Or.inl he3
                · right
                  rcases List.mem_singleton.mp he3 with rfl
                  exact List.mem_cons_self _ _
              · exact Or.inr (List.mem_cons_of_mem _ he2)
          · rw [if_neg hlt] at h2
            rcases ih _ _ h2 with ⟨hv, hlen, hmem⟩
            refine ⟨hv, by simp only [List.length_cons]; omega, ?_⟩
            intro e he
            rcases hmem e he with he2 | he2
            · exact Or.inl he2
            · exact Or.inr (List.mem_cons_of_mem _ he2)

theorem sum_map_erase (f : String → Nat) :
    ∀ (l : List String) (x : String), x ∈ l →
      ((l.erase x).map f).sum + f x = (l.map f).sum := by
  intro l x hx
  have hperm : l.Perm (x :: l.erase x) := List.perm_cons_erase hx
  have : (l.map f).Perm ((x :: l.erase x).map f) := hperm.map f
  rw [this.sum_eq]
  simp [Nat.add_comm]

theorem dijkstra_loop_isSome (hp : Heap) (start : String) (endV : Option String) :
    ∀ (fuel : Nat) (st : DSt),
      (∀ e ∈ st.pq, e.2 ∈ traversalNames hp start) →
      st.pq.length +
        (((traversalNames hp start).filter (fun x => decide (x ∉ st.visited))).map
          (fun n => (resolve hp n).neighbors.length + 1)).sum < fuel →
      (dijkstra_loop hp endV fuel st).isSome := by
  intro fuel
  induction fuel with
  | zero =>
      intro st _ hlt
      omega
  | succ f ih =>
      intro st hq hlt
      cases hpop : popMin st.pq with
      | none => simp [dijkstra_loop, hpop]
      | some pr =>
          rcases pr with ⟨e, pq'⟩
          have hlen : st.pq.length = pq'.length + 1 := popMin_length hpop
          simp only [dijkstra_loop, hpop]
          by_cases hvis : e.2 ∈ st.visited
          · rw [if_pos hvis]
            apply ih
            · intro x hx
              exact hq x (popMin_sub hpop hx)
            · show pq'.length + (((traversalNames hp start).filter
                  (fun x => decide (x ∉ st.visited))).map
                  (fun n => (resolve hp n).neighbors.length + 1)).sum < f
              omega
          · rw [if_neg hvis]
            cases hrel : relax_neighbors e.2 e.1 (resolve hp e.2).neighbors
                ⟨st.dist, pq', st.visited ++ [e.2], st.pm⟩ with
            | error er => simp
            | ok st' =>
                rcases relax_facts e.2 e.1 _ _ _ hrel with ⟨hv, hplen, hpmem⟩
                have hx_univ : e.2 ∈ traversalNames hp start := hq e (popMin_mem hpop)
                have hx_filter : e.2 ∈ (traversalNames hp start).filter
                    (fun x => decide (x ∉ st.visited)) :=
                  List.mem_filter.mpr ⟨hx_univ, by simpa using hvis⟩
                have hsum := sum_map_erase (fun n => (resolve hp n).neighbors.length + 1)
                  ((traversalNames hp start).filter (fun x => decide (x ∉ st.visited)))
                  e.2 hx_filter
                have hfeq : (traversalNames hp start).filter
                    (fun x => decide (x ∉ st.visited ++ [e.2])) =
                    ((traversalNames hp start).filter
                      (fun x => decide (x ∉ st.visited))).erase e.2 := by
                  rw [((traversalNames_nodup hp start).filter _).erase_eq_filter,
                    List.filter_filter]
                  apply List.filter_congr
                  intro x _
                  by_cases h1 : x = e.2
                  · subst h1
                    simp
                  · by_cases h2 : x ∈ st.visited <;> simp [h1, h2]
                have hv2 : st'.visited = st.visited ++ [e.2] := hv
                have hplen2 : st'.pq.length ≤ pq'.length + (resolve hp e.2).neighbors.length :=
                  hplen
                have hsum2 : ((((traversalNames hp start).filter
                    (fun x => decide (x ∉ st.visited))).erase e.2).map
                    (fun n => (resolve hp n).neighbors.length + 1)).sum +
                    ((resolve hp e.2).neighbors.length + 1) =
                    (((traversalNames hp start).filter
                      (fun x => decide (x ∉ st.visited))).map
                      (fun n => (resolve hp n).neighbors.length + 1)).sum := hsum
                show (if endV = some e.2 then some (Except.ok (true, st'))
                    else dijkstra_loop hp endV f st').isSome = true
                by_cases hend : endV = some e.2
                · simp [hend]
                · rw [if_neg hend]
                  apply ih
                  · intro x hx
                    rcases hpmem x hx with hx2 | hx2
                    · exact hq x (popMin_sub hpop hx2)
                    · exact neighbor_mem_traversalNames hp start e.2 x.2 hx2
                  · rw [hv2, hfeq]
                    omega

/-! ### Claim C6 -/

/-- C6 counterexample: the claim says evaluating `s < x` or `s > x` raises
`TypeError` for every operand `x` that is not a `_ShortestDistance`; but a
falsy operand (Python `None`, `0`, `""`, ...) makes `__lt__`/`__gt__` return
`False` without raising, because of the `if not other: return False` guard. -/
theorem sd_compare_falsy_counterexample :
    sd_lt ⟨0, "x"⟩ (PyObj.nonSD false) = Except.ok false ∧
    sd_gt ⟨0, "x"⟩ (PyObj.nonSD false) = Except.ok false ∧
    (Except.ok false : Except GErr Bool) ≠ Except.error GErr.typeError := by
  refine ⟨rfl, rfl, ?_⟩
  intro h
  cases h

/-- C6 (amended): for a `_ShortestDistance` `s` and an operand `x` that is not
a `_ShortestDistance` instance, `s < x` and `s > x` raise `TypeError` exactly
when `x` is truthy; a falsy operand returns `False` without raising. -/
theorem sd_compare_mismatch (s : SDist) (o : PyObj) (h : ∀ t, o ≠ PyObj.sd t) :
    sd_lt s o = (if o.isTruthy then Except.error GErr.typeError else Except.ok false) ∧
    sd_gt s o = (if o.isTruthy then Except.error GErr.typeError else Except.ok false) := by
  cases o with
  | sd t => exact absurd rfl (h t)
  | nonSD b => cases b <;> simp [sd_lt, sd_gt, PyObj.isTruthy]

/-- Witness for `sd_compare_mismatch` at a concrete truthy non-instance. -/
theorem sd_compare_mismatch_witness :
    sd_lt ⟨1, "v"⟩ (PyObj.nonSD true) =
      (if (PyObj.nonSD true).isTruthy then Except.error GErr.typeError
        else Except.ok false) :=
  (sd_compare_mismatch ⟨1, "v"⟩ (PyObj.nonSD true) (fun t h => PyObj.noConfusion h)).1

/-! ### Claim C7 -/

/-- C7: calling `add_vertex` a second time with the same vertex identity (same
name) leaves the graph state unchanged, hence every
`breadth_first_search`/`dijkstra_search` result (value or error) unchanged.
(`nonValidated` is a Python set, so the model assumes it has no duplicates.) -/
theorem add_vertex_idempotent (hp : Heap) (g : Graph) (v : String)
    (hnd : g.nonValidated.Nodup) :
    add_vertex hp (add_vertex hp g v) v = add_vertex hp g v ∧
    (∀ a b, breadth_first_search hp (add_vertex hp (add_vertex hp g v) v) a b =
        breadth_first_search hp (add_vertex hp g v) a b) ∧
    (∀ a b, dijkstra_search hp (add_vertex hp (add_vertex hp g v) v) a b =
        dijkstra_search hp (add_vertex hp g v) a b) := by
  have h := add_vertex_idem hp g v hnd
  exact ⟨h, fun a b => by rw [h], fun a b => by rw [h]⟩

/-- Witness for `add_vertex_idempotent` on a concrete one-vertex graph. -/
theorem add_vertex_idempotent_witness :
    add_vertex [⟨"a", []⟩] (add_vertex [⟨"a", []⟩] ⟨[], []⟩ "a") "a" =
      add_vertex [⟨"a", []⟩] ⟨[], []⟩ "a" :=
  (add_vertex_idempotent [⟨"a", []⟩] ⟨[], []⟩ "a" List.nodup_nil).1

/-! ### Claim C8 -/

/-- C8: both traversal loops terminate on every finite graph, self-loops and
cycles included: with the fuel the entry points supply, `_breadth_first_search`
and `_dijkstra_search` always deliver a result (a value or a raised error,
never the fuel-exhaustion marker `none`). -/
theorem searches_terminate (hp : Heap) (g : Graph) (start : String)
    (endV : Option String) (pm0 : Option PMap) :
    (breadth_first_search_core hp g start endV pm0).isSome ∧
    (dijkstra_search_core hp g start endV pm0).isSome := by
  constructor
  · apply bfs_loop_isSome hp start endV
    · intro x hx
      rw [List.mem_singleton.mp hx]
      exact start_mem_traversalNames hp start
    · have h1 := List.length_filter_le (fun x => decide (x ∉ [start]))
        (traversalNames hp start)
      unfold bfsFuel
      simp only [List.length_singleton]
      omega
  · apply dijkstra_loop_isSome hp start endV
    · intro e he
      rw [List.mem_singleton.mp he]
      exact start_mem_traversalNames hp start
    · have hfeq : (traversalNames hp start).filter
          (fun x => decide (x ∉ ([] : List String))) = traversalNames hp start :=
        List.filter_eq_self.mpr (fun a _ => by simp)
      unfold dijkstraFuel
      rw [hfeq]
      simp only [List.length_singleton]
      omega

/-! ### Reachability steps and plain-BFS error behavior (claim C5) -/

theorem reach_step {hp : Heap} {start v n : String}
    (hv : v = start ∨ ReachNE hp start v) (he : hasEdge hp v n) :
    ReachNE hp start n := by
  rcases hv with rfl | ⟨x, l, hc⟩
  · exact ⟨n, [], Chain.cons he (Chain.nil n)⟩
  · have := chain_snoc_edge hc he
    exact ⟨x, l ++ [n], this⟩

theorem bfs_loop_error (hp : Heap) (start : String) (endV : Option String) :
    ∀ (fuel : Nat) (g : Graph) (st : BfsSt) (e : GErr),
      (∀ x ∈ st.queue, x = start ∨ ReachNE hp start x) →
      bfs_loop hp endV fuel g st = some (.error e) →
      ∃ v, e = GErr.refIntegrity v ∧ v ∈ g.nonValidated ∧
        (∃ p ∈ (resolve hp v).neighbors, p.1 ∉ g.vertexes) ∧
        (v = start ∨ ReachNE hp start v) := by
  intro fuel
  induction fuel with
  | zero =>
      intro g st e _ h
      simp [bfs_loop] at h
  | succ f ih =>
      intro g st e hq h
      cases hqv : st.queue with
      | nil => simp [bfs_loop, hqv] at h
      | cons v rest =>
          simp only [bfs_loop, hqv] at h
          have hv : v = start ∨ ReachNE hp start v :=
            hq v (by rw [hqv]; exact List.mem_cons_self _ _)
          by_cases hres : (validate_vertex hp g v).1
          · rw [if_pos hres] at h
            rcases bfs_expand_facts endV v (resolve hp v).neighbors
                ⟨st.marked, rest, st.pm⟩ with ⟨nw, h1, h2, h3, h4⟩
            by_cases hex : (bfs_expand endV v (resolve hp v).neighbors
                ⟨st.marked, rest, st.pm⟩).2
            · rw [if_pos hex] at h
              cases h
            · rw [if_neg hex] at h
              have hq' : ∀ x ∈ (bfs_expand endV v (resolve hp v).neighbors
                  ⟨st.marked, rest, st.pm⟩).1.queue, x = start ∨ ReachNE hp start x := by
                intro x hx
                rw [h2] at hx
                rcases List.mem_append.mp hx with hx | hx
                · exact hq x (by rw [hqv]; exact List.mem_cons_of_mem _ hx)
                · exact Or.inr (reach_step hv (h4 x hx).1)
              rcases ih (validate_vertex hp g v).2 _ e hq' h with ⟨w, hw1, hw2, hw3, hw4⟩
              refine ⟨w, hw1, validate_vertex_nonValidated_sub hp g v w hw2, ?_, hw4⟩
              rw [validate_vertex_vertexes hp g v] at hw3
              exact hw3
          · rw [if_neg hres] at h
            have he : e = GErr.refIntegrity v := by
              have h' : some (Except.error (GErr.refIntegrity v)) =
                  (some (Except.error e) :
                    Option (Except GErr (Bool × Graph × BfsSt))) := h
              cases h'
              rfl
            rcases validate_vertex_false hp g v (Bool.not_eq_true _ ▸ eq_false_of_ne_true hres) with
              ⟨hv1, _, hv3⟩
            exact ⟨v, he, hv1, hv3, hv⟩

theorem bfs_loop_no_error (hp : Heap) (start : String) (endV : Option String) :
    ∀ (fuel : Nat) (g : Graph) (st : BfsSt),
      (∀ x ∈ st.queue, x = start ∨ ReachNE hp start x) →
      (∀ v ∈ g.nonValidated, (v = start ∨ ReachNE hp start v) →
        ∀ p ∈ (resolve hp v).neighbors, p.1 ∈ g.vertexes) →
      ∀ e, bfs_loop hp endV fuel g st ≠ some (.error e) := by
  intro fuel
  induction fuel with
  | zero =>
      intro g st _ _ e h
      simp [bfs_loop] at h
  | succ f ih =>
      intro g st hq hgood e h
      cases hqv : st.queue with
      | nil => simp [bfs_loop, hqv] at h
      | cons v rest =>
          simp only [bfs_loop, hqv] at h
          have hv : v = start ∨ ReachNE hp start v :=
            hq v (by rw [hqv]; exact List.mem_cons_self _ _)
          have hres : (validate_vertex hp g v).1 = true := by
            by_cases hmem : v ∈ g.nonValidated
            · exact validate_vertex_true_of_closed hp g v (hgood v hmem hv)
            · rw [validate_vertex_eq_skip hp hmem]
          rw [if_pos hres] at h
          rcases bfs_expand_facts endV v (resolve hp v).neighbors
              ⟨st.marked, rest, st.pm⟩ with ⟨nw, h1, h2, h3, h4⟩
          by_cases hex : (bfs_expand endV v (resolve hp v).neighbors
              ⟨st.marked, rest, st.pm⟩).2
          · rw [if_pos hex] at h
            cases h
          · rw [if_neg hex] at h
            refine ih (validate_vertex hp g v).2 _ ?_ ?_ e h
            · intro x hx
              rw [h2] at hx
              rcases List.mem_append.mp hx with hx | hx
              · exact hq x (by rw [hqv]; exact List.mem_cons_of_mem _ hx)
              · exact Or.inr (reach_step hv (h4 x hx).1)
            · intro w hw hwreach
              rw [validate_vertex_vertexes hp g v]
              exact hgood w (validate_vertex_nonValidated_sub hp g v w hw) hwreach

/-- C5: BFS validation behavior.  (i) A failed `_validate_vertex` call leaves
the vertex in the non-validated set (state unchanged) and means some neighbor
is missing from the index.  (ii) Any error a BFS run raises is the
referential-integrity `ValueError` naming a dequeued vertex: one that was
non-validated, has a neighbor missing from the index, and was actually
traversed (it is the start or reachable from it).  (iii) If every
non-validated vertex the traversal can dequeue (start or reachable) has all
neighbors present, the run raises nothing — bad vertices that are never
dequeued cause no error. -/
theorem bfs_refintegrity_exactness :
    (∀ (hp : Heap) (g : Graph) (v : String), (validate_vertex hp g v).1 = false →
      v ∈ g.nonValidated ∧ (validate_vertex hp g v).2 = g ∧
        ∃ p ∈ (resolve hp v).neighbors, p.1 ∉ g.vertexes) ∧
    (∀ (hp : Heap) (g : Graph) (start : String) (endV : Option String)
        (pm0 : Option PMap) (e : GErr),
      breadth_first_search_core hp g start endV pm0 = some (.error e) →
      ∃ v, e = GErr.refIntegrity v ∧ v ∈ g.nonValidated ∧
        (∃ p ∈ (resolve hp v).neighbors, p.1 ∉ g.vertexes) ∧
        (v = start ∨ ReachNE hp start v)) ∧
    (∀ (hp : Heap) (g : Graph) (start : String) (endV : Option String)
        (pm0 : Option PMap),
      (∀ v ∈ g.nonValidated, (v = start ∨ ReachNE hp start v) →
        ∀ p ∈ (resolve hp v).neighbors, p.1 ∈ g.vertexes) →
      ∃ r, breadth_first_search_core hp g start endV pm0 = some (.ok r)) := by
  refine ⟨validate_vertex_false, ?_, ?_⟩
  · intro hp g start endV pm0 e h
    exact bfs_loop_error hp start endV (bfsFuel hp start) g _ e
      (by
        intro x hx
        rw [List.mem_singleton.mp hx]
        exact Or.inl rfl) h
  · intro hp g start endV pm0 hgood
    have hsome := (searches_terminate hp g start endV pm0).1
    have hne := bfs_loop_no_error hp start endV (bfsFuel hp start) g
      ⟨[start], [start], pm0.map (fun m => updateAssoc m start none)⟩
      (by
        intro x hx
        rw [List.mem_singleton.mp hx]
        exact Or.inl rfl) hgood
    cases hbc : breadth_first_search_core hp g start endV pm0 with
    | none => rw [hbc] at hsome; cases hsome
    | some r =>
        cases r with
        | error e =>
            exfalso
            exact hne e hbc
        | ok r => exact ⟨r, rfl⟩

/-- Witness for `bfs_refintegrity_exactness`: a one-vertex graph whose vertex
has a neighbor never added to the graph; BFS raises the error naming it. -/
theorem bfs_refintegrity_exactness_witness :
    ∃ v, GErr.refIntegrity "a" = GErr.refIntegrity v ∧
      v ∈ (Graph.mk ["a"] ["a"]).nonValidated ∧
      (∃ p ∈ (resolve [⟨"a", [("b", 1)]⟩] v).neighbors,
        p.1 ∉ (Graph.mk ["a"] ["a"]).vertexes) ∧
      (v = "a" ∨ ReachNE [⟨"a", [("b", 1)]⟩] "a" v) :=
  bfs_refintegrity_exactness.2.1 [⟨"a", [("b", 1)]⟩] ⟨["a"], ["a"]⟩ "a" (some "b")
    none (GErr.refIntegrity "a") (by rfl)

/-! ### Dijkstra error behavior (claim C9) -/

theorem relax_keys (v : String) (d : ℚ) :
    ∀ (ns : List (String × ℚ)) (st st' : DSt),
      relax_neighbors v d ns st = .ok st' →
      ∀ n, (lookupAssoc st'.dist n).isSome ↔ (lookupAssoc st.dist n).isSome := by
  intro ns
  induction ns with
  | nil =>
      intro st st' h n
      simp only [relax_neighbors] at h
      cases h
      rfl
  | cons p ns ih =>
      intro st st' h n
      simp only [relax_neighbors] at h
      cases hl : lookupAssoc st.dist p.1 with
      | none => rw [hl] at h; cases h
      | some dn =>
          rw [hl] at h
          have h2 : (if ltInf (d + p.2) dn = true then
              relax_neighbors v d ns
                ⟨updateAssoc st.dist p.1 (some (d + p.2)), st.pq ++ [(d + p.2, p.1)],
                  st.visited, st.pm.map (fun m => updateAssoc m p.1 (some v))⟩
            else relax_neighbors v d ns st) = Except.ok st' := h
          clear h
          by_cases hlt : ltInf (d + p.2) dn
          · rw [if_pos hlt] at h2
            rw [ih _ _ h2 n]
            show (lookupAssoc (updateAssoc st.dist p.1 (some (d + p.2))) n).isSome = true ↔
              (lookupAssoc st.dist n).isSome = true
            rw [lookupAssoc_updateAssoc]
            by_cases hn : n = p.1
            · rw [if_pos hn, hn, hl]
              simp
            · rw [if_neg hn]
          · rw [if_neg hlt] at h2
            exact ih _ _ h2 n

theorem relax_error (v : String) (d : ℚ) :
    ∀ (ns : List (String × ℚ)) (st : DSt) (e : GErr),
      relax_neighbors v d ns st = .error e →
      ∃ p ∈ ns, e = GErr.keyError p.1 ∧ lookupAssoc st.dist p.1 = none := by
  intro ns
  induction ns with
  | nil =>
      intro st e h
      simp only [relax_neighbors] at h
      cases h
  | cons p ns ih =>
      intro st e h
      simp only [relax_neighbors] at h
      cases hl : lookupAssoc st.dist p.1 with
      | none =>
          rw [hl] at h
          have h2 : (Except.error (GErr.keyError p.1) : Except GErr DSt) =
              Except.error e := h
          cases h2
          exact ⟨p, List.mem_cons_self _ _, rfl, hl⟩
      | some dn =>
          rw [hl] at h
          have h2 : (if ltInf (d + p.2) dn = true then
              relax_neighbors v d ns
                ⟨updateAssoc st.dist p.1 (some (d + p.2)), st.pq ++ [(d + p.2, p.1)],
                  st.visited, st.pm.map (fun m => updateAssoc m p.1 (some v))⟩
            else relax_neighbors v d ns st) = Except.error e := h
          clear h
          by_cases hlt : ltInf (d + p.2) dn
          · rw [if_pos hlt] at h2
            rcases ih _ _ h2 with ⟨q, hq1, hq2, hq3⟩
            refine ⟨q, List.mem_cons_of_mem _ hq1, hq2, ?_⟩
            rw [lookupAssoc_updateAssoc] at hq3
            by_cases hn : q.1 = p.1
            · rw [if_pos hn] at hq3
              cases hq3
            · rw [if_neg hn] at hq3
              exact hq3
          · rw [if_neg hlt] at h2
            rcases ih _ _ h2 with ⟨q, hq1, hq2, hq3⟩
            exact ⟨q, List.mem_cons_of_mem _ hq1, hq2, hq3⟩

theorem relax_ok (v : String) (d : ℚ) :
    ∀ (ns : List (String × ℚ)) (st : DSt),
      (∀ p ∈ ns, (lookupAssoc st.dist p.1).isSome) →
      ∃ st', relax_neighbors v d ns st = .ok st' := by
  intro ns
  induction ns with
  | nil =>
      intro st _
      exact ⟨st, rfl⟩
  | cons p ns ih =>
      intro st hkeys
      have hk := hkeys p (List.mem_cons_self _ _)
      cases hl : lookupAssoc st.dist p.1 with
      | none => rw [hl] at hk; cases hk
      | some dn =>
          show ∃ st', (match lookupAssoc st.dist p.1 with
            | none => Except.error (GErr.keyError p.1)
            | some dn =>
              if ltInf (d + p.2) dn = true then
                relax_neighbors v d ns
                  ⟨updateAssoc st.dist p.1 (some (d + p.2)), st.pq ++ [(d + p.2, p.1)],
                    st.visited, st.pm.map (fun m => updateAssoc m p.1 (some v))⟩
              else relax_neighbors v d ns st) = Except.ok st'
          rw [hl]
          show ∃ st', (if ltInf (d + p.2) dn = true then
              relax_neighbors v d ns
                ⟨updateAssoc st.dist p.1 (some (d + p.2)), st.pq ++ [(d + p.2, p.1)],
                  st.visited, st.pm.map (fun m => updateAssoc m p.1 (some v))⟩
            else relax_neighbors v d ns st) = Except.ok st'
          by_cases hlt : ltInf (d + p.2) dn
          · rw [if_pos hlt]
            apply ih
            intro q hq
            show (lookupAssoc (updateAssoc st.dist p.1 (some (d + p.2))) q.1).isSome = true
            rw [lookupAssoc_updateAssoc]
            by_cases hn : q.1 = p.1
            · rw [if_pos hn]
              rfl
            · rw [if_neg hn]
              exact hkeys q (List.mem_cons_of_mem _ hq)
          · rw [if_neg hlt]
            exact ih st (fun q hq => hkeys q (List.mem_cons_of_mem _ hq))

theorem dijkstra_loop_error (hp : Heap) (g : Graph) (start : String) (endV : Option String) :
    ∀ (fuel : Nat) (st : DSt) (e : GErr),
      (∀ x ∈ st.pq, x.2 = start ∨ ReachNE hp start x.2) →
      (∀ n, (lookupAssoc st.dist n).isSome ↔ (n ∈ g.vertexes ∨ n = start)) →
      dijkstra_loop hp endV fuel st = some (.error e) →
      ∃ n v w, e = GErr.keyError n ∧ n ∉ g.vertexes ∧ n ≠ start ∧
        (n, w) ∈ (resolve hp v).neighbors ∧ (v = start ∨ ReachNE hp start v) := by
  intro fuel
  induction fuel with
  | zero =>
      intro st e _ _ h
      simp [dijkstra_loop] at h
  | succ f ih =>
      intro st e hq hkeys h
      cases hpop : popMin st.pq with
      | none => simp [dijkstra_loop, hpop] at h
      | some pr =>
          rcases pr with ⟨x, pq'⟩
          simp only [dijkstra_loop, hpop] at h
          have hxs : x.2 = start ∨ ReachNE hp start x.2 := hq x (popMin_mem hpop)
          by_cases hvis : x.2 ∈ st.visited
          · rw [if_pos hvis] at h
            exact ih ⟨st.dist, pq', st.visited, st.pm⟩ e
              (fun y hy => hq y (popMin_sub hpop hy)) hkeys h
          · rw [if_neg hvis] at h
            cases hrel : relax_neighbors x.2 x.1 (resolve hp x.2).neighbors
                ⟨st.dist, pq', st.visited ++ [x.2], st.pm⟩ with
            | error er =>
                rw [hrel] at h
                have h2 : (some (Except.error er) :
                    Option (Except GErr (Bool × DSt))) = some (Except.error e) := h
                have he : er = e := by
                  injection h2 with h3
                  injection h3 with h4
                rcases relax_error x.2 x.1 _ _ er hrel with ⟨q, hq1, hq2, hq3⟩
                have hq3' : lookupAssoc st.dist q.1 = none := hq3
                have hnk : ¬ (q.1 ∈ g.vertexes ∨ q.1 = start) := by
                  intro hc
                  have := (hkeys q.1).mpr hc
                  rw [hq3'] at this
                  cases this
                push_neg at hnk
                refine ⟨q.1, x.2, q.2, ?_, hnk.1, hnk.2, ?_, hxs⟩
                · rw [← he, hq2]
                · simpa using hq1
            | ok st' =>
                rw [hrel] at h
                have h2 : (if endV = some x.2 then some (Except.ok (true, st'))
                    else dijkstra_loop hp endV f st') = some (Except.error e) := h
                clear h
                by_cases hend : endV = some x.2
                · rw [if_pos hend] at h2
                  simp at h2
                · rw [if_neg hend] at h2
                  rcases relax_facts x.2 x.1 _ _ _ hrel with ⟨hv, _, hpmem⟩
                  refine ih st' e ?_ ?_ h2
                  · intro y hy
                    rcases hpmem y hy with hy2 | hy2
                    · exact hq y (popMin_sub hpop hy2)
                    · exact Or.inr (reach_step hxs hy2)
                  · intro n
                    rw [relax_keys x.2 x.1 _ _ _ hrel n]
                    exact hkeys n

theorem dijkstra_loop_no_error (hp : Heap) (g : Graph) (start : String)
    (endV : Option String) :
    ∀ (fuel : Nat) (st : DSt),
      (∀ x ∈ st.pq, x.2 = start ∨ ReachNE hp start x.2) →
      (∀ n, (lookupAssoc st.dist n).isSome ↔ (n ∈ g.vertexes ∨ n = start)) →
      TraversalClosed hp g start →
      ∀ e, dijkstra_loop hp endV fuel st ≠ some (.error e) := by
  intro fuel
  induction fuel with
  | zero =>
      intro st _ _ _ e h
      simp [dijkstra_loop] at h
  | succ f ih =>
      intro st hq hkeys hclosed e h
      cases hpop : popMin st.pq with
      | none => simp [dijkstra_loop, hpop] at h
      | some pr =>
          rcases pr with ⟨x, pq'⟩
          simp only [dijkstra_loop, hpop] at h
          have hxs : x.2 = start ∨ ReachNE hp start x.2 := hq x (popMin_mem hpop)
          by_cases hvis : x.2 ∈ st.visited
          · rw [if_pos hvis] at h
            exact ih ⟨st.dist, pq', st.visited, st.pm⟩
              (fun y hy => hq y (popMin_sub hpop hy)) hkeys hclosed e h
          · rw [if_neg hvis] at h
            have hkeysok : ∀ p ∈ (resolve hp x.2).neighbors,
                (lookupAssoc (DSt.mk st.dist pq' (st.visited ++ [x.2]) st.pm).dist
                  p.1).isSome := by
              intro p hpm
              have : p.1 ∈ g.vertexes := hclosed x.2 hxs p hpm
              exact (hkeys p.1).mpr (Or.inl this)
            rcases relax_ok x.2 x.1 (resolve hp x.2).neighbors
                ⟨st.dist, pq', st.visited ++ [x.2], st.pm⟩ hkeysok with ⟨st', hrel⟩
            rw [hrel] at h
            have h2 : (if endV = some x.2 then some (Except.ok (true, st'))
                else dijkstra_loop hp endV f st') = some (Except.error e) := h
            clear h
            by_cases hend : endV = some x.2
            · rw [if_pos hend] at h2
              simp at h2
            · rw [if_neg hend] at h2
              rcases relax_facts x.2 x.1 _ _ _ hrel with ⟨_, _, hpmem⟩
              refine ih st' ?_ ?_ hclosed e h2
              · intro y hy
                rcases hpmem y hy with hy2 | hy2
                · exact hq y (popMin_sub hpop hy2)
                · exact Or.inr (reach_step hxs hy2)
              · intro n
                rw [relax_keys x.2 x.1 _ _ _ hrel n]
                exact hkeys n

theorem dist0_keys (g : Graph) (a : String) :
    ∀ n, (lookupAssoc (updateAssoc (g.vertexes.map
        (fun v => (v, (none : Option ℚ)))) a (some 0)) n).isSome ↔
      (n ∈ g.vertexes ∨ n = a) := by
  intro n
  rw [lookupAssoc_updateAssoc]
  by_cases hn : n = a
  · simp [hn]
  · rw [if_neg hn, lookupAssoc_isSome_iff]
    have hmapeq : ((g.vertexes.map (fun v => (v, (none : Option ℚ)))).map Prod.fst) =
        g.vertexes := by
      rw [List.map_map]
      show g.vertexes.map (fun v => v) = g.vertexes
      exact List.map_id g.vertexes
    rw [hmapeq]
    constructor
    · exact fun h => Or.inl h
    · rintro (h | h)
      · exact h
      · exact absurd h hn

/-- C9: a Dijkstra run can only fail with a dictionary-lookup `KeyError` (never
the named referential-integrity error): the key is a neighbor of a traversed
(finalized) vertex, is absent from the graph's index and differs from `start`;
conversely, if every traversed vertex's neighbors are present in the index, no
distance-table lookup ever fails and the search returns a value. -/
theorem dijkstra_missing_neighbor_keyerror :
    (∀ (hp : Heap) (g : Graph) (a b : String) (e : GErr),
      dijkstra_search hp g a b = some (.error e) →
      ∃ n v w, e = GErr.keyError n ∧ n ∉ g.vertexes ∧ n ≠ a ∧
        (n, w) ∈ (resolve hp v).neighbors ∧ (v = a ∨ ReachNE hp a v)) ∧
    (∀ (hp : Heap) (g : Graph) (a b : String),
      TraversalClosed hp g a →
      ∃ r, dijkstra_search hp g a b = some (.ok r)) := by
  constructor
  · intro hp g a b e h
    have hcore : dijkstra_search_core hp g a (some b) none = some (.error e) := by
      unfold dijkstra_search at h
      cases hc : dijkstra_search_core hp g a (some b) none with
      | none => rw [hc] at h; cases h
      | some r =>
          rw [hc] at h
          cases r with
          | error e' =>
              have h2 : (some (Except.error e') : Option (Except GErr Bool)) =
                  some (.error e) := h
              injection h2 with h3
              injection h3 with h4
              rw [h4]
          | ok r' =>
              have h2 : (some (Except.ok r'.1) : Option (Except GErr Bool)) =
                  some (.error e) := h
              simp at h2
    refine dijkstra_loop_error hp g a (some b) (dijkstraFuel hp a) _ e ?_ (dist0_keys g a)
      hcore
    intro x hx
    rw [List.mem_singleton.mp hx]
    exact Or.inl rfl
  · intro hp g a b hclosed
    have hsome := (searches_terminate hp g a (some b) none).2
    have hne := dijkstra_loop_no_error hp g a (some b) (dijkstraFuel hp a)
      ⟨updateAssoc (g.vertexes.map (fun v => (v, (none : Option ℚ)))) a (some 0),
        [((0 : ℚ), a)], [], none⟩
      (by
        intro x hx
        rw [List.mem_singleton.mp hx]
        exact Or.inl rfl) (dist0_keys g a) hclosed
    unfold dijkstra_search
    cases hc : dijkstra_search_core hp g a (some b) none with
    | none => rw [hc] at hsome; cases hsome
    | some r =>
        cases r with
        | error e' =>
            exfalso
            exact hne e' hc
        | ok r' => exact ⟨r'.1, rfl⟩

/-- Witness for `dijkstra_missing_neighbor_keyerror`: the vertex `a` is
finalized while its neighbor `b` was never added to the graph, so the run
fails with `KeyError "b"`. -/
theorem dijkstra_missing_neighbor_keyerror_witness :
    ∃ n v w, GErr.keyError "b" = GErr.keyError n ∧
      n ∉ (Graph.mk ["a"] []).vertexes ∧ n ≠ "a" ∧
      (n, w) ∈ (resolve [⟨"a", [("b", 1)]⟩] v).neighbors ∧
      (v = "a" ∨ ReachNE [⟨"a", [("b", 1)]⟩] "a" v) :=
  dijkstra_missing_neighbor_keyerror.1 [⟨"a", [("b", 1)]⟩] ⟨["a"], []⟩ "a" "b"
    (GErr.keyError "b") (by rfl)

/-! ### Ghost-BFS invariants: uniqueness, cover, minimality -/

theorem assoc_fst_unique {α : Type} :
    ∀ {m : List (String × α)}, (m.map Prod.fst).Nodup →
      ∀ {a : String} {i j : α}, (a, i) ∈ m → (a, j) ∈ m → i = j := by
  intro m
  induction m with
  | nil =>
      intro _ a i j h1 _
      cases h1
  | cons p rest ih =>
      intro hnd a i j h1 h2
      simp only [List.map_cons, List.nodup_cons] at hnd
      rcases List.mem_cons.mp h1 with h1 | h1
      · rcases List.mem_cons.mp h2 with h2 | h2
        · rw [← h1] at h2
          exact (Prod.mk.injEq _ _ _ _ ▸ h2).2.symm
        · have hp1 : p.1 = a := by rw [← h1]
          exact absurd (List.mem_map.mpr ⟨(a, j), h2, rfl⟩) (hp1 ▸ hnd.1)
      · rcases List.mem_cons.mp h2 with h2 | h2
        · have hp1 : p.1 = a := by rw [← h2]
          exact absurd (List.mem_map.mpr ⟨(a, i), h1, rfl⟩) (hp1 ▸ hnd.1)
        · exact ih hnd.2 h1 h2

theorem g_cover (hp : Heap) (start : String) (endV : Option String) (t : GSt)
    (hinv : GInv hp start endV t) :
    ∀ (l : List String) (v : String), Chain hp start l v →
      (∃ k, (v, k) ∈ t.m ∧ k ≤ l.length) ∨
      (∃ x j r, (x, j) ∈ t.q ∧ Chain hp x r v ∧ j + r.length ≤ l.length) := by
  intro l
  induction l using List.reverseRecOn with
  | nil =>
      intro v hc
      have hsv : start = v := chain_target_eq hc
      rw [← hsv]
      exact Or.inl ⟨0, hinv.start_mem, by simp⟩
  | append_singleton l' b ihl =>
      intro v hc
      rcases chain_snoc_decomp hc with ⟨hvb, y, hcy, hey⟩
      subst hvb
      rcases ihl y hcy with ⟨k, hkm, hkle⟩ | ⟨x, j, r, hxq, hcr, hle⟩
      · by_cases hyq : y ∈ t.q.map Prod.fst
        · rcases List.mem_map.mp hyq with ⟨ey, heyq, heyfst⟩
          have heym : ey ∈ t.m := hinv.q_sub ey heyq
          have hey2 : ey = (y, ey.2) := by
            cases ey
            simp only at heyfst
            rw [heyfst]
          have hjeq : ey.2 = k := by
            apply assoc_fst_unique hinv.mnodup (hey2 ▸ heym) hkm
          right
          refine ⟨y, ey.2, [v], hey2 ▸ heyq, Chain.cons hey (Chain.nil v), ?_⟩
          rw [hjeq]
          simp only [List.length_append, List.length_singleton, List.length_cons,
            List.length_nil]
          omega
        · have hbm : v ∈ t.m.map Prod.fst := hinv.processed y k hkm hyq v hey
          rcases List.mem_map.mp hbm with ⟨eb, hebm, hebfst⟩
          have heb2 : eb = (v, eb.2) := by
            cases eb
            simp only at hebfst
            rw [hebfst]
          left
          refine ⟨eb.2, heb2 ▸ hebm, ?_⟩
          exact hinv.minimal v eb.2 (heb2 ▸ hebm) (l' ++ [v]) hc
      · right
        refine ⟨x, j, r ++ [v], hxq, chain_snoc_edge hcr hey, ?_⟩
        simp only [List.length_append, List.length_singleton]
        omega

theorem g_new_min (hp : Heap) (start : String) (endV : Option String) (t : GSt)
    (hinv : GInv hp start endV t) (cur : String) (k : Nat)
    (rest : List (String × Nat)) (hq : t.q = (cur, k) :: rest) :
    ∀ n, n ∉ t.m.map Prod.fst → ∀ l, Chain hp start l n → k + 1 ≤ l.length := by
  intro n hnm l hc
  rcases g_cover hp start endV t hinv l n hc with ⟨j, hjm, _⟩ | ⟨x, j, r, hxq, hcr, hle⟩
  · exact absurd (List.mem_map.mpr ⟨(n, j), hjm, rfl⟩) hnm
  · have hxm : x ∈ t.m.map Prod.fst :=
      List.mem_map.mpr ⟨(x, j), hinv.q_sub (x, j) hxq, rfl⟩
    have hxn : x ≠ n := fun h => hnm (h ▸ hxm)
    have hrne : r ≠ [] := by
      intro h
      rw [h] at hcr
      exact hxn (chain_target_eq hcr)
    have hrlen : 1 ≤ r.length := List.length_pos.mpr hrne
    have hjk : k ≤ j := by
      rw [hq] at hxq
      rcases List.mem_cons.mp hxq with h1 | h1
      · have := (Prod.mk.injEq _ _ _ _ ▸ h1).2
        omega
      · have hps := hinv.q_sorted
        rw [hq] at hps
        exact (List.pairwise_cons.mp hps).1 (x, j) h1
    omega

theorem gInit_inv (hp : Heap) (start : String) (endV : Option String) :
    GInv hp start endV (gInit start) := by
  refine ⟨⟨?_, ?_, ?_, ?_, ?_, ?_, ?_, ?_, ?_⟩, ?_, ?_, ?_, ?_, ?_⟩
  · simp [gInit]
  · simp [gInit]
  · simp [gInit]
  · simp [gInit, lookupAssoc_cons]
  · intro v k hm _
    have : (v, k) = (start, 0) := by simpa [gInit] using hm
    exact ((Prod.mk.injEq _ _ _ _ ▸ this)).1
  · intro v
    simp only [gInit]
    rw [lookupAssoc_cons]
    by_cases hv : v = start
    · simp [hv]
    · rw [if_neg (fun h => hv h.symm)]
      simp [lookupAssoc, hv]
  · intro v k hm hne
    have : (v, k) = (start, 0) := by simpa [gInit] using hm
    exact absurd ((Prod.mk.injEq _ _ _ _ ▸ this)).1 hne
  · intro v k hm
    have hvk : (v, k) = (start, 0) := by simpa [gInit] using hm
    have hv : v = start := ((Prod.mk.injEq _ _ _ _ ▸ hvk)).1
    have hk : k = 0 := ((Prod.mk.injEq _ _ _ _ ▸ hvk)).2
    subst hk
    rw [hv]
    exact ⟨[], Chain.nil start, rfl⟩
  · intro v k hm l _
    have hvk : (v, k) = (start, 0) := by simpa [gInit] using hm
    have hk : k = 0 := ((Prod.mk.injEq _ _ _ _ ▸ hvk)).2
    omega
  · intro e he
    simpa [gInit] using (by simpa [gInit] using he : e = (start, 0))
  · simp [gInit]
  · refine ⟨0, ?_⟩
    intro e he
    have : e = (start, 0) := by simpa [gInit] using he
    rw [this]
    exact ⟨le_refl 0, by omega⟩
  · intro v k hm hq
    exfalso
    apply hq
    have : (v, k) = (start, 0) := by simpa [gInit] using hm
    have hv : v = start := ((Prod.mk.injEq _ _ _ _ ▸ this)).1
    simp [gInit, hv]
  · intro v k hm hq
    exfalso
    apply hq
    have : (v, k) = (start, 0) := by simpa [gInit] using hm
    have hv : v = start := ((Prod.mk.injEq _ _ _ _ ▸ this)).1
    simp [gInit, hv]

theorem g_mark_step {hp : Heap} {start : String} {endV : Option String} {cur : String}
    {k : Nat} {t : GSt} (hinv : ExpInv hp start endV cur k t) {n : String}
    (hn : n ∈ neighborNames hp cur) (hnm : n ∉ t.m.map Prod.fst) :
    ExpInv hp start endV cur k
      ⟨t.m ++ [(n, k + 1)], t.q ++ [(n, k + 1)], updateAssoc t.pm n (some cur)⟩ := by
  have hnpm : n ∉ t.pm.map Prod.fst := by
    intro hmem
    exact hnm ((hinv.pm_dom n).mp ((lookupAssoc_isSome_iff t.pm n).mpr hmem))
  have hpmkeys : (updateAssoc t.pm n (some cur)).map Prod.fst = t.pm.map Prod.fst ++ [n] :=
    updateAssoc_map_fst_not_mem t.pm n (some cur) hnpm
  have hmkeys : ((t.m ++ [(n, k + 1)]).map Prod.fst) = t.m.map Prod.fst ++ [n] := by
    simp
  have hnstart : n ≠ start := by
    intro h
    exact hnm (h ▸ List.mem_map.mpr ⟨(start, 0), hinv.start_mem, rfl⟩)
  have hlk : ∀ x, lookupAssoc (updateAssoc t.pm n (some cur)) x =
      if x = n then some (some cur) else lookupAssoc t.pm x :=
    fun x => lookupAssoc_updateAssoc t.pm n x (some cur)
  refine ⟨⟨?_, ?_, ?_, ?_, ?_, ?_, ?_, ?_, ?_⟩, ?_, ?_, ?_, ?_, ?_, ?_, ?_⟩
  · rw [hmkeys]
    simp only [List.nodup_append, List.nodup_singleton, List.disjoint_singleton]
    exact ⟨hinv.mnodup, trivial, hnm⟩
  · rw [hpmkeys]
    simp only [List.nodup_append, List.nodup_singleton, List.disjoint_singleton]
    exact ⟨hinv.pm_nodup, trivial, hnpm⟩
  · exact List.mem_append.mpr (Or.inl hinv.start_mem)
  · rw [hlk start, if_neg (fun h => hnstart h.symm)]
    exact hinv.pm_start
  · intro v j hm hj
    rcases List.mem_append.mp hm with hm | hm
    · exact hinv.depth_zero v j hm hj
    · have : (v, j) = (n, k + 1) := by simpa using hm
      have hy : j = k + 1 := ((Prod.mk.injEq _ _ _ _ ▸ this)).2
      omega
  · intro v
    rw [hlk v, hmkeys]
    by_cases hv : v = n
    · simp [hv]
    · rw [if_neg hv]
      simp only [List.mem_append, List.mem_singleton]
      rw [hinv.pm_dom v]
      exact ⟨fun h => Or.inl h, fun h => h.resolve_right hv⟩
  · intro v j hm hne
    rcases List.mem_append.mp hm with hm | hm
    · rcases hinv.parent v j hm hne with ⟨u, ju, hlku, hum, hju, he⟩
      have hvn : v ≠ n := by
        intro h
        exact hnm (h ▸ List.mem_map.mpr ⟨(v, j), hm, rfl⟩)
      exact ⟨u, ju, by rw [hlk v, if_neg hvn]; exact hlku,
        List.mem_append.mpr (Or.inl hum), hju, he⟩
    · have hvj : (v, j) = (n, k + 1) := by simpa using hm
      have hv : v = n := ((Prod.mk.injEq _ _ _ _ ▸ hvj)).1
      have hj : j = k + 1 := ((Prod.mk.injEq _ _ _ _ ▸ hvj)).2
      refine ⟨cur, k, by rw [hlk v, if_pos hv], List.mem_append.mpr (Or.inl hinv.cur_mem),
        by omega, ?_⟩
      rw [hv]
      exact hn
  · intro v j hm
    rcases List.mem_append.mp hm with hm | hm
    · exact hinv.sound v j hm
    · have hvj : (v, j) = (n, k + 1) := by simpa using hm
      have hv : v = n := ((Prod.mk.injEq _ _ _ _ ▸ hvj)).1
      have hj : j = k + 1 := ((Prod.mk.injEq _ _ _ _ ▸ hvj)).2
      rcases hinv.sound cur k hinv.cur_mem with ⟨l, hc, hl⟩
      have he : hasEdge hp cur n := hn
      refine ⟨l ++ [n], ?_, ?_⟩
      · rw [hv]
        exact chain_snoc_edge hc he
      · simp only [List.length_append, List.length_singleton]
        omega
  · intro v j hm l hc
    rcases List.mem_append.mp hm with hm | hm
    · exact hinv.minimal v j hm l hc
    · have hvj : (v, j) = (n, k + 1) := by simpa using hm
      have hv : v = n := ((Prod.mk.injEq _ _ _ _ ▸ hvj)).1
      have hj : j = k + 1 := ((Prod.mk.injEq _ _ _ _ ▸ hvj)).2
      rw [hj]
      exact hinv.new_min n hnm l (hv ▸ hc)
  · intro e he
    rcases List.mem_append.mp he with he | he
    · exact List.mem_append.mpr (Or.inl (hinv.q_sub e he))
    · exact List.mem_append.mpr (Or.inr he)
  · refine List.pairwise_append.mpr ⟨hinv.q_sorted, List.pairwise_singleton _ _, ?_⟩
    intro a ha b hb
    have hb2 : b = (n, k + 1) := by simpa using hb
    rw [hb2]
    exact (hinv.q_bound a ha).2
  · intro e he
    rcases List.mem_append.mp he with he | he
    · exact hinv.q_bound e he
    · have he2 : e = (n, k + 1) := by simpa using he
      rw [he2]
      exact ⟨by omega, le_refl _⟩
  · exact List.mem_append.mpr (Or.inl hinv.cur_mem)
  · intro x hx l hc
    have hx2 : x ∉ t.m.map Prod.fst := by
      intro h
      apply hx
      rw [hmkeys]
      exact List.mem_append.mpr (Or.inl h)
    exact hinv.new_min x hx2 l hc
  · intro v j hm hne hq
    rcases List.mem_append.mp hm with hm | hm
    · have hq2 : v ∉ t.q.map Prod.fst := by
        intro h
        apply hq
        simp only [List.map_append]
        exact List.mem_append.mpr (Or.inl h)
      intro x hxn
      have := hinv.proc_ex v j hm hne hq2 x hxn
      rw [hmkeys]
      exact List.mem_append.mpr (Or.inl this)
    · exfalso
      apply hq
      have hvj : (v, j) = (n, k + 1) := by simpa using hm
      have hv : v = n := ((Prod.mk.injEq _ _ _ _ ▸ hvj)).1
      simp [hv]
  · intro v j hm hne hq
    rcases List.mem_append.mp hm with hm | hm
    · have hq2 : v ∉ t.q.map Prod.fst := by
        intro h
        apply hq
        simp only [List.map_append]
        exact List.mem_append.mpr (Or.inl h)
      exact hinv.nf_ex v j hm hne hq2
    · exfalso
      apply hq
      have hvj : (v, j) = (n, k + 1) := by simpa using hm
      have hv : v = n := ((Prod.mk.injEq _ _ _ _ ▸ hvj)).1
      simp [hv]


theorem g_expand_cons_mem (endV : Option String) (cur : String) (k : Nat) (n : String)
    (ns : List String) (t : GSt) (hmem : n ∈ t.m.map Prod.fst) :
    g_expand endV cur k (n :: ns) t =
      if endV = some n then (t, true) else g_expand endV cur k ns t := by
  show (if endV = some n
      then ((if n ∈ t.m.map Prod.fst then t
        else ⟨t.m ++ [(n, k + 1)], t.q ++ [(n, k + 1)],
          updateAssoc t.pm n (some cur)⟩ : GSt), true)
      else g_expand endV cur k ns (if n ∈ t.m.map Prod.fst then t
        else ⟨t.m ++ [(n, k + 1)], t.q ++ [(n, k + 1)],
          updateAssoc t.pm n (some cur)⟩)) = _
  rw [if_pos hmem]

theorem g_expand_cons_new (endV : Option String) (cur : String) (k : Nat) (n : String)
    (ns : List String) (t : GSt) (hmem : n ∉ t.m.map Prod.fst) :
    g_expand endV cur k (n :: ns) t =
      (if endV = some n
        then ((⟨t.m ++ [(n, k + 1)], t.q ++ [(n, k + 1)],
          updateAssoc t.pm n (some cur)⟩ : GSt), true)
        else g_expand endV cur k ns ⟨t.m ++ [(n, k + 1)], t.q ++ [(n, k + 1)],
          updateAssoc t.pm n (some cur)⟩) := by
  show (if endV = some n
      then ((if n ∈ t.m.map Prod.fst then t
        else ⟨t.m ++ [(n, k + 1)], t.q ++ [(n, k + 1)],
          updateAssoc t.pm n (some cur)⟩ : GSt), true)
      else g_expand endV cur k ns (if n ∈ t.m.map Prod.fst then t
        else ⟨t.m ++ [(n, k + 1)], t.q ++ [(n, k + 1)],
          updateAssoc t.pm n (some cur)⟩)) = _
  rw [if_neg hmem]

theorem g_expand_spec (hp : Heap) (start : String) (endV : Option String) (cur : String)
    (k : Nat) :
    ∀ (ns : List String) (t t' : GSt) (b : Bool),
      ExpInv hp start endV cur k t →
      (∀ n ∈ ns, n ∈ neighborNames hp cur) →
      g_expand endV cur k ns t = (t', b) →
      ExpInv hp start endV cur k t' ∧ (∀ e ∈ t.m, e ∈ t'.m) ∧
        (b = true → ∃ n ∈ ns, endV = some n ∧ n ∈ t'.m.map Prod.fst) ∧
        (b = false → ∀ n ∈ ns, n ∈ t'.m.map Prod.fst ∧ endV ≠ some n) := by
  intro ns
  induction ns with
  | nil =>
      intro t t' b hinv _ hr
      have hr2 : (t, false) = (t', b) := hr
      have ht : t = t' := ((Prod.mk.injEq _ _ _ _ ▸ hr2)).1
      have hb : false = b := ((Prod.mk.injEq _ _ _ _ ▸ hr2)).2
      subst ht; subst hb
      exact ⟨hinv, fun e he => he, (by intro h; cases h),
        fun _ n hn => absurd hn (by simp)⟩
  | cons n ns ih =>
      intro t t' b hinv hns hr
      have hnn : n ∈ neighborNames hp cur := hns n (List.mem_cons_self n ns)
      by_cases hmem : n ∈ t.m.map Prod.fst
      · rw [g_expand_cons_mem endV cur k n ns t hmem] at hr
        by_cases hev : endV = some n
        · rw [if_pos hev] at hr
          have ht : t = t' := ((Prod.mk.injEq _ _ _ _ ▸ hr)).1
          have hb : true = b := ((Prod.mk.injEq _ _ _ _ ▸ hr)).2
          subst ht; subst hb
          exact ⟨hinv, fun e he => he,
            fun _ => ⟨n, List.mem_cons_self n ns, hev, hmem⟩, (by intro h; cases h)⟩
        · rw [if_neg hev] at hr
          rcases ih t t' b hinv (fun x hx => hns x (List.mem_cons_of_mem n hx)) hr with
            ⟨hinv', hmono, htrue, hfalse⟩
          refine ⟨hinv', hmono, ?_, ?_⟩
          · intro hb
            rcases htrue hb with ⟨x, hx, hev', hxm⟩
            exact ⟨x, List.mem_cons_of_mem n hx, hev', hxm⟩
          · intro hb x hx
            rcases List.mem_cons.mp hx with hx | hx
            · subst hx
              refine ⟨?_, hev⟩
              rcases List.mem_map.mp hmem with ⟨e, hem, hef⟩
              exact List.mem_map.mpr ⟨e, hmono e hem, hef⟩
            · exact hfalse hb x hx
      · have hstep := g_mark_step hinv hnn hmem
        rw [g_expand_cons_new endV cur k n ns t hmem] at hr
        have hnmem1 : n ∈ ((⟨t.m ++ [(n, k + 1)], t.q ++ [(n, k + 1)],
            updateAssoc t.pm n (some cur)⟩ : GSt)).m.map Prod.fst := by
          simp
        have hmono1 : ∀ e ∈ t.m, e ∈ ((⟨t.m ++ [(n, k + 1)], t.q ++ [(n, k + 1)],
            updateAssoc t.pm n (some cur)⟩ : GSt)).m := by
          intro e he
          exact List.mem_append.mpr (Or.inl he)
        by_cases hev : endV = some n
        · rw [if_pos hev] at hr
          have ht : (⟨t.m ++ [(n, k + 1)], t.q ++ [(n, k + 1)],
              updateAssoc t.pm n (some cur)⟩ : GSt) = t' :=
            ((Prod.mk.injEq _ _ _ _ ▸ hr)).1
          have hb : true = b := ((Prod.mk.injEq _ _ _ _ ▸ hr)).2
          subst hb
          rw [← ht]
          exact ⟨hstep, hmono1, fun _ => ⟨n, List.mem_cons_self n ns, hev, hnmem1⟩,
            (by intro h; cases h)⟩
        · rw [if_neg hev] at hr
          rcases ih _ t' b hstep (fun x hx => hns x (List.mem_cons_of_mem n hx)) hr with
            ⟨hinv', hmono, htrue, hfalse⟩
          refine ⟨hinv', fun e he => hmono e (hmono1 e he), ?_, ?_⟩
          · intro hb
            rcases htrue hb with ⟨x, hx, hev', hxm⟩
            exact ⟨x, List.mem_cons_of_mem n hx, hev', hxm⟩
          · intro hb x hx
            rcases List.mem_cons.mp hx with hx | hx
            · subst hx
              refine ⟨?_, hev⟩
              rcases List.mem_map.mp hnmem1 with ⟨e, hem, hef⟩
              exact List.mem_map.mpr ⟨e, hmono e hem, hef⟩
            · exact hfalse hb x hx

theorem reachNE_of_chain {hp : Heap} {a b : String} {l : List String}
    (h : Chain hp a l b) (hne : l ≠ []) : ReachNE hp a b := by
  cases l with
  | nil => exact absurd rfl hne
  | cons x l2 => exact ⟨x, l2, h⟩

theorem g_pop (hp : Heap) (start : String) (endV : Option String) {t : GSt}
    (hinv : GInv hp start endV t) {cur : String} {k : Nat} {rest : List (String × Nat)}
    (hq : t.q = (cur, k) :: rest) :
    ExpInv hp start endV cur k ⟨t.m, rest, t.pm⟩ := by
  have hhead : (cur, k) ∈ t.q := by rw [hq]; exact List.mem_cons_self _ _
  have hsorted := hinv.q_sorted
  rw [hq] at hsorted
  have hsorted' := List.pairwise_cons.mp hsorted
  refine ⟨⟨hinv.mnodup, hinv.pm_nodup, hinv.start_mem, hinv.pm_start, hinv.depth_zero,
    hinv.pm_dom, hinv.parent, hinv.sound, hinv.minimal⟩, ?_, ?_, ?_, ?_, ?_, ?_, ?_⟩
  · intro e he
    exact hinv.q_sub e (by rw [hq]; exact List.mem_cons_of_mem _ he)
  · exact hsorted'.2
  · intro e he
    rcases hinv.q_span with ⟨dl, hspan⟩
    have h1 := hspan (cur, k) hhead
    have h2 := hspan e (by rw [hq]; exact List.mem_cons_of_mem _ he)
    have h3 := hsorted'.1 e he
    exact ⟨h3, by omega⟩
  · exact hinv.q_sub (cur, k) hhead
  · exact g_new_min hp start endV t hinv cur k rest hq
  · intro v j hm hne hnq
    have hnq' : v ∉ t.q.map Prod.fst := by
      rw [hq]
      simp only [List.map_cons, List.mem_cons]
      rintro (h | h)
      · exact hne h
      · exact hnq h
    exact hinv.processed v j hm hnq'
  · intro v j hm hne hnq
    have hnq' : v ∉ t.q.map Prod.fst := by
      rw [hq]
      simp only [List.map_cons, List.mem_cons]
      rintro (h | h)
      · exact hne h
      · exact hnq h
    exact hinv.not_found v j hm hnq'

theorem g_restore (hp : Heap) (start : String) (endV : Option String) (cur : String)
    (k : Nat) {t : GSt} (hinv : ExpInv hp start endV cur k t)
    (hproc : ∀ n ∈ neighborNames hp cur, n ∈ t.m.map Prod.fst ∧ endV ≠ some n) :
    GInv hp start endV t := by
  refine ⟨hinv.toGLocal, hinv.q_sub, hinv.q_sorted, ⟨k, hinv.q_bound⟩, ?_, ?_⟩
  · intro v j hm hnq n hn
    by_cases hv : v = cur
    · exact (hproc n (hv ▸ hn)).1
    · exact hinv.proc_ex v j hm hv hnq n hn
  · intro v j hm hnq n hn
    by_cases hv : v = cur
    · exact (hproc n (hv ▸ hn)).2
    · exact hinv.nf_ex v j hm hv hnq n hn

theorem g_loop_spec (hp : Heap) (start : String) (endV : Option String) :
    ∀ (fuel : Nat) (t : GSt) (r : Bool) (t' : GSt),
      GInv hp start endV t →
      g_loop hp endV fuel t = some (r, t') →
      (r = true → ∃ n, endV = some n ∧ GLocal hp start t' ∧
          n ∈ t'.m.map Prod.fst ∧ ReachNE hp start n) ∧
      (r = false → t'.q = [] ∧ GInv hp start endV t') := by
  intro fuel
  induction fuel with
  | zero =>
      intro t r t' _ hr
      cases hr
  | succ f ih =>
      intro t r t' hinv hr
      cases hqv : t.q with
      | nil =>
          simp only [g_loop, hqv] at hr
          have h1 : false = r := ((Prod.mk.injEq _ _ _ _ ▸ (Option.some.injEq _ _ ▸ hr))).1
          have h2 : t = t' := ((Prod.mk.injEq _ _ _ _ ▸ (Option.some.injEq _ _ ▸ hr))).2
          subst h1; subst h2
          exact ⟨(by intro h; cases h), fun _ => ⟨hqv, hinv⟩⟩
      | cons e rest =>
          rcases e with ⟨cur, k⟩
          have hpop := g_pop hp start endV hinv hqv
          rcases hexp : g_expand endV cur k (neighborNames hp cur) ⟨t.m, rest, t.pm⟩ with
            ⟨ex1, ex2⟩
          rcases g_expand_spec hp start endV cur k (neighborNames hp cur)
            ⟨t.m, rest, t.pm⟩ ex1 ex2 hpop (fun n hn => hn) hexp with
            ⟨hinv', _, htrue, hfalse⟩
          simp only [g_loop, hqv, hexp] at hr
          cases ex2 with
          | true =>
              have hr2 : some (true, ex1) = some (r, t') := hr
              have h1 : true = r := ((Prod.mk.injEq _ _ _ _ ▸ (Option.some.injEq _ _ ▸ hr2))).1
              have h2 : ex1 = t' := ((Prod.mk.injEq _ _ _ _ ▸ (Option.some.injEq _ _ ▸ hr2))).2
              subst h1; subst h2
              refine ⟨fun _ => ?_, (by intro h; cases h)⟩
              rcases htrue rfl with ⟨n, hn, hev, hnm⟩
              rcases hinv'.sound cur k hinv'.cur_mem with ⟨l, hc, _⟩
              have he : hasEdge hp cur n := hn
              refine ⟨n, hev, hinv'.toGLocal, hnm,
                reachNE_of_chain (chain_snoc_edge hc he) (by simp)⟩
          | false =>
              have hr2 : g_loop hp endV f ex1 = some (r, t') := hr
              have hg := g_restore hp start endV cur k hinv' (hfalse rfl)
              exact ih ex1 r t' hg hr2

theorem g_closed_no_reach (hp : Heap) (start e : String) {t : GSt}
    (hinv : GInv hp start (some e) t) (hq : t.q = []) : ¬ ReachNE hp start e := by
  rintro ⟨x, l, hc⟩
  rcases chain_ne_decomp hc (by simp) with ⟨l', y, _, hcy, hey⟩
  rcases g_cover hp start (some e) t hinv l' y hcy with ⟨ky, hkm, _⟩ |
    ⟨x', j, r, hxq, _, _⟩
  · exact absurd rfl (hinv.not_found y ky hkm (by rw [hq]; simp) e hey)
  · rw [hq] at hxq
    cases hxq

/-! ### Projection of the concrete BFS onto the ghost BFS -/

theorem bfs_expand_cons_mem (endV : Option String) (v : String) (p : String × ℚ)
    (ns : List (String × ℚ)) (st : BfsSt) (hmem : p.1 ∈ st.marked) :
    bfs_expand endV v (p :: ns) st =
      if endV = some p.1 then (st, true) else bfs_expand endV v ns st := by
  show (if endV = some p.1
      then ((if p.1 ∈ st.marked then st
        else ⟨st.marked ++ [p.1], st.queue ++ [p.1],
          st.pm.map (fun m => updateAssoc m p.1 (some v))⟩ : BfsSt), true)
      else bfs_expand endV v ns (if p.1 ∈ st.marked then st
        else ⟨st.marked ++ [p.1], st.queue ++ [p.1],
          st.pm.map (fun m => updateAssoc m p.1 (some v))⟩)) = _
  rw [if_pos hmem]

theorem bfs_expand_cons_new (endV : Option String) (v : String) (p : String × ℚ)
    (ns : List (String × ℚ)) (st : BfsSt) (hmem : p.1 ∉ st.marked) :
    bfs_expand endV v (p :: ns) st =
      (if endV = some p.1
        then ((⟨st.marked ++ [p.1], st.queue ++ [p.1],
          st.pm.map (fun m => updateAssoc m p.1 (some v))⟩ : BfsSt), true)
        else bfs_expand endV v ns ⟨st.marked ++ [p.1], st.queue ++ [p.1],
          st.pm.map (fun m => updateAssoc m p.1 (some v))⟩) := by
  show (if endV = some p.1
      then ((if p.1 ∈ st.marked then st
        else ⟨st.marked ++ [p.1], st.queue ++ [p.1],
          st.pm.map (fun m => updateAssoc m p.1 (some v))⟩ : BfsSt), true)
      else bfs_expand endV v ns (if p.1 ∈ st.marked then st
        else ⟨st.marked ++ [p.1], st.queue ++ [p.1],
          st.pm.map (fun m => updateAssoc m p.1 (some v))⟩)) = _
  rw [if_neg hmem]

theorem bfs_expand_proj (endV : Option String) (v : String) (k : Nat) :
    ∀ (ns : List (String × ℚ)) (st : BfsSt) (t : GSt),
      BfsProj st t →
      BfsProj (bfs_expand endV v ns st).1 (g_expand endV v k (ns.map Prod.fst) t).1 ∧
      (bfs_expand endV v ns st).2 = (g_expand endV v k (ns.map Prod.fst) t).2 := by
  intro ns
  induction ns with
  | nil =>
      intro st t hproj
      exact ⟨hproj, rfl⟩
  | cons p ns ih =>
      intro st t hproj
      have hnames : (p :: ns).map Prod.fst = p.1 :: ns.map Prod.fst := rfl
      rw [hnames]
      by_cases hmem : p.1 ∈ st.marked
      · have hmem2 : p.1 ∈ t.m.map Prod.fst := hproj.1 ▸ hmem
        rw [bfs_expand_cons_mem endV v p ns st hmem,
          g_expand_cons_mem endV v k p.1 (ns.map Prod.fst) t hmem2]
        by_cases hev : endV = some p.1
        · rw [if_pos hev, if_pos hev]
          exact ⟨hproj, rfl⟩
        · rw [if_neg hev, if_neg hev]
          exact ih st t hproj
      · have hmem2 : p.1 ∉ t.m.map Prod.fst := fun h => hmem (hproj.1 ▸ h)
        rw [bfs_expand_cons_new endV v p ns st hmem,
          g_expand_cons_new endV v k p.1 (ns.map Prod.fst) t hmem2]
        have hproj' : BfsProj
            ⟨st.marked ++ [p.1], st.queue ++ [p.1],
              st.pm.map (fun m => updateAssoc m p.1 (some v))⟩
            ⟨t.m ++ [(p.1, k + 1)], t.q ++ [(p.1, k + 1)],
              updateAssoc t.pm p.1 (some v)⟩ := by
          refine ⟨?_, ?_, ?_⟩
          · show st.marked ++ [p.1] = (t.m ++ [(p.1, k + 1)]).map Prod.fst
            rw [hproj.1]
            simp
          · show st.queue ++ [p.1] = (t.q ++ [(p.1, k + 1)]).map Prod.fst
            rw [hproj.2.1]
            simp
          · intro pmv hpmv
            have hpmv2 : st.pm.map (fun m => updateAssoc m p.1 (some v)) = some pmv := hpmv
            rcases Option.map_eq_some'.mp hpmv2 with ⟨m0, hm0, hm0e⟩
            rw [hproj.2.2 m0 hm0] at hm0e
            exact hm0e.symm
        by_cases hev : endV = some p.1
        · rw [if_pos hev, if_pos hev]
          exact ⟨hproj', rfl⟩
        · rw [if_neg hev, if_neg hev]
          exact ih _ _ hproj'

theorem bfs_loop_proj (hp : Heap) (endV : Option String) :
    ∀ (fuel : Nat) (g : Graph) (st : BfsSt) (t : GSt) (r : Bool) (g' : Graph)
      (st' : BfsSt),
      BfsProj st t →
      bfs_loop hp endV fuel g st = some (.ok (r, g', st')) →
      ∃ t', g_loop hp endV fuel t = some (r, t') ∧ BfsProj st' t' := by
  intro fuel
  induction fuel with
  | zero =>
      intro g st t r g' st' _ hr
      cases hr
  | succ f ih =>
      intro g st t r g' st' hproj hr
      cases hqv : st.queue with
      | nil =>
          simp only [bfs_loop, hqv] at hr
          have h0 := Option.some.injEq _ _ ▸ hr
          have h3 : ((false, g, st) : Bool × Graph × BfsSt) = (r, g', st') :=
            Except.ok.injEq _ _ ▸ h0
          have h1 : false = r := ((Prod.mk.injEq _ _ _ _ ▸ h3)).1
          have h4 : ((g, st) : Graph × BfsSt) = (g', st') := ((Prod.mk.injEq _ _ _ _ ▸ h3)).2
          have h2 : st = st' := ((Prod.mk.injEq _ _ _ _ ▸ h4)).2
          subst h1
          subst h2
          have htq : t.q = [] := by
            have := hproj.2.1
            rw [hqv] at this
            exact List.map_eq_nil.mp this.symm
          refine ⟨t, ?_, hproj⟩
          simp [g_loop, htq]
      | cons v rest =>
          simp only [bfs_loop, hqv] at hr
          cases htq : t.q with
          | nil =>
              exfalso
              have := hproj.2.1
              rw [hqv, htq] at this
              cases this
          | cons e rest₂ =>
              rcases e with ⟨v₂, k⟩
              have hqe : v :: rest = v₂ :: rest₂.map Prod.fst := by
                have := hproj.2.1
                rw [hqv, htq] at this
                simpa using this
              have hv2 : v = v₂ := (List.cons.injEq _ _ _ _ ▸ hqe).1
              have hrest : rest = rest₂.map Prod.fst := (List.cons.injEq _ _ _ _ ▸ hqe).2
              subst hv2
              by_cases hres : (validate_vertex hp g v).1
              · rw [if_pos hres] at hr
                have hproj0 : BfsProj ⟨st.marked, rest, st.pm⟩ ⟨t.m, rest₂, t.pm⟩ :=
                  ⟨hproj.1, hrest, hproj.2.2⟩
                rcases bfs_expand_proj endV v k (resolve hp v).neighbors
                  ⟨st.marked, rest, st.pm⟩ ⟨t.m, rest₂, t.pm⟩ hproj0 with ⟨hpe, hbe⟩
                have hpe' : BfsProj
                    (bfs_expand endV v (resolve hp v).neighbors
                      ⟨st.marked, rest, st.pm⟩).1
                    (g_expand endV v k (neighborNames hp v) ⟨t.m, rest₂, t.pm⟩).1 := hpe
                have hbe' : (bfs_expand endV v (resolve hp v).neighbors
                      ⟨st.marked, rest, st.pm⟩).2 =
                    (g_expand endV v k (neighborNames hp v) ⟨t.m, rest₂, t.pm⟩).2 := hbe
                by_cases hex : (bfs_expand endV v (resolve hp v).neighbors
                    ⟨st.marked, rest, st.pm⟩).2
                · rw [if_pos hex] at hr
                  have h0 := Option.some.injEq _ _ ▸ hr
                  have h3 : ((true, (validate_vertex hp g v).2,
                      (bfs_expand endV v (resolve hp v).neighbors
                        ⟨st.marked, rest, st.pm⟩).1) : Bool × Graph × BfsSt) =
                      (r, g', st') := Except.ok.injEq _ _ ▸ h0
                  have h1 : true = r := ((Prod.mk.injEq _ _ _ _ ▸ h3)).1
                  have h4 : (((validate_vertex hp g v).2,
                      (bfs_expand endV v (resolve hp v).neighbors
                        ⟨st.marked, rest, st.pm⟩).1) : Graph × BfsSt) = (g', st') :=
                    ((Prod.mk.injEq _ _ _ _ ▸ h3)).2
                  have h2 : (bfs_expand endV v (resolve hp v).neighbors
                      ⟨st.marked, rest, st.pm⟩).1 = st' :=
                    ((Prod.mk.injEq _ _ _ _ ▸ h4)).2
                  subst h1
                  have hgex : (g_expand endV v k (neighborNames hp v)
                      ⟨t.m, rest₂, t.pm⟩).2 = true := hbe' ▸ hex
                  refine ⟨(g_expand endV v k (neighborNames hp v)
                    ⟨t.m, rest₂, t.pm⟩).1, ?_, h2 ▸ hpe'⟩
                  show (match t.q with
                    | [] => some (false, t)
                    | (v, k) :: rest =>
                        let ex := g_expand endV v k (neighborNames hp v) ⟨t.m, rest, t.pm⟩
                        if ex.2 then some (true, ex.1) else g_loop hp endV f ex.1) = _
                  rw [htq]
                  simp [hgex]
                · rw [if_neg hex] at hr
                  have hgex : (g_expand endV v k (neighborNames hp v)
                      ⟨t.m, rest₂, t.pm⟩).2 = false := by
                    rw [← hbe']
                    simpa using hex
                  rcases ih (validate_vertex hp g v).2 _ _ r g' st' hpe' hr with
                    ⟨t', hgl, hproj'⟩
                  refine ⟨t', ?_, hproj'⟩
                  show (match t.q with
                    | [] => some (false, t)
                    | (v, k) :: rest =>
                        let ex := g_expand endV v k (neighborNames hp v) ⟨t.m, rest, t.pm⟩
                        if ex.2 then some (true, ex.1) else g_loop hp endV f ex.1) = _
                  rw [htq]
                  simp only [hgex]
                  rw [if_neg (by simp)]
                  exact hgl
              · rw [if_neg hres] at hr
                cases hr

theorem bfs_core_ghost (hp : Heap) (g : Graph) (start : String) (endV : Option String)
    (pm0 : Option PMap) (r : Bool) (g' : Graph) (st' : BfsSt)
    (hpm0 : pm0 = none ∨ pm0 = some [])
    (hr : breadth_first_search_core hp g start endV pm0 = some (.ok (r, g', st'))) :
    ∃ t', g_loop hp endV (bfsFuel hp start) (gInit start) = some (r, t') ∧
      BfsProj st' t' ∧
      (r = true → ∃ n, endV = some n ∧ GLocal hp start t' ∧ n ∈ t'.m.map Prod.fst ∧
          ReachNE hp start n) ∧
      (r = false → t'.q = [] ∧ GInv hp start endV t') := by
  have hproj0 : BfsProj ⟨[start], [start], pm0.map (fun m => updateAssoc m start none)⟩
      (gInit start) := by
    refine ⟨rfl, rfl, ?_⟩
    intro p hpv
    rcases hpm0 with h | h <;> rw [h] at hpv
    · cases hpv
    · have h2 : some (updateAssoc [] start none) = some p := hpv
      have h3 : updateAssoc [] start none = p := Option.some.injEq _ _ ▸ h2
      rw [← h3]
      rfl
  have hr2 : bfs_loop hp endV (bfsFuel hp start) g
      ⟨[start], [start], pm0.map (fun m => updateAssoc m start none)⟩ =
      some (.ok (r, g', st')) := hr
  rcases bfs_loop_proj hp endV (bfsFuel hp start) g _ (gInit start) r g' st' hproj0 hr2
    with ⟨t', hgl, hproj⟩
  rcases g_loop_spec hp start endV (bfsFuel hp start) (gInit start) r t'
    (gInit_inv hp start endV) hgl with ⟨ht, hf⟩
  exact ⟨t', hgl, hproj, ht, hf⟩

theorem bfs_core_found_iff (hp : Heap) (g : Graph) (start e : String)
    (pm0 : Option PMap) (r : Bool) (g' : Graph) (st' : BfsSt)
    (hpm0 : pm0 = none ∨ pm0 = some [])
    (hr : breadth_first_search_core hp g start (some e) pm0 = some (.ok (r, g', st'))) :
    (r = true ↔ ReachNE hp start e) := by
  rcases bfs_core_ghost hp g start (some e) pm0 r g' st' hpm0 hr with
    ⟨t', _, _, ht, hf⟩
  constructor
  · intro h
    rcases ht h with ⟨n, hev, _, _, hre⟩
    have hne : e = n := Option.some.injEq _ _ ▸ hev
    rw [hne]
    exact hre
  · intro hre
    cases r with
    | true => rfl
    | false =>
        exfalso
        rcases hf rfl with ⟨hq, hinv⟩
        exact g_closed_no_reach hp start e hinv hq hre

theorem breadth_first_search_iff (hp : Heap) (g : Graph) (a b : String) (r : Bool)
    (hr : breadth_first_search hp g a b = some (.ok r)) : (r = true ↔ ReachNE hp a b) := by
  unfold breadth_first_search at hr
  cases hcore : breadth_first_search_core hp g a (some b) none with
  | none => rw [hcore] at hr; cases hr
  | some x =>
      cases x with
      | error e =>
          rw [hcore] at hr
          cases hr
      | ok y =>
          rcases y with ⟨r₀, g', st'⟩
          rw [hcore] at hr
          have h2 : Except.ok (ε := GErr) r₀ = Except.ok r := Option.some.injEq _ _ ▸ hr
          have h3 : r₀ = r := Except.ok.injEq _ _ ▸ h2
          rw [← h3]
          exact bfs_core_found_iff hp g a b none r₀ g' st' (Or.inl rfl) hcore

/-! ### BFS ignores edge weights -/

theorem reweightV_name (f : String → String → ℚ → ℚ) (v : Vertex) :
    (reweightV f v).name = v.name := rfl

theorem reweightV_neighbor_names (f : String → String → ℚ → ℚ) (v : Vertex) :
    (reweightV f v).neighbors.map Prod.fst = v.neighbors.map Prod.fst := by
  show (v.neighbors.map (fun p => (p.1, f v.name p.1 p.2))).map Prod.fst = _
  rw [List.map_map]
  rfl

theorem resolve_reweight (f : String → String → ℚ → ℚ) (hp : Heap) (n : String) :
    resolve (hp.map (reweightV f)) n = reweightV f (resolve hp n) := by
  unfold resolve
  rw [List.find?_map]
  have hpred : ((fun v => v.name == n) ∘ reweightV f) = (fun v => v.name == n) := by
    funext v
    rfl
  rw [hpred]
  cases hf : hp.find? (fun v => v.name == n) with
  | none => rfl
  | some v => rfl

theorem validate_vertex_reweight (f : String → String → ℚ → ℚ) (hp : Heap) (g : Graph)
    (v : String) : validate_vertex (hp.map (reweightV f)) g v = validate_vertex hp g v := by
  unfold validate_vertex
  rw [resolve_reweight]
  have hall : ((reweightV f (resolve hp v)).neighbors.all
      (fun p => decide (p.1 ∈ g.vertexes))) =
      ((resolve hp v).neighbors.all (fun p => decide (p.1 ∈ g.vertexes))) := by
    show ((resolve hp v).neighbors.map (fun p => (p.1, f (resolve hp v).name p.1 p.2))).all
        (fun p => decide (p.1 ∈ g.vertexes)) = _
    rw [List.all_map]
    rfl
  rw [hall]

theorem bfs_expand_names_only (endV : Option String) (v : String)
    (gw : String × ℚ → ℚ) :
    ∀ (ns : List (String × ℚ)) (st : BfsSt),
      bfs_expand endV v (ns.map (fun p => (p.1, gw p))) st = bfs_expand endV v ns st := by
  intro ns
  induction ns with
  | nil => intro st; rfl
  | cons p ns ih =>
      intro st
      have hl : (p :: ns).map (fun p => (p.1, gw p)) =
          (p.1, gw p) :: ns.map (fun p => (p.1, gw p)) := rfl
      rw [hl]
      by_cases hmem : p.1 ∈ st.marked
      · rw [bfs_expand_cons_mem endV v (p.1, gw p) _ st hmem,
          bfs_expand_cons_mem endV v p ns st hmem]
        by_cases hev : endV = some p.1
        · rw [if_pos hev, if_pos hev]
        · rw [if_neg hev, if_neg hev, ih]
      · rw [bfs_expand_cons_new endV v (p.1, gw p) _ st hmem,
          bfs_expand_cons_new endV v p ns st hmem]
        by_cases hev : endV = some p.1
        · rw [if_pos hev, if_pos hev]
        · rw [if_neg hev, if_neg hev, ih]

theorem bfs_loop_reweight (f : String → String → ℚ → ℚ) (hp : Heap)
    (endV : Option String) :
    ∀ (fuel : Nat) (g : Graph) (st : BfsSt),
      bfs_loop (hp.map (reweightV f)) endV fuel g st = bfs_loop hp endV fuel g st := by
  intro fuel
  induction fuel with
  | zero => intro g st; rfl
  | succ fl ih =>
      intro g st
      cases hqv : st.queue with
      | nil => simp [bfs_loop, hqv]
      | cons v rest =>
          simp only [bfs_loop, hqv]
          rw [validate_vertex_reweight, resolve_reweight]
          by_cases hres : (validate_vertex hp g v).1
          · rw [if_pos hres, if_pos hres]
            have hexp : bfs_expand endV v (reweightV f (resolve hp v)).neighbors
                ⟨st.marked, rest, st.pm⟩ =
                bfs_expand endV v (resolve hp v).neighbors ⟨st.marked, rest, st.pm⟩ := by
              show bfs_expand endV v ((resolve hp v).neighbors.map
                  (fun p => (p.1, f (resolve hp v).name p.1 p.2))) _ = _
              exact bfs_expand_names_only endV v
                (fun p => f (resolve hp v).name p.1 p.2) (resolve hp v).neighbors _
            rw [hexp]
            by_cases hex : (bfs_expand endV v (resolve hp v).neighbors
                ⟨st.marked, rest, st.pm⟩).2
            · rw [if_pos hex, if_pos hex]
            · rw [if_neg hex, if_neg hex, ih]
          · rw [if_neg hres, if_neg hres]

theorem traversalNames_reweight (f : String → String → ℚ → ℚ) (hp : Heap)
    (start : String) :
    traversalNames (hp.map (reweightV f)) start = traversalNames hp start := by
  unfold traversalNames
  have h1 : (hp.map (reweightV f)).map Vertex.name = hp.map Vertex.name := by
    rw [List.map_map]
    rfl
  have h2 : (hp.map (reweightV f)).flatMap (fun v => v.neighbors.map Prod.fst) =
      hp.flatMap (fun v => v.neighbors.map Prod.fst) := by
    rw [List.flatMap_map]
    apply List.flatMap_congr
    intro v _
    exact reweightV_neighbor_names f v
  rw [h1, h2]

theorem bfs_core_reweight (f : String → String → ℚ → ℚ) (hp : Heap) (g : Graph)
    (start : String) (endV : Option String) (pm0 : Option PMap) :
    breadth_first_search_core (hp.map (reweightV f)) g start endV pm0 =
      breadth_first_search_core hp g start endV pm0 := by
  unfold breadth_first_search_core bfsFuel
  rw [traversalNames_reweight, bfs_loop_reweight]

theorem breadth_first_search_reweight (f : String → String → ℚ → ℚ) (hp : Heap)
    (g : Graph) (a b : String) :
    breadth_first_search (hp.map (reweightV f)) g a b = breadth_first_search hp g a b := by
  unfold breadth_first_search
  rw [bfs_core_reweight]

/-! ### Path extraction from the BFS parent map -/

theorem bfs_expand_pm_isSome (endV : Option String) (v : String) :
    ∀ (ns : List (String × ℚ)) (st : BfsSt),
      (bfs_expand endV v ns st).1.pm.isSome = st.pm.isSome := by
  intro ns
  induction ns with
  | nil => intro st; rfl
  | cons p ns ih =>
      intro st
      by_cases hmem : p.1 ∈ st.marked
      · rw [bfs_expand_cons_mem endV v p ns st hmem]
        by_cases hev : endV = some p.1
        · rw [if_pos hev]
        · rw [if_neg hev]
          exact ih st
      · rw [bfs_expand_cons_new endV v p ns st hmem]
        by_cases hev : endV = some p.1
        · rw [if_pos hev]
          show (st.pm.map _).isSome = _
          cases st.pm <;> rfl
        · rw [if_neg hev]
          rw [ih]
          show (st.pm.map _).isSome = _
          cases st.pm <;> rfl

theorem bfs_loop_pm_isSome (hp : Heap) (endV : Option String) :
    ∀ (fuel : Nat) (g : Graph) (st : BfsSt) (r : Bool) (g' : Graph) (st' : BfsSt),
      bfs_loop hp endV fuel g st = some (.ok (r, g', st')) →
      st'.pm.isSome = st.pm.isSome := by
  intro fuel
  induction fuel with
  | zero =>
      intro g st r g' st' hr
      cases hr
  | succ f ih =>
      intro g st r g' st' hr
      cases hqv : st.queue with
      | nil =>
          simp only [bfs_loop, hqv] at hr
          have h0 := Option.some.injEq _ _ ▸ hr
          have h3 : ((false, g, st) : Bool × Graph × BfsSt) = (r, g', st') :=
            Except.ok.injEq _ _ ▸ h0
          have h4 : ((g, st) : Graph × BfsSt) = (g', st') := ((Prod.mk.injEq _ _ _ _ ▸ h3)).2
          have h2 : st = st' := ((Prod.mk.injEq _ _ _ _ ▸ h4)).2
          rw [← h2]
      | cons v rest =>
          simp only [bfs_loop, hqv] at hr
          by_cases hres : (validate_vertex hp g v).1
          · rw [if_pos hres] at hr
            by_cases hex : (bfs_expand endV v (resolve hp v).neighbors
                ⟨st.marked, rest, st.pm⟩).2
            · rw [if_pos hex] at hr
              have h0 := Option.some.injEq _ _ ▸ hr
              have h3 : ((true, (validate_vertex hp g v).2,
                  (bfs_expand endV v (resolve hp v).neighbors
                    ⟨st.marked, rest, st.pm⟩).1) : Bool × Graph × BfsSt) = (r, g', st') :=
                Except.ok.injEq _ _ ▸ h0
              have h4 : (((validate_vertex hp g v).2,
                  (bfs_expand endV v (resolve hp v).neighbors
                    ⟨st.marked, rest, st.pm⟩).1) : Graph × BfsSt) = (g', st') :=
                ((Prod.mk.injEq _ _ _ _ ▸ h3)).2
              have h2 : (bfs_expand endV v (resolve hp v).neighbors
                  ⟨st.marked, rest, st.pm⟩).1 = st' := ((Prod.mk.injEq _ _ _ _ ▸ h4)).2
              rw [← h2]
              exact bfs_expand_pm_isSome endV v (resolve hp v).neighbors
                ⟨st.marked, rest, st.pm⟩
            · rw [if_neg hex] at hr
              have := ih _ _ r g' st' hr
              rw [this]
              exact bfs_expand_pm_isSome endV v (resolve hp v).neighbors
                ⟨st.marked, rest, st.pm⟩
          · rw [if_neg hres] at hr
            cases hr

theorem extract_path_succ_some (pm : PMap) (fuel : Nat) (v : String) :
    extract_path pm (fuel + 1) (some v) =
      match lookupAssoc pm v with
      | none => some (.error (.keyError v))
      | some p =>
          match extract_path pm fuel p with
          | none => none
          | some (.error e) => some (.error e)
          | some (.ok l) => some (.ok (v :: l)) := rfl

theorem extract_path_succ_none (pm : PMap) (fuel : Nat) :
    extract_path pm (fuel + 1) none = some (.ok []) := rfl

theorem g_extract (hp : Heap) (start : String) (t : GSt) (hloc : GLocal hp start t) :
    ∀ (k : Nat) (v : String), (v, k) ∈ t.m →
      ∃ l, (∀ fuel, k + 2 ≤ fuel → extract_path t.pm fuel (some v) = some (.ok l)) ∧
        l.length = k + 1 ∧ l.Nodup ∧
        (∀ x ∈ l, ∃ kx, kx ≤ k ∧ (x, kx) ∈ t.m) ∧
        ∃ tl, l.reverse = start :: tl ∧ Chain hp start tl v ∧ tl.length = k := by
  intro k
  induction k using Nat.strong_induction_on with
  | _ k ih =>
      cases k with
      | zero =>
          intro v hm
          have hvs : v = start := hloc.depth_zero v 0 hm rfl
          have hlook : lookupAssoc t.pm v = some none := by
            rw [hvs]
            exact hloc.pm_start
          refine ⟨[v], ?_, by simp, by simp, ?_, [], by simp [hvs], ?_, by simp⟩
          · intro fuel hf
            cases fuel with
            | zero => omega
            | succ f =>
                cases f with
                | zero => omega
                | succ f' =>
                    rw [extract_path_succ_some, hlook]
                    show (match extract_path t.pm (f' + 1) (none : Option String) with
                      | none => none
                      | some (Except.error e) => some (Except.error e)
                      | some (Except.ok l) => some (Except.ok (v :: l))) =
                        some (Except.ok [v])
                    rw [extract_path_succ_none]
          · intro x hx
            have hxv : x = v := by simpa using hx
            exact ⟨0, le_refl 0, hxv ▸ hm⟩
          · rw [hvs]
            exact Chain.nil start
      | succ j =>
          intro v hm
          have hvne : v ≠ start := by
            intro h
            have := assoc_fst_unique hloc.mnodup (h ▸ hm) hloc.start_mem
            omega
          rcases hloc.parent v (j + 1) hm hvne with ⟨u, ju, hlku, hum, hjeq, hedge⟩
          have hju' : j = ju := by omega
          subst hju'
          rcases ih j (by omega) u hum with
            ⟨lu, hext, hlen, hnd, hdep, tlu, hrev, hchain, htlen⟩
          have hvnotin : v ∉ lu := by
            intro hv
            rcases hdep v hv with ⟨kv, hkv, hkvm⟩
            have := assoc_fst_unique hloc.mnodup hkvm hm
            omega
          refine ⟨v :: lu, ?_, by simp [hlen], List.nodup_cons.mpr ⟨hvnotin, hnd⟩, ?_,
            tlu ++ [v], ?_, chain_snoc_edge hchain hedge, ?_⟩
          · intro fuel hf
            cases fuel with
            | zero => omega
            | succ f =>
                rw [extract_path_succ_some, hlku]
                show (match extract_path t.pm f (some u) with
                  | none => none
                  | some (Except.error e) => some (Except.error e)
                  | some (Except.ok l) => some (Except.ok (v :: l))) =
                    some (Except.ok (v :: lu))
                rw [hext f (by omega)]
          · intro x hx
            rcases List.mem_cons.mp hx with hx | hx
            · exact ⟨j + 1, le_refl _, hx ▸ hm⟩
            · rcases hdep x hx with ⟨kx, hkx, hkxm⟩
              exact ⟨kx, by omega, hkxm⟩
          · show (v :: lu).reverse = start :: (tlu ++ [v])
            rw [List.reverse_cons, hrev]
            rfl
          · simp only [List.length_append, List.length_singleton]
            omega

theorem find_shortest_path_eq_of_core (hp : Heap) (g : Graph) (a b : String) (rev : Bool)
    {found : Bool} {g' : Graph} {st' : BfsSt}
    (hcore : breadth_first_search_core hp g a (some b) (some []) =
      some (.ok (found, g', st'))) :
    find_shortest_path hp g a b rev =
      (if found then
        match extract_path (st'.pm.getD []) ((st'.pm.getD []).length + 1) (some b) with
        | none => none
        | some (.error e) => some (.error e)
        | some (.ok l) => some (.ok (some (if rev then l else l.reverse)))
      else some (.ok none)) := by
  unfold find_shortest_path
  rw [hcore]

theorem find_shortest_path_spec (hp : Heap) (g : Graph) (a b : String)
    (res : Option (List String))
    (hr : find_shortest_path hp g a b true = some (.ok res)) :
    (res = none ↔ ¬ ReachNE hp a b) ∧
    (∀ l, res = some l → ∃ tl, l.reverse = a :: tl ∧ Chain hp a tl b ∧
      ∀ lc, Chain hp a lc b → tl.length ≤ lc.length) := by
  cases hcore : breadth_first_search_core hp g a (some b) (some []) with
  | none =>
      unfold find_shortest_path at hr
      rw [hcore] at hr
      cases hr
  | some x =>
      cases x with
      | error e =>
          unfold find_shortest_path at hr
          rw [hcore] at hr
          cases hr
      | ok y =>
          rcases y with ⟨found, g', st'⟩
          rw [find_shortest_path_eq_of_core hp g a b true hcore] at hr
          rcases bfs_core_ghost hp g a (some b) (some []) found g' st' (Or.inr rfl) hcore
            with ⟨t', hgl, hproj, ht, hf⟩
          cases found with
          | false =>
              have h2 : Except.ok (ε := GErr) (none : Option (List String)) =
                  Except.ok res := Option.some.injEq _ _ ▸ hr
              have h3 : (none : Option (List String)) = res := Except.ok.injEq _ _ ▸ h2
              rcases hf rfl with ⟨hq, hinv⟩
              have hnr : ¬ ReachNE hp a b := g_closed_no_reach hp a b hinv hq
              refine ⟨iff_of_true h3.symm hnr, ?_⟩
              intro l hl
              rw [← h3] at hl
              cases hl
          | true =>
              rcases ht rfl with ⟨n, hev, hloc', hnm, hre⟩
              have hnb : b = n := Option.some.injEq _ _ ▸ hev
              rw [← hnb] at hnm hre
              have hcore2 : bfs_loop hp (some b) (bfsFuel hp a) g
                  ⟨[a], [a], some (updateAssoc [] a none)⟩ =
                  some (.ok (true, g', st')) := hcore
              have hpmS : st'.pm.isSome = true := by
                rw [bfs_loop_pm_isSome hp (some b) (bfsFuel hp a) g
                  ⟨[a], [a], some (updateAssoc [] a none)⟩ true g' st' hcore2]
                rfl
              rcases Option.isSome_iff_exists.mp hpmS with ⟨pmv, hpmv⟩
              have hpm_t : pmv = t'.pm := hproj.2.2 pmv hpmv
              subst hpm_t
              rcases List.mem_map.mp hnm with ⟨eb, hebm, hebf⟩
              have heb : eb = (b, eb.2) := by
                cases eb
                simp only at hebf
                rw [hebf]
              rcases g_extract hp a t' hloc' eb.2 b (heb ▸ hebm) with
                ⟨l, hext, hlen, hnd, hdep, tl, hrev, hchain, htlen⟩
              have hsub : l ⊆ t'.pm.map Prod.fst := by
                intro x hx
                rcases hdep x hx with ⟨kx, _, hkxm⟩
                have hxm : x ∈ t'.m.map Prod.fst := List.mem_map.mpr ⟨(x, kx), hkxm, rfl⟩
                exact (lookupAssoc_isSome_iff t'.pm x).mp ((hloc'.pm_dom x).mpr hxm)
              have hfuel : eb.2 + 2 ≤ t'.pm.length + 1 := by
                have h1 := (List.subperm_of_subset hnd hsub).length_le
                rw [hlen, List.length_map] at h1
                omega
              have hextv := hext (t'.pm.length + 1) hfuel
              rw [hpmv] at hr
              simp only [Option.getD_some] at hr
              rw [hextv] at hr
              have h2 : Except.ok (ε := GErr) (some (if true then l else l.reverse)) =
                  Except.ok res := Option.some.injEq _ _ ▸ hr
              have h3 : some (if true then l else l.reverse) = res :=
                Except.ok.injEq _ _ ▸ h2
              have h4 : some l = res := h3
              refine ⟨iff_of_false (by rw [← h4]; simp) (by simpa using hre), ?_⟩
              intro l₀ hl₀
              have hll : l = l₀ := by
                rw [← h4] at hl₀
                exact Option.some.injEq _ _ ▸ hl₀
              rw [← hll]
              refine ⟨tl, hrev, hchain, ?_⟩
              intro lc hc
              have := hloc'.minimal b eb.2 (heb ▸ hebm) lc hc
              omega

theorem find_shortest_path_flag (hp : Heap) (g : Graph) (a b : String) :
    find_shortest_path hp g a b false =
      (find_shortest_path hp g a b true).map
        (fun e => e.map (fun o => o.map List.reverse)) := by
  unfold find_shortest_path
  cases hcore : breadth_first_search_core hp g a (some b) (some []) with
  | none => rfl
  | some x =>
      cases x with
      | error e => rfl
      | ok y =>
          rcases y with ⟨found, g', st'⟩
          cases found with
          | false => rfl
          | true =>
              cases hext : extract_path (st'.pm.getD [])
                  ((st'.pm.getD []).length + 1) (some b) with
              | none =>
                  show (match extract_path (st'.pm.getD [])
                      ((st'.pm.getD []).length + 1) (some b) with
                    | none => none
                    | some (Except.error e) => some (Except.error e)
                    | some (Except.ok l) =>
                        some (Except.ok (some (if false then l else l.reverse)))) = _
                  rw [hext]
                  show (none : Option (Except GErr (Option (List String)))) =
                    Option.map _ (match extract_path (st'.pm.getD [])
                      ((st'.pm.getD []).length + 1) (some b) with
                    | none => none
                    | some (Except.error e) => some (Except.error e)
                    | some (Except.ok l) =>
                        some (Except.ok (some (if true then l else l.reverse))))
                  rw [hext]
                  rfl
              | some ex =>
                  cases ex with
                  | error e =>
                      show (match extract_path (st'.pm.getD [])
                          ((st'.pm.getD []).length + 1) (some b) with
                        | none => none
                        | some (Except.error e) => some (Except.error e)
                        | some (Except.ok l) =>
                            some (Except.ok (some (if false then l else l.reverse)))) = _
                      rw [hext]
                      show some (Except.error e) =
                        Option.map _ (match extract_path (st'.pm.getD [])
                          ((st'.pm.getD []).length + 1) (some b) with
                        | none => none
                        | some (Except.error e) => some (Except.error e)
                        | some (Except.ok l) =>
                            some (Except.ok (some (if true then l else l.reverse))))
                      rw [hext]
                      rfl
                  | ok l =>
                      show (match extract_path (st'.pm.getD [])
                          ((st'.pm.getD []).length + 1) (some b) with
                        | none => none
                        | some (Except.error e) => some (Except.error e)
                        | some (Except.ok l) =>
                            some (Except.ok (some (if false then l else l.reverse)))) = _
                      rw [hext]
                      show some (Except.ok (some l.reverse)) =
                        Option.map _ (match extract_path (st'.pm.getD [])
                          ((st'.pm.getD []).length + 1) (some b) with
                        | none => none
                        | some (Except.error e) => some (Except.error e)
                        | some (Except.ok l) =>
                            some (Except.ok (some (if true then l else l.reverse))))
                      rw [hext]
                      rfl

theorem find_weighted_shortest_path_flag (hp : Heap) (g : Graph) (a b : String) :
    find_weighted_shortest_path hp g a b false =
      (find_weighted_shortest_path hp g a b true).map
        (fun e => e.map (fun o => o.map List.reverse)) := by
  unfold find_weighted_shortest_path
  cases hcore : dijkstra_search_core hp g a (some b)
      (some (g.vertexes.map (fun v => (v, (none : Option String))))) with
  | none => rfl
  | some x =>
      cases x with
      | error e => rfl
      | ok y =>
          rcases y with ⟨found, st'⟩
          cases found with
          | false => rfl
          | true =>
              cases hext : extract_path (st'.pm.getD [])
                  ((st'.pm.getD []).length + 1) (some b) with
              | none =>
                  show (match extract_path (st'.pm.getD [])
                      ((st'.pm.getD []).length + 1) (some b) with
                    | none => none
                    | some (Except.error e) => some (Except.error e)
                    | some (Except.ok l) =>
                        some (Except.ok (some (if false then l else l.reverse)))) = _
                  rw [hext]
                  show (none : Option (Except GErr (Option (List String)))) =
                    Option.map _ (match extract_path (st'.pm.getD [])
                      ((st'.pm.getD []).length + 1) (some b) with
                    | none => none
                    | some (Except.error e) => some (Except.error e)
                    | some (Except.ok l) =>
                        some (Except.ok (some (if true then l else l.reverse))))
                  rw [hext]
                  rfl
              | some ex =>
                  cases ex with
                  | error e =>
                      show (match extract_path (st'.pm.getD [])
                          ((st'.pm.getD []).length + 1) (some b) with
                        | none => none
                        | some (Except.error e) => some (Except.error e)
                        | some (Except.ok l) =>
                            some (Except.ok (some (if false then l else l.reverse)))) = _
                      rw [hext]
                      show some (Except.error e) =
                        Option.map _ (match extract_path (st'.pm.getD [])
                          ((st'.pm.getD []).length + 1) (some b) with
                        | none => none
                        | some (Except.error e) => some (Except.error e)
                        | some (Except.ok l) =>
                            some (Except.ok (some (if true then l else l.reverse))))
                      rw [hext]
                      rfl
                  | ok l =>
                      show (match extract_path (st'.pm.getD [])
                          ((st'.pm.getD []).length + 1) (some b) with
                        | none => none
                        | some (Except.error e) => some (Except.error e)
                        | some (Except.ok l) =>
                            some (Except.ok (some (if false then l else l.reverse)))) = _
                      rw [hext]
                      show some (Except.ok (some l.reverse)) =
                        Option.map _ (match extract_path (st'.pm.getD [])
                          ((st'.pm.getD []).length + 1) (some b) with
                        | none => none
                        | some (Except.error e) => some (Except.error e)
                        | some (Except.ok l) =>
                            some (Except.ok (some (if true then l else l.reverse))))
                      rw [hext]
                      rfl

theorem chain_getLast (hp : Heap) (a b : String) (tl : List String)
    (hc : Chain hp a tl b) : (a :: tl).getLast? = some b := by
  cases htl : tl with
  | nil =>
      rw [htl] at hc
      rw [chain_target_eq hc]
      rfl
  | cons x l2 =>
      rw [htl] at hc
      rcases chain_ne_decomp hc (by simp) with ⟨l', y, hL, _, _⟩
      rw [hL]
      have : a :: (l' ++ [b]) = (a :: l') ++ [b] := rfl
      rw [this]
      exact List.getLast?_concat _

/-- C3 (amended): for a BFS run that completes without a validation error,
`breadth_first_search(a, b)` returns `true` exactly when `b` is reachable
from `a` by a directed path with at least one edge — so for `a = b` the
result is `true` only when `a` lies on a directed cycle, not in general, and
the spec's claim fails for the trivial empty path; and edge weights have no
effect on the result: reweighting every edge arbitrarily leaves the output
unchanged. -/
theorem bfs_reachability :
    (∀ (hp : Heap) (g : Graph) (a b : String) (r : Bool),
      breadth_first_search hp g a b = some (.ok r) → (r = true ↔ ReachNE hp a b)) ∧
    (∀ (f : String → String → ℚ → ℚ) (hp : Heap) (g : Graph) (a b : String),
      breadth_first_search (hp.map (reweightV f)) g a b =
        breadth_first_search hp g a b) :=
  ⟨breadth_first_search_iff, breadth_first_search_reweight⟩

/-- C3 counterexample: in the one-vertex graph with no edges, `a` is
reachable from `a` (by the empty path, the case `a = b` the claim includes),
yet `breadth_first_search(a, a)` returns `false`. -/
theorem bfs_reachability_counterexample :
    breadth_first_search [⟨"a", []⟩] (graphInit [⟨"a", []⟩] ["a"]) "a" "a" =
      some (.ok false) ∧ Reach [⟨"a", []⟩] "a" "a" :=
  ⟨by rfl, ⟨[], Chain.nil "a"⟩⟩

/-- C3 witness: on the two-vertex graph with edge a→b the completed run
returns `true`, and the amended equivalence plus weight-independence hold at
this concrete input. -/
theorem bfs_reachability_witness :
    (true = true ↔ ReachNE [⟨"a", [("b", 1)]⟩, ⟨"b", []⟩] "a" "b") ∧
    breadth_first_search (List.map (reweightV bumpWeight)
        [⟨"a", [("b", 1)]⟩, ⟨"b", []⟩])
      (graphInit [⟨"a", [("b", 1)]⟩, ⟨"b", []⟩] ["a", "b"]) "a" "b" =
      breadth_first_search [⟨"a", [("b", 1)]⟩, ⟨"b", []⟩]
        (graphInit [⟨"a", [("b", 1)]⟩, ⟨"b", []⟩] ["a", "b"]) "a" "b" :=
  ⟨bfs_reachability.1 [⟨"a", [("b", 1)]⟩, ⟨"b", []⟩]
      (graphInit [⟨"a", [("b", 1)]⟩, ⟨"b", []⟩] ["a", "b"]) "a" "b" true (by rfl),
    bfs_reachability.2 bumpWeight [⟨"a", [("b", 1)]⟩, ⟨"b", []⟩]
      (graphInit [⟨"a", [("b", 1)]⟩, ⟨"b", []⟩] ["a", "b"]) "a" "b"⟩

/-- C4 (amended): for a completed `find_shortest_path(a, b)` run (raw order,
`reverse = true`), the result is `None` exactly when `b` is not reachable
from `a` by a path with at least one edge (so `a = b` yields `None` unless
`a` is on a cycle — the spec's "reachable" case fails for the trivial path),
and any returned list is `a`'s minimal-edge-count path read end-to-start:
reversed it is `a` followed by a path to `b` whose edge count is a minimum
over all directed paths from `a` to `b`. -/
theorem find_shortest_path_min_edges (hp : Heap) (g : Graph) (a b : String)
    (res : Option (List String))
    (hr : find_shortest_path hp g a b true = some (.ok res)) :
    (res = none ↔ ¬ ReachNE hp a b) ∧
    (∀ l, res = some l → ∃ tl, l.reverse = a :: tl ∧ Chain hp a tl b ∧
      ∀ lc, Chain hp a lc b → tl.length ≤ lc.length) :=
  find_shortest_path_spec hp g a b res hr

/-- C4 counterexample: in the one-vertex graph with no edges, `a` is
reachable from `a` (trivial path), yet `find_shortest_path(a, a)` returns
`None` rather than a minimum-edge-count path. -/
theorem find_shortest_path_min_edges_counterexample :
    find_shortest_path [⟨"a", []⟩] (graphInit [⟨"a", []⟩] ["a"]) "a" "a" true =
      some (.ok none) ∧ Reach [⟨"a", []⟩] "a" "a" :=
  ⟨by rfl, ⟨[], Chain.nil "a"⟩⟩

/-- C4 witness: on the edge a→b the run returns the raw path ["b", "a"] and
the amended characterization holds at this concrete input. -/
theorem find_shortest_path_min_edges_witness :
    ((some ["b", "a"] : Option (List String)) = none ↔
      ¬ ReachNE [⟨"a", [("b", 1)]⟩, ⟨"b", []⟩] "a" "b") ∧
    (∀ l, (some ["b", "a"] : Option (List String)) = some l →
      ∃ tl, l.reverse = "a" :: tl ∧ Chain [⟨"a", [("b", 1)]⟩, ⟨"b", []⟩] "a" tl "b" ∧
        ∀ lc, Chain [⟨"a", [("b", 1)]⟩, ⟨"b", []⟩] "a" lc "b" → tl.length ≤ lc.length) :=
  find_shortest_path_min_edges [⟨"a", [("b", 1)]⟩, ⟨"b", []⟩]
    (graphInit [⟨"a", [("b", 1)]⟩, ⟨"b", []⟩] ["a", "b"]) "a" "b"
    (some ["b", "a"]) (by rfl)

/-- C1 (amended): the flag's meaning is the inverse of the spec's reading.
For both path functions, the `reverse = false` call returns exactly the
listwise reversal of the `reverse = true` call's result; and a successful
`reverse = true` call of `find_shortest_path` returns the RAW end-to-start
extraction order — the list starts with `end` and finishes with `start`. -/
theorem find_path_reverse_semantics :
    (∀ (hp : Heap) (g : Graph) (a b : String),
      find_shortest_path hp g a b false =
        (find_shortest_path hp g a b true).map
          (fun e => e.map (fun o => o.map List.reverse))) ∧
    (∀ (hp : Heap) (g : Graph) (a b : String),
      find_weighted_shortest_path hp g a b false =
        (find_weighted_shortest_path hp g a b true).map
          (fun e => e.map (fun o => o.map List.reverse))) ∧
    (∀ (hp : Heap) (g : Graph) (a b : String) (l : List String),
      find_shortest_path hp g a b true = some (.ok (some l)) →
        l.head? = some b ∧ l.getLast? = some a) := by
  refine ⟨find_shortest_path_flag, find_weighted_shortest_path_flag, ?_⟩
  intro hp g a b l hr
  rcases (find_shortest_path_spec hp g a b (some l) hr).2 l rfl with
    ⟨tl, hrev, hchain, _⟩
  constructor
  · rw [← List.getLast?_reverse l, hrev]
    exact chain_getLast hp a b tl hchain
  · rw [← List.head?_reverse l, hrev]
    rfl

/-- C1 counterexample: on the edge a→b, `reverse = true` yields the raw
end-to-start list ["b", "a"], not start-to-end as claimed, and
`reverse = false` yields the start-to-end list ["a", "b"], not the raw
order as claimed. -/
theorem find_path_reverse_counterexample :
    find_shortest_path [⟨"a", [("b", 1)]⟩, ⟨"b", []⟩]
        (graphInit [⟨"a", [("b", 1)]⟩, ⟨"b", []⟩] ["a", "b"]) "a" "b" true =
      some (.ok (some ["b", "a"])) ∧
    find_shortest_path [⟨"a", [("b", 1)]⟩, ⟨"b", []⟩]
        (graphInit [⟨"a", [("b", 1)]⟩, ⟨"b", []⟩] ["a", "b"]) "a" "b" false =
      some (.ok (some ["a", "b"])) ∧
    (["b", "a"] : List String) ≠ ["a", "b"] :=
  ⟨by rfl, by rfl, by decide⟩

/-- C1 witness: the reversal relation and the raw-order endpoints at the
concrete edge a→b. -/
theorem find_path_reverse_semantics_witness :
    find_shortest_path [⟨"a", [("b", 1)]⟩, ⟨"b", []⟩]
        (graphInit [⟨"a", [("b", 1)]⟩, ⟨"b", []⟩] ["a", "b"]) "a" "b" false =
      (find_shortest_path [⟨"a", [("b", 1)]⟩, ⟨"b", []⟩]
          (graphInit [⟨"a", [("b", 1)]⟩, ⟨"b", []⟩] ["a", "b"]) "a" "b" true).map
        (fun e => e.map (fun o => o.map List.reverse)) ∧
    (["b", "a"] : List String).head? = some "b" ∧
    (["b", "a"] : List String).getLast? = some "a" :=
  ⟨find_path_reverse_semantics.1 [⟨"a", [("b", 1)]⟩, ⟨"b", []⟩]
      (graphInit [⟨"a", [("b", 1)]⟩, ⟨"b", []⟩] ["a", "b"]) "a" "b",
    find_path_reverse_semantics.2.2 [⟨"a", [("b", 1)]⟩, ⟨"b", []⟩]
      (graphInit [⟨"a", [("b", 1)]⟩, ⟨"b", []⟩] ["a", "b"]) "a" "b"
      ["b", "a"] (by rfl)⟩

/-! ### Dijkstra invariants and the parent-map-irrelevance projection -/

theorem relax_neighbors_cons (v : String) (d : ℚ) (p : String × ℚ)
    (ns : List (String × ℚ)) (st : DSt) :
    relax_neighbors v d (p :: ns) st =
      (match lookupAssoc st.dist p.1 with
      | none => .error (.keyError p.1)
      | some dn =>
          if ltInf (d + p.2) dn then
            relax_neighbors v d ns
              ⟨updateAssoc st.dist p.1 (some (d + p.2)), st.pq ++ [(d + p.2, p.1)],
               st.visited, st.pm.map (fun m => updateAssoc m p.1 (some v))⟩
          else relax_neighbors v d ns st) := rfl

theorem lookup_const_map {α : Type} (vs : List String) (c : α) (n : String) :
    lookupAssoc (vs.map (fun v => (v, c))) n =
      if n ∈ vs then some c else none := by
  induction vs with
  | nil => simp [lookupAssoc]
  | cons v rest ih =>
      show lookupAssoc ((v, c) :: rest.map (fun v => (v, c))) n = _
      rw [lookupAssoc_cons]
      by_cases hv : v = n
      · simp [hv]
      · rw [if_neg hv, ih]
        have hmem : (n ∈ v :: rest) ↔ (n ∈ rest) := by
          constructor
          · intro h
            rcases List.mem_cons.mp h with h | h
            · exact absurd h.symm hv
            · exact h
          · exact List.mem_cons_of_mem v
        by_cases hn : n ∈ rest
        · rw [if_pos hn, if_pos (hmem.mpr hn)]
        · rw [if_neg hn, if_neg (fun h => hn (hmem.mp h))]

theorem relax_pm_isSome (v : String) (d : ℚ) :
    ∀ (ns : List (String × ℚ)) (st st' : DSt),
      relax_neighbors v d ns st = .ok st' → st'.pm.isSome = st.pm.isSome := by
  intro ns
  induction ns with
  | nil =>
      intro st st' hr
      have h2 : st = st' := Except.ok.injEq _ _ ▸ hr
      rw [h2]
  | cons p ns ih =>
      intro st st' hr
      rw [relax_neighbors_cons] at hr
      cases hlook : lookupAssoc st.dist p.1 with
      | none =>
          rw [hlook] at hr
          have hr2 : (Except.error (GErr.keyError p.1) : Except GErr DSt) =
            Except.ok st' := hr
          cases hr2
      | some dn =>
          rw [hlook] at hr
          have hcoe : (if ltInf (d + p.2) dn = true then
              relax_neighbors v d ns
                ⟨updateAssoc st.dist p.1 (some (d + p.2)), st.pq ++ [(d + p.2, p.1)],
                 st.visited, st.pm.map (fun m => updateAssoc m p.1 (some v))⟩
            else relax_neighbors v d ns st) = .ok st' := hr
          by_cases hlt : ltInf (d + p.2) dn = true
          · rw [if_pos hlt] at hcoe
            have h2 := ih _ _ hcoe
            rw [h2]
            show (st.pm.map _).isSome = _
            cases st.pm <;> rfl
          · rw [if_neg hlt] at hcoe
            exact ih _ _ hcoe

theorem dloop_pm_isSome (hp : Heap) (endV : Option String) :
    ∀ (fuel : Nat) (st : DSt) (r : Bool) (st' : DSt),
      dijkstra_loop hp endV fuel st = some (.ok (r, st')) →
      st'.pm.isSome = st.pm.isSome := by
  intro fuel
  induction fuel with
  | zero =>
      intro st r st' hr
      cases hr
  | succ f ih =>
      intro st r st' hr
      cases hpop : popMin st.pq with
      | none =>
          simp only [dijkstra_loop, hpop] at hr
          have h0 := Option.some.injEq _ _ ▸ hr
          have h3 : ((false, st) : Bool × DSt) = (r, st') := Except.ok.injEq _ _ ▸ h0
          have h2 : st = st' := ((Prod.mk.injEq _ _ _ _ ▸ h3)).2
          rw [← h2]
      | some pr =>
          rcases pr with ⟨x, pq'⟩
          simp only [dijkstra_loop, hpop] at hr
          by_cases hvis : x.2 ∈ st.visited
          · rw [if_pos hvis] at hr
            exact ih ⟨st.dist, pq', st.visited, st.pm⟩ r st' hr
          · rw [if_neg hvis] at hr
            cases hrel : relax_neighbors x.2 x.1 (resolve hp x.2).neighbors
                ⟨st.dist, pq', st.visited ++ [x.2], st.pm⟩ with
            | error er =>
                rw [hrel] at hr
                cases hr
            | ok st₂ =>
                rw [hrel] at hr
                have hr2 : (if endV = some x.2 then some (Except.ok (true, st₂))
                    else dijkstra_loop hp endV f st₂) = some (Except.ok (r, st')) := hr
                have hpm2 : st₂.pm.isSome = st.pm.isSome :=
                  relax_pm_isSome x.2 x.1 (resolve hp x.2).neighbors
                    ⟨st.dist, pq', st.visited ++ [x.2], st.pm⟩ st₂ hrel
                by_cases hev : endV = some x.2
                · rw [if_pos hev] at hr2
                  have h0 := Option.some.injEq _ _ ▸ hr2
                  have h3 : ((true, st₂) : Bool × DSt) = (r, st') :=
                    Except.ok.injEq _ _ ▸ h0
                  have h2 : st₂ = st' := ((Prod.mk.injEq _ _ _ _ ▸ h3)).2
                  rw [← h2]
                  exact hpm2
                · rw [if_neg hev] at hr2
                  rw [ih st₂ r st' hr2]
                  exact hpm2

theorem relax_proj (v : String) (d : ℚ) :
    ∀ (ns : List (String × ℚ)) (s₁ s₂ : DSt), DProj s₁ s₂ →
      ∀ t₁, relax_neighbors v d ns s₁ = .ok t₁ →
        ∃ t₂, relax_neighbors v d ns s₂ = .ok t₂ ∧ DProj t₁ t₂ := by
  intro ns
  induction ns with
  | nil =>
      intro s₁ s₂ hproj t₁ hr
      have h2 : s₁ = t₁ := Except.ok.injEq _ _ ▸ hr
      exact ⟨s₂, rfl, h2 ▸ hproj⟩
  | cons p ns ih =>
      intro s₁ s₂ hproj t₁ hr
      rw [relax_neighbors_cons] at hr
      cases hlook : lookupAssoc s₁.dist p.1 with
      | none =>
          rw [hlook] at hr
          have hr2 : (Except.error (GErr.keyError p.1) : Except GErr DSt) =
            Except.ok t₁ := hr
          cases hr2
      | some dn =>
          rw [hlook] at hr
          have hlook₂ : lookupAssoc s₂.dist p.1 = some dn := by
            rw [← hproj.1]
            exact hlook
          have hcoe : (if ltInf (d + p.2) dn = true then
              relax_neighbors v d ns
                ⟨updateAssoc s₁.dist p.1 (some (d + p.2)), s₁.pq ++ [(d + p.2, p.1)],
                 s₁.visited, s₁.pm.map (fun m => updateAssoc m p.1 (some v))⟩
            else relax_neighbors v d ns s₁) = .ok t₁ := hr
          by_cases hlt : ltInf (d + p.2) dn = true
          · rw [if_pos hlt] at hcoe
            have hproj' : DProj
                ⟨updateAssoc s₁.dist p.1 (some (d + p.2)), s₁.pq ++ [(d + p.2, p.1)],
                 s₁.visited, s₁.pm.map (fun m => updateAssoc m p.1 (some v))⟩
                ⟨updateAssoc s₂.dist p.1 (some (d + p.2)), s₂.pq ++ [(d + p.2, p.1)],
                 s₂.visited, s₂.pm.map (fun m => updateAssoc m p.1 (some v))⟩ := by
              refine ⟨?_, ?_, ?_⟩
              · show updateAssoc s₁.dist p.1 _ = updateAssoc s₂.dist p.1 _
                rw [hproj.1]
              · show s₁.pq ++ _ = s₂.pq ++ _
                rw [hproj.2.1]
              · exact hproj.2.2
            rcases ih _ _ hproj' t₁ hcoe with ⟨t₂, hr₂, hprojf⟩
            refine ⟨t₂, ?_, hprojf⟩
            have hstep : relax_neighbors v d (p :: ns) s₂ =
                relax_neighbors v d ns
                  ⟨updateAssoc s₂.dist p.1 (some (d + p.2)), s₂.pq ++ [(d + p.2, p.1)],
                   s₂.visited, s₂.pm.map (fun m => updateAssoc m p.1 (some v))⟩ := by
              rw [relax_neighbors_cons, hlook₂]
              show (if ltInf (d + p.2) dn = true then
                  relax_neighbors v d ns
                    ⟨updateAssoc s₂.dist p.1 (some (d + p.2)), s₂.pq ++ [(d + p.2, p.1)],
                     s₂.visited, s₂.pm.map (fun m => updateAssoc m p.1 (some v))⟩
                else relax_neighbors v d ns s₂) = _
              rw [if_pos hlt]
            rw [hstep]
            exact hr₂
          · rw [if_neg hlt] at hcoe
            rcases ih _ _ hproj t₁ hcoe with ⟨t₂, hr₂, hprojf⟩
            refine ⟨t₂, ?_, hprojf⟩
            have hstep : relax_neighbors v d (p :: ns) s₂ =
                relax_neighbors v d ns s₂ := by
              rw [relax_neighbors_cons, hlook₂]
              show (if ltInf (d + p.2) dn = true then
                  relax_neighbors v d ns
                    ⟨updateAssoc s₂.dist p.1 (some (d + p.2)), s₂.pq ++ [(d + p.2, p.1)],
                     s₂.visited, s₂.pm.map (fun m => updateAssoc m p.1 (some v))⟩
                else relax_neighbors v d ns s₂) = _
              rw [if_neg hlt]
            rw [hstep]
            exact hr₂

theorem dloop_proj (hp : Heap) (endV : Option String) :
    ∀ (fuel : Nat) (s₁ s₂ : DSt), DProj s₁ s₂ →
      ∀ r t₁, dijkstra_loop hp endV fuel s₁ = some (.ok (r, t₁)) →
        ∃ t₂, dijkstra_loop hp endV fuel s₂ = some (.ok (r, t₂)) ∧ DProj t₁ t₂ := by
  intro fuel
  induction fuel with
  | zero =>
      intro s₁ s₂ _ r t₁ hr
      cases hr
  | succ f ih =>
      intro s₁ s₂ hproj r t₁ hr
      cases hpop : popMin s₁.pq with
      | none =>
          simp only [dijkstra_loop, hpop] at hr
          have h0 := Option.some.injEq _ _ ▸ hr
          have h3 : ((false, s₁) : Bool × DSt) = (r, t₁) := Except.ok.injEq _ _ ▸ h0
          have h1 : false = r := ((Prod.mk.injEq _ _ _ _ ▸ h3)).1
          have h2 : s₁ = t₁ := ((Prod.mk.injEq _ _ _ _ ▸ h3)).2
          have hpop2 : popMin s₂.pq = none := by
            rw [← hproj.2.1]
            exact hpop
          refine ⟨s₂, ?_, h2 ▸ hproj⟩
          rw [← h1]
          simp [dijkstra_loop, hpop2]
      | some pr =>
          rcases pr with ⟨x, pq'⟩
          simp only [dijkstra_loop, hpop] at hr
          have hpop2 : popMin s₂.pq = some (x, pq') := by
            rw [← hproj.2.1]
            exact hpop
          by_cases hvis : x.2 ∈ s₁.visited
          · rw [if_pos hvis] at hr
            have hvis2 : x.2 ∈ s₂.visited := hproj.2.2 ▸ hvis
            have hproj' : DProj ⟨s₁.dist, pq', s₁.visited, s₁.pm⟩
                ⟨s₂.dist, pq', s₂.visited, s₂.pm⟩ := ⟨hproj.1, rfl, hproj.2.2⟩
            rcases ih _ _ hproj' r t₁ hr with ⟨t₂, hr₂, hprojf⟩
            refine ⟨t₂, ?_, hprojf⟩
            simp only [dijkstra_loop, hpop2]
            rw [if_pos hvis2]
            exact hr₂
          · rw [if_neg hvis] at hr
            have hvis2 : x.2 ∉ s₂.visited := hproj.2.2 ▸ hvis
            cases hrel : relax_neighbors x.2 x.1 (resolve hp x.2).neighbors
                ⟨s₁.dist, pq', s₁.visited ++ [x.2], s₁.pm⟩ with
            | error er =>
                rw [hrel] at hr
                cases hr
            | ok st₂ =>
                rw [hrel] at hr
                have hr2 : (if endV = some x.2 then some (Except.ok (true, st₂))
                    else dijkstra_loop hp endV f st₂) = some (Except.ok (r, t₁)) := hr
                have hproj0 : DProj ⟨s₁.dist, pq', s₁.visited ++ [x.2], s₁.pm⟩
                    ⟨s₂.dist, pq', s₂.visited ++ [x.2], s₂.pm⟩ := by
                  refine ⟨hproj.1, rfl, ?_⟩
                  show s₁.visited ++ [x.2] = s₂.visited ++ [x.2]
                  rw [hproj.2.2]
                rcases relax_proj x.2 x.1 (resolve hp x.2).neighbors _ _ hproj0 st₂ hrel
                  with ⟨u₂, hrel₂, hproju⟩
                by_cases hev : endV = some x.2
                · rw [if_pos hev] at hr2
                  have h0 := Option.some.injEq _ _ ▸ hr2
                  have h3 : ((true, st₂) : Bool × DSt) = (r, t₁) :=
                    Except.ok.injEq _ _ ▸ h0
                  have h1 : true = r := ((Prod.mk.injEq _ _ _ _ ▸ h3)).1
                  have h2 : st₂ = t₁ := ((Prod.mk.injEq _ _ _ _ ▸ h3)).2
                  refine ⟨u₂, ?_, h2 ▸ hproju⟩
                  simp only [dijkstra_loop, hpop2]
                  rw [if_neg hvis2, hrel₂]
                  show (if endV = some x.2 then some (Except.ok (true, u₂))
                    else dijkstra_loop hp endV f u₂) = some (Except.ok (r, u₂))
                  rw [if_pos hev, ← h1]
                · rw [if_neg hev] at hr2
                  rcases ih st₂ u₂ hproju r t₁ hr2 with ⟨t₂, hr₂, hprojf⟩
                  refine ⟨t₂, ?_, hprojf⟩
                  simp only [dijkstra_loop, hpop2]
                  rw [if_neg hvis2, hrel₂]
                  show (if endV = some x.2 then some (Except.ok (true, u₂))
                    else dijkstra_loop hp endV f u₂) = some (Except.ok (r, t₂))
                  rw [if_neg hev]
                  exact hr₂

theorem dinit_inv (hp : Heap) (g : Graph) (start : String) (pm0 : Option PMap)
    (hpm : pm0 = none ∨ (pm0 = some (g.vertexes.map
      (fun v => (v, (none : Option String)))) ∧ start ∈ g.vertexes)) :
    DInvP hp g start
      ⟨updateAssoc (g.vertexes.map (fun v => (v, (none : Option ℚ)))) start (some 0),
       [((0 : ℚ), start)], [], pm0⟩ := by
  have hlk : ∀ n, lookupAssoc (updateAssoc (g.vertexes.map
      (fun v => (v, (none : Option ℚ)))) start (some 0)) n =
      if n = start then some (some 0)
      else if n ∈ g.vertexes then some none else none := by
    intro n
    rw [lookupAssoc_updateAssoc]
    by_cases hn : n = start
    · rw [if_pos hn, if_pos hn]
    · rw [if_neg hn, if_neg hn, lookup_const_map]
  refine ⟨dist0_keys g start, ?_, ?_, ?_, ?_, ?_, ?_, ?_, ?_⟩
  · rw [hlk start, if_pos rfl]
  · intro n c hc
    rw [hlk n] at hc
    by_cases hn : n = start
    · rw [if_pos hn] at hc
      have h1 : (some 0 : Option ℚ) = some c := Option.some.injEq _ _ ▸ hc
      have h2 : (0 : ℚ) = c := Option.some.injEq _ _ ▸ h1
      rw [hn, ← h2]
      exact ⟨[], CChain.nil start⟩
    · rw [if_neg hn] at hc
      by_cases hv : n ∈ g.vertexes
      · rw [if_pos hv] at hc
        have h1 : (none : Option ℚ) = some c := Option.some.injEq _ _ ▸ hc
        cases h1
      · rw [if_neg hv] at hc
        cases hc
  · intro v hv
    cases hv
  · intro e he
    have he2 : e = ((0 : ℚ), start) := by simpa using he
    rw [he2]
    refine ⟨0, ?_, le_refl 0⟩
    rw [hlk start, if_pos rfl]
  · intro n c _ hc
    rw [hlk n] at hc
    by_cases hn : n = start
    · rw [if_pos hn] at hc
      have h1 : (some 0 : Option ℚ) = some c := Option.some.injEq _ _ ▸ hc
      have h2 : (0 : ℚ) = c := Option.some.injEq _ _ ▸ h1
      rw [hn, ← h2]
      simp
    · rw [if_neg hn] at hc
      by_cases hv : n ∈ g.vertexes
      · rw [if_pos hv] at hc
        have h1 : (none : Option ℚ) = some c := Option.some.injEq _ _ ▸ hc
        cases h1
      · rw [if_neg hv] at hc
        cases hc
  · intro u hu
    cases hu
  · exact List.nodup_nil
  · intro m hm
    rcases hpm with h | ⟨h, hstart⟩
    · rw [h] at hm
      cases hm
    · rw [h] at hm
      have hm2 : g.vertexes.map (fun v => (v, (none : Option String))) = m :=
        Option.some.injEq _ _ ▸ hm
      rw [← hm2]
      refine ⟨?_, ?_, ?_, ?_⟩
      · intro n
        rw [lookup_const_map]
        by_cases hn : n ∈ g.vertexes
        · simp [hn]
        · simp [hn]
      · rw [lookup_const_map, if_pos hstart]
      · intro v u hv
        rw [lookup_const_map] at hv
        by_cases hn : v ∈ g.vertexes
        · rw [if_pos hn] at hv
          have h1 : (none : Option String) = some u := Option.some.injEq _ _ ▸ hv
          cases h1
        · rw [if_neg hn] at hv
          cases hv
      · intro v c hvne hc
        rw [hlk v, if_neg hvne] at hc
        by_cases hv : v ∈ g.vertexes
        · rw [if_pos hv] at hc
          have h1 : (none : Option ℚ) = some c := Option.some.injEq _ _ ▸ hc
          cases h1
        · rw [if_neg hv] at hc
          cases hc

theorem d_cover (hp : Heap) (g : Graph) (start : String) (hnn : NonnegWeights hp)
    {st : DSt} (hinv : DInvP hp g start st) {e : ℚ × String}
    {pq' : List (ℚ × String)} (hpop : popMin st.pq = some (e, pq')) :
    ∀ (l : List String) (n : String) (c' : ℚ), n ∉ st.visited →
      CChain hp start l n c' → e.1 ≤ c' := by
  intro l
  induction l using List.reverseRecOn with
  | nil =>
      intro n c' hn hc
      cases hc
      have hpend := hinv.pending start 0 hn hinv.dstart
      exact popMin_min hpop (0, start) hpend
  | append_singleton l' b ihl =>
      intro n c' hn hc
      rcases cchain_snoc_decomp hc with ⟨hnb, y, w, cy, hcy, hw, hce⟩
      by_cases hy : y ∈ st.visited
      · rcases hinv.frontier y hy (n, w) (hnb ▸ lookupWeight_mem hw) with
          ⟨cu, cx, hcu, hcx, hle⟩
        rcases hinv.settled y hy with ⟨cy₂, hcy₂, hminy⟩
        have hcueq : some (some cu) = some (some cy₂) := by rw [← hcu, ← hcy₂]
        have hcueq2 : cu = cy₂ :=
          Option.some.injEq _ _ ▸ (Option.some.injEq _ _ ▸ hcueq)
        have hcy_le : cy₂ ≤ cy := hminy l' cy hcy
        have hpend := hinv.pending n cx hn hcx
        have hm := popMin_min hpop (cx, n) hpend
        have hw' : lookupWeight hp y n = some w := by rw [hnb]; exact hw
        rw [hce]
        have : (cx, n).1 = cx := rfl
        rw [this] at hm
        linarith
      · have h1 := ihl y cy hy hcy
        have hw0 : 0 ≤ w := lookupWeight_nonneg hnn hw
        rw [hce]
        linarith

theorem d_skip (hp : Heap) (g : Graph) (start : String) {st : DSt}
    (hinv : DInvP hp g start st) {e : ℚ × String} {pq' : List (ℚ × String)}
    (hpop : popMin st.pq = some (e, pq')) (hvis : e.2 ∈ st.visited) :
    DInvP hp g start ⟨st.dist, pq', st.visited, st.pm⟩ := by
  refine ⟨hinv.dkeys, hinv.dstart, hinv.dsound, hinv.settled, ?_, ?_, hinv.frontier,
    hinv.vnodup, hinv.pmap⟩
  · intro e' he'
    exact hinv.qsound e' (popMin_sub hpop he')
  · intro n c hnv hc
    have hne : (c, n) ≠ e := by
      intro h
      apply hnv
      have : n = e.2 := by rw [← h]
      rw [this]
      exact hvis
    exact popMin_mem_rest hpop (hinv.pending n c hnv hc) hne

theorem d_settle (hp : Heap) (g : Graph) (start : String) (hnn : NonnegWeights hp)
    {st : DSt} (hinv : DInvP hp g start st) {e : ℚ × String}
    {pq' : List (ℚ × String)} (hpop : popMin st.pq = some (e, pq'))
    (hvis : e.2 ∉ st.visited) :
    RInv hp g start e.2 e.1 ⟨st.dist, pq', st.visited ++ [e.2], st.pm⟩ ∧
      lookupAssoc st.dist e.2 = some (some e.1) := by
  rcases hinv.qsound e (popMin_mem hpop) with ⟨c, hce, hcle⟩
  have hpend := hinv.pending e.2 c hvis hce
  have hmin := popMin_min hpop (c, e.2) hpend
  have hmin' : e.1 ≤ c := hmin
  have hceq : c = e.1 := le_antisymm hcle hmin'
  have hce' : lookupAssoc st.dist e.2 = some (some e.1) := by
    rw [← hceq]
    exact hce
  refine ⟨⟨hinv.dkeys, hinv.dstart, hinv.dsound, ?_, ?_, ?_, ?_, ?_, ?_, hce', ?_⟩, hce'⟩
  · intro x hx
    rcases List.mem_append.mp hx with hx | hx
    · exact hinv.settled x hx
    · have hx2 : x = e.2 := by simpa using hx
      rw [hx2]
      refine ⟨e.1, hce', ?_⟩
      intro l c' hc
      exact d_cover hp g start hnn hinv hpop l e.2 c' hvis hc
  · intro e' he'
    exact hinv.qsound e' (popMin_sub hpop he')
  · intro n c' hnv hc
    have hnv1 : n ∉ st.visited := fun h => hnv (List.mem_append.mpr (Or.inl h))
    have hne2 : n ≠ e.2 := by
      intro h
      exact hnv (List.mem_append.mpr (Or.inr (by simp [h])))
    have hne : (c', n) ≠ e := by
      intro h
      apply hne2
      rw [← h]
    exact popMin_mem_rest hpop (hinv.pending n c' hnv1 hc) hne
  · intro u hu hune
    rcases List.mem_append.mp hu with hu | hu
    · exact hinv.frontier u hu
    · exact absurd (by simpa using hu) hune
  · simp only [List.nodup_append, List.nodup_singleton, List.disjoint_singleton]
    exact ⟨hinv.vnodup, trivial, hvis⟩
  · simp
  · intro m hm
    have hpi := hinv.pmap m hm
    refine ⟨hpi.dom, hpi.at_start, ?_, hpi.written⟩
    intro v u hv
    rcases hpi.parent v u hv with ⟨hu, w, cu, cv, hw, hcu, hcv, hle, hord⟩
    refine ⟨List.mem_append.mpr (Or.inl hu), w, cu, cv, hw, hcu, hcv, hle, ?_⟩
    intro hvv
    rcases List.mem_append.mp hvv with hvv | hvv
    · rw [List.indexOf_append_of_mem hu, List.indexOf_append_of_mem hvv]
      exact hord hvv
    · have hv2 : v = e.2 := by simpa using hvv
      rw [List.indexOf_append_of_mem hu]
      have hvnot : v ∉ st.visited := hv2 ▸ hvis
      rw [List.indexOf_append_of_not_mem hvnot]
      have h1 : List.indexOf u st.visited < st.visited.length :=
        List.indexOf_lt_length.mpr hu
      have h2 : List.indexOf v [v] = 0 := by simp
      have hveq : List.indexOf v [e.2] = 0 := by
        rw [hv2]
        simp
      rw [hveq]
      omega

theorem relax_spec (hp : Heap) (g : Graph) (start : String) (hwf : WFHeap hp)
    (hnn : NonnegWeights hp) (v : String) (d : ℚ) :
    ∀ (ns : List (String × ℚ)) (st : DSt),
      RInv hp g start v d st →
      (∀ p ∈ ns, p ∈ (resolve hp v).neighbors) →
      ∀ st', relax_neighbors v d ns st = .ok st' →
        RInv hp g start v d st' ∧
        (∀ n c, lookupAssoc st.dist n = some (some c) →
          ∃ c', lookupAssoc st'.dist n = some (some c') ∧ c' ≤ c) ∧
        (∀ p ∈ ns, ∃ cx, lookupAssoc st'.dist p.1 = some (some cx) ∧ cx ≤ d + p.2) := by
  have hvnodup : ((resolve hp v).neighbors.map Prod.fst).Nodup := by
    rcases resolve_mem_or_nil hp v with hm | hm
    · exact hwf.2 _ hm
    · rw [hm]
      exact List.nodup_nil
  intro ns
  induction ns with
  | nil =>
      intro st hinv _ st' hr
      have h2 : st = st' := Except.ok.injEq _ _ ▸ hr
      rw [← h2]
      exact ⟨hinv, fun n c h => ⟨c, h, le_refl c⟩, fun p hpm => absurd hpm (by simp)⟩
  | cons p ns ih =>
      intro st hinv hns st' hr
      have hpmem : p ∈ (resolve hp v).neighbors := hns p (List.mem_cons_self p ns)
      have hwp : lookupWeight hp v p.1 = some p.2 := by
        apply mem_lookupWeight hvnodup
        have : p = (p.1, p.2) := rfl
        rw [← this]
        exact hpmem
      have hw0 : 0 ≤ p.2 := lookupWeight_nonneg hnn hwp
      rcases hinv.dsound v d hinv.v_dist with ⟨lv, hlv⟩
      have hd0 : 0 ≤ d := cchain_nonneg hnn hlv
      have hchain_p : CChain hp start (lv ++ [p.1]) p.1 (d + p.2) :=
        cchain_append_edge hlv hwp
      rw [relax_neighbors_cons] at hr
      cases hlook : lookupAssoc st.dist p.1 with
      | none =>
          rw [hlook] at hr
          have hr2 : (Except.error (GErr.keyError p.1) : Except GErr DSt) =
            Except.ok st' := hr
          cases hr2
      | some dn =>
          rw [hlook] at hr
          have hcoe : (if ltInf (d + p.2) dn = true then
              relax_neighbors v d ns
                ⟨updateAssoc st.dist p.1 (some (d + p.2)), st.pq ++ [(d + p.2, p.1)],
                 st.visited, st.pm.map (fun m => updateAssoc m p.1 (some v))⟩
            else relax_neighbors v d ns st) = .ok st' := hr
          by_cases hlt : ltInf (d + p.2) dn = true
          · rw [if_pos hlt] at hcoe
            have hstrict : ∀ c₀, dn = some c₀ → d + p.2 < c₀ := by
              intro c₀ h
              rw [h] at hlt
              exact of_decide_eq_true hlt
            have hp_nvis : p.1 ∉ st.visited := by
              intro hmem
              rcases hinv.settled p.1 hmem with ⟨cs, hcs, hmins⟩
              have hdn : some dn = some (some cs) := by rw [← hlook, hcs]
              have hdn2 : dn = some cs := Option.some.injEq _ _ ▸ hdn
              have h1 := hstrict cs hdn2
              have h2 := hmins (lv ++ [p.1]) (d + p.2) hchain_p
              linarith
            have hp_ne_start : p.1 ≠ start := by
              intro h
              have hdn : some dn = some (some (0 : ℚ)) := by
                rw [← hlook, h, hinv.dstart]
              have hdn2 : dn = some 0 := Option.some.injEq _ _ ▸ hdn
              have h1 := hstrict 0 hdn2
              linarith
            have hp_ne_v : p.1 ≠ v := by
              intro h
              exact hp_nvis (h ▸ hinv.v_mem)
            have hlk' : ∀ n, lookupAssoc (updateAssoc st.dist p.1 (some (d + p.2))) n =
                if n = p.1 then some (some (d + p.2)) else lookupAssoc st.dist n :=
              fun n => lookupAssoc_updateAssoc st.dist p.1 n (some (d + p.2))
            have hp_in_g : p.1 ∈ g.vertexes := by
              have hs : (lookupAssoc st.dist p.1).isSome := by
                rw [hlook]
                rfl
              rcases (hinv.dkeys p.1).mp hs with h | h
              · exact h
              · exact absurd h hp_ne_start
            have hinv₁ : RInv hp g start v d
                ⟨updateAssoc st.dist p.1 (some (d + p.2)), st.pq ++ [(d + p.2, p.1)],
                 st.visited, st.pm.map (fun m => updateAssoc m p.1 (some v))⟩ := by
              refine ⟨?_, ?_, ?_, ?_, ?_, ?_, ?_, hinv.vnodup, hinv.v_mem, ?_, ?_⟩
              · intro n
                show (lookupAssoc (updateAssoc st.dist p.1 (some (d + p.2))) n).isSome ↔ _
                rw [hlk' n]
                by_cases hn : n = p.1
                · rw [if_pos hn]
                  refine iff_of_true rfl ?_
                  rw [hn]
                  exact Or.inl hp_in_g
                · rw [if_neg hn]
                  exact hinv.dkeys n
              · show lookupAssoc (updateAssoc st.dist p.1 (some (d + p.2))) start = _
                rw [hlk' start, if_neg (fun h => hp_ne_start h.symm)]
                exact hinv.dstart
              · intro n c hc
                rw [hlk' n] at hc
                by_cases hn : n = p.1
                · rw [if_pos hn] at hc
                  have h1 : some (d + p.2) = some c :=
                    Option.some.injEq _ _ ▸ hc
                  have h2 : d + p.2 = c := Option.some.injEq _ _ ▸ h1
                  rw [hn, ← h2]
                  exact ⟨lv ++ [p.1], hchain_p⟩
                · rw [if_neg hn] at hc
                  exact hinv.dsound n c hc
              · intro x hx
                have hxne : x ≠ p.1 := by
                  intro h
                  exact hp_nvis (h ▸ hx)
                rcases hinv.settled x hx with ⟨cs, hcs, hmins⟩
                refine ⟨cs, ?_, hmins⟩
                rw [hlk' x, if_neg hxne]
                exact hcs
              · intro e' he'
                rcases List.mem_append.mp he' with he' | he'
                · rcases hinv.qsound e' he' with ⟨ce, hce, hle⟩
                  by_cases hn : e'.2 = p.1
                  · have hdn : some dn = some (some ce) := by
                      rw [← hlook, ← hn, hce]
                    have hdn2 : dn = some ce := Option.some.injEq _ _ ▸ hdn
                    have h1 := hstrict ce hdn2
                    refine ⟨d + p.2, ?_, by linarith⟩
                    rw [hlk' e'.2, if_pos hn]
                  · refine ⟨ce, ?_, hle⟩
                    rw [hlk' e'.2, if_neg hn]
                    exact hce
                · have he2 : e' = (d + p.2, p.1) := by simpa using he'
                  rw [he2]
                  refine ⟨d + p.2, ?_, le_refl _⟩
                  show lookupAssoc (updateAssoc st.dist p.1 (some (d + p.2))) p.1 = _
                  rw [hlk' p.1, if_pos rfl]
              · intro n c hnv hc
                rw [hlk' n] at hc
                by_cases hn : n = p.1
                · rw [if_pos hn] at hc
                  have h1 : some (d + p.2) = some c := Option.some.injEq _ _ ▸ hc
                  have h2 : d + p.2 = c := Option.some.injEq _ _ ▸ h1
                  rw [hn, ← h2]
                  exact List.mem_append.mpr (Or.inr (by simp))
                · rw [if_neg hn] at hc
                  exact List.mem_append.mpr (Or.inl (hinv.pending n c hnv hc))
              · intro u hu hune q hq
                have hu_ne : u ≠ p.1 := by
                  intro h
                  exact hp_nvis (h ▸ hu)
                rcases hinv.frontier_old u hu hune q hq with ⟨cu, cx, hcu, hcx, hle⟩
                have hcu' : lookupAssoc (updateAssoc st.dist p.1 (some (d + p.2))) u =
                    some (some cu) := by
                  rw [hlk' u, if_neg hu_ne]
                  exact hcu
                by_cases hn : q.1 = p.1
                · have hdn : some dn = some (some cx) := by
                    rw [← hlook, ← hn, hcx]
                  have hdn2 : dn = some cx := Option.some.injEq _ _ ▸ hdn
                  have h1 := hstrict cx hdn2
                  refine ⟨cu, d + p.2, hcu', ?_, by linarith⟩
                  rw [hlk' q.1, if_pos hn]
                · refine ⟨cu, cx, hcu', ?_, hle⟩
                  rw [hlk' q.1, if_neg hn]
                  exact hcx
              · show lookupAssoc (updateAssoc st.dist p.1 (some (d + p.2))) v = _
                rw [hlk' v, if_neg (fun h => hp_ne_v h.symm)]
                exact hinv.v_dist
              · intro m₁ hm₁
                have hm₁2 : st.pm.map (fun m => updateAssoc m p.1 (some v)) =
                  some m₁ := hm₁
                rcases Option.map_eq_some'.mp hm₁2 with ⟨m, hm, hm₁e⟩
                have hpi := hinv.pmap m hm
                have hlkm : ∀ n, lookupAssoc m₁ n =
                    if n = p.1 then some (some v) else lookupAssoc m n := by
                  intro n
                  rw [← hm₁e]
                  exact lookupAssoc_updateAssoc m p.1 n (some v)
                refine ⟨?_, ?_, ?_, ?_⟩
                · intro n
                  rw [hlkm n]
                  by_cases hn : n = p.1
                  · rw [if_pos hn]
                    refine iff_of_true rfl ?_
                    rw [hn]
                    exact hp_in_g
                  · rw [if_neg hn]
                    exact hpi.dom n
                · rw [hlkm start, if_neg (fun h => hp_ne_start h.symm)]
                  exact hpi.at_start
                · intro x u hx
                  rw [hlkm x] at hx
                  by_cases hn : x = p.1
                  · rw [if_pos hn] at hx
                    have h1 : some v = some u := Option.some.injEq _ _ ▸ hx
                    have h2 : v = u := Option.some.injEq _ _ ▸ h1
                    rw [hn, ← h2]
                    refine ⟨hinv.v_mem, p.2, d, d + p.2, hwp, ?_, ?_, le_refl _, ?_⟩
                    · show lookupAssoc (updateAssoc st.dist p.1 (some (d + p.2))) v = _
                      rw [hlk' v, if_neg (fun h => hp_ne_v h.symm)]
                      exact hinv.v_dist
                    · show lookupAssoc (updateAssoc st.dist p.1 (some (d + p.2))) p.1 = _
                      rw [hlk' p.1, if_pos rfl]
                    · intro hmem
                      exact absurd hmem hp_nvis
                  · rw [if_neg hn] at hx
                    rcases hpi.parent x u hx with ⟨hu, w, cu, cx, hw, hcu, hcx, hle, hord⟩
                    have hu_ne : u ≠ p.1 := by
                      intro h
                      exact hp_nvis (h ▸ hu)
                    refine ⟨hu, w, cu, cx, hw, ?_, ?_, hle, hord⟩
                    · rw [hlk' u, if_neg hu_ne]
                      exact hcu
                    · rw [hlk' x, if_neg hn]
                      exact hcx
                · intro x c hxs hc
                  rw [hlk' x] at hc
                  by_cases hn : x = p.1
                  · refine ⟨v, ?_⟩
                    rw [hlkm x, if_pos hn]
                  · rw [if_neg hn] at hc
                    rcases hpi.written x c hxs hc with ⟨u, hu⟩
                    refine ⟨u, ?_⟩
                    rw [hlkm x, if_neg hn]
                    exact hu
            rcases ih _ hinv₁ (fun q hq => hns q (List.mem_cons_of_mem p hq)) st' hcoe
              with ⟨hfin, hmono₁, hbound₁⟩
            refine ⟨hfin, ?_, ?_⟩
            · intro n c hs
              by_cases hn : n = p.1
              · have hdn : some dn = some (some c) := by rw [← hlook, ← hn, hs]
                have hdn2 : dn = some c := Option.some.injEq _ _ ▸ hdn
                have h1 := hstrict c hdn2
                have hs₁ : lookupAssoc (updateAssoc st.dist p.1 (some (d + p.2))) n =
                    some (some (d + p.2)) := by
                  rw [hlk' n, if_pos hn]
                rcases hmono₁ n (d + p.2) hs₁ with ⟨c', hc', hle'⟩
                exact ⟨c', hc', by linarith⟩
              · have hs₁ : lookupAssoc (updateAssoc st.dist p.1 (some (d + p.2))) n =
                    some (some c) := by
                  rw [hlk' n, if_neg hn]
                  exact hs
                exact hmono₁ n c hs₁
            · intro q hq
              rcases List.mem_cons.mp hq with hq | hq
              · have hs₁ : lookupAssoc (updateAssoc st.dist p.1 (some (d + p.2))) q.1 =
                    some (some (d + p.2)) := by
                  rw [hq]
                  rw [hlk' p.1, if_pos rfl]
                rcases hmono₁ q.1 (d + p.2) hs₁ with ⟨c', hc', hle'⟩
                refine ⟨c', hc', ?_⟩
                rw [hq]
                exact hle'
              · exact hbound₁ q hq
          · rw [if_neg hlt] at hcoe
            have hub : ∃ c₀, dn = some c₀ ∧ c₀ ≤ d + p.2 := by
              cases hdn : dn with
              | none =>
                  rw [hdn] at hlt
                  exact absurd rfl hlt
              | some c₀ =>
                  rw [hdn] at hlt
                  have h1 : ¬ (d + p.2 < c₀) := by
                    intro h
                    exact hlt (decide_eq_true h)
                  exact ⟨c₀, rfl, le_of_not_lt h1⟩
            rcases hub with ⟨c₀, hc₀, hc₀le⟩
            rcases ih st hinv (fun q hq => hns q (List.mem_cons_of_mem p hq)) st' hcoe
              with ⟨hfin, hmono₁, hbound₁⟩
            refine ⟨hfin, hmono₁, ?_⟩
            intro q hq
            rcases List.mem_cons.mp hq with hq | hq
            · have hs : lookupAssoc st.dist q.1 = some (some c₀) := by
                rw [hq, hlook, hc₀]
              rcases hmono₁ q.1 c₀ hs with ⟨c', hc', hle'⟩
              refine ⟨c', hc', ?_⟩
              rw [hq]
              linarith
            · exact hbound₁ q hq

theorem r_close (hp : Heap) (g : Graph) (start : String) (v : String) (d : ℚ)
    {st : DSt} (hinv : RInv hp g start v d st)
    (hfront : ∀ p ∈ (resolve hp v).neighbors, ∃ cx,
      lookupAssoc st.dist p.1 = some (some cx) ∧ cx ≤ d + p.2) :
    DInvP hp g start st := by
  refine ⟨hinv.dkeys, hinv.dstart, hinv.dsound, hinv.settled, hinv.qsound, hinv.pending,
    ?_, hinv.vnodup, hinv.pmap⟩
  intro u hu q hq
  by_cases huv : u = v
  · rcases hfront q (by rw [← huv]; exact hq) with ⟨cx, hcx, hle⟩
    refine ⟨d, cx, ?_, hcx, ?_⟩
    · rw [huv]
      exact hinv.v_dist
    · have hq2 : q.2 = q.2 := rfl
      exact hle
  · exact hinv.frontier_old u hu huv q hq

theorem dijkstra_loop_spec (hp : Heap) (g : Graph) (start : String) (hwf : WFHeap hp)
    (hnn : NonnegWeights hp) (endV : Option String) :
    ∀ (fuel : Nat) (st : DSt) (r : Bool) (st' : DSt),
      DInvP hp g start st →
      dijkstra_loop hp endV fuel st = some (.ok (r, st')) →
      DInvP hp g start st' ∧ (r = true → ∃ x, endV = some x ∧ x ∈ st'.visited) := by
  intro fuel
  induction fuel with
  | zero =>
      intro st r st' _ hr
      cases hr
  | succ f ih =>
      intro st r st' hinv hr
      cases hpop : popMin st.pq with
      | none =>
          simp only [dijkstra_loop, hpop] at hr
          have h0 := Option.some.injEq _ _ ▸ hr
          have h3 : ((false, st) : Bool × DSt) = (r, st') := Except.ok.injEq _ _ ▸ h0
          have h1 : false = r := ((Prod.mk.injEq _ _ _ _ ▸ h3)).1
          have h2 : st = st' := ((Prod.mk.injEq _ _ _ _ ▸ h3)).2
          rw [← h2, ← h1]
          exact ⟨hinv, by intro h; cases h⟩
      | some pr =>
          rcases pr with ⟨x, pq'⟩
          simp only [dijkstra_loop, hpop] at hr
          by_cases hvis : x.2 ∈ st.visited
          · rw [if_pos hvis] at hr
            exact ih ⟨st.dist, pq', st.visited, st.pm⟩ r st'
              (d_skip hp g start hinv hpop hvis) hr
          · rw [if_neg hvis] at hr
            rcases d_settle hp g start hnn hinv hpop hvis with ⟨hrinv, _⟩
            cases hrel : relax_neighbors x.2 x.1 (resolve hp x.2).neighbors
                ⟨st.dist, pq', st.visited ++ [x.2], st.pm⟩ with
            | error er =>
                rw [hrel] at hr
                cases hr
            | ok st₂ =>
                rw [hrel] at hr
                have hr2 : (if endV = some x.2 then some (Except.ok (true, st₂))
                    else dijkstra_loop hp endV f st₂) = some (Except.ok (r, st')) := hr
                rcases relax_spec hp g start hwf hnn x.2 x.1
                  (resolve hp x.2).neighbors _ hrinv (fun q hq => hq) st₂ hrel with
                  ⟨hrinv₂, _, hbound⟩
                have hdinv₂ : DInvP hp g start st₂ :=
                  r_close hp g start x.2 x.1 hrinv₂ hbound
                by_cases hev : endV = some x.2
                · rw [if_pos hev] at hr2
                  have h0 := Option.some.injEq _ _ ▸ hr2
                  have h3 : ((true, st₂) : Bool × DSt) = (r, st') :=
                    Except.ok.injEq _ _ ▸ h0
                  have h1 : true = r := ((Prod.mk.injEq _ _ _ _ ▸ h3)).1
                  have h2 : st₂ = st' := ((Prod.mk.injEq _ _ _ _ ▸ h3)).2
                  rw [← h2, ← h1]
                  refine ⟨hdinv₂, fun _ => ⟨x.2, hev, ?_⟩⟩
                  have hv2 := (relax_facts x.2 x.1 (resolve hp x.2).neighbors
                    ⟨st.dist, pq', st.visited ++ [x.2], st.pm⟩ st₂ hrel).1
                  have hv3 : st₂.visited = st.visited ++ [x.2] := hv2
                  rw [hv3]
                  simp
                · rw [if_neg hev] at hr2
                  exact ih st₂ r st' hdinv₂ hr2

theorem d_extract (hp : Heap) (g : Graph) (start : String)
    (dist : List (String × Option ℚ)) (visited : List String) (m : PMap)
    (hpi : PmInv hp g start dist visited m)
    (hsettle : ∀ x ∈ visited, ∃ c, lookupAssoc dist x = some (some c))
    (hdstart : lookupAssoc dist start = some (some 0)) :
    ∀ (i : Nat) (v : String), v ∈ visited → visited.indexOf v = i →
      ∃ l, (∀ fuel, l.length + 1 ≤ fuel → extract_path m fuel (some v) = some (.ok l)) ∧
        l.Nodup ∧
        (∀ x ∈ l, x ∈ visited ∧ visited.indexOf x ≤ visited.indexOf v) ∧
        ∃ tl c, l.reverse = start :: tl ∧ CChain hp start tl v c ∧
          ∀ cv, lookupAssoc dist v = some (some cv) → c ≤ cv := by
  intro i
  induction i using Nat.strong_induction_on with
  | _ i ihs =>
      intro v hv hvi
      by_cases hvs : v = start
      · refine ⟨[v], ?_, by simp, ?_, [], 0, by simp [hvs], ?_, ?_⟩
        · intro fuel hf
          simp only [List.length_singleton] at hf
          cases fuel with
          | zero => omega
          | succ f =>
              cases f with
              | zero => omega
              | succ f' =>
                  have hlooks : lookupAssoc m v = some none := by
                    rw [hvs]
                    exact hpi.at_start
                  rw [extract_path_succ_some, hlooks]
                  show (match extract_path m (f' + 1) (none : Option String) with
                    | none => none
                    | some (Except.error e) => some (Except.error e)
                    | some (Except.ok l) => some (Except.ok (v :: l))) =
                      some (Except.ok [v])
                  rw [extract_path_succ_none]
        · intro x hx
          have hxv : x = v := by simpa using hx
          rw [hxv]
          exact ⟨hv, le_refl _⟩
        · rw [hvs]
          exact CChain.nil start
        · intro cv hcv
          rw [hvs] at hcv
          have h1 : some (some (0 : ℚ)) = some (some cv) := by
            rw [← hdstart]
            exact hcv
          have h2 : some (0 : ℚ) = some cv := Option.some.injEq _ _ ▸ h1
          have h3 : (0 : ℚ) = cv := Option.some.injEq _ _ ▸ h2
          rw [← h3]
      · rcases hsettle v hv with ⟨cv₀, hcv₀⟩
        rcases hpi.written v cv₀ hvs hcv₀ with ⟨u, hu⟩
        rcases hpi.parent v u hu with ⟨humem, w, cu, cv₁, hw, hcu, hcv₁, hle, hord⟩
        have hord' : visited.indexOf u < visited.indexOf v := hord hv
        rcases ihs (visited.indexOf u) (by rw [← hvi]; exact hord') u humem rfl with
          ⟨lu, hext, hnd, hdep, tlu, c_u, hrev, hchain, hcb⟩
        have hcub : c_u ≤ cu := hcb cu hcu
        have hvnotin : v ∉ lu := by
          intro hvin
          have h1 := (hdep v hvin).2
          omega
        refine ⟨v :: lu, ?_, List.nodup_cons.mpr ⟨hvnotin, hnd⟩, ?_,
          tlu ++ [v], c_u + w, ?_, cchain_append_edge hchain hw, ?_⟩
        · intro fuel hf
          cases fuel with
          | zero =>
              simp only [List.length_cons] at hf
              omega
          | succ f =>
              rw [extract_path_succ_some, hu]
              show (match extract_path m f (some u) with
                | none => none
                | some (Except.error e) => some (Except.error e)
                | some (Except.ok l) => some (Except.ok (v :: l))) =
                  some (Except.ok (v :: lu))
              rw [hext f (by simp only [List.length_cons] at hf; omega)]
        · intro x hx
          rcases List.mem_cons.mp hx with hx | hx
          · rw [hx]
            exact ⟨hv, le_refl _⟩
          · rcases hdep x hx with ⟨hx1, hx2⟩
            exact ⟨hx1, by omega⟩
        · show (v :: lu).reverse = start :: (tlu ++ [v])
          rw [List.reverse_cons, hrev]
          rfl
        · intro cv hcv
          have h1 : some (some cv₁) = some (some cv) := by rw [← hcv₁, hcv]
          have h2 : some cv₁ = some cv := Option.some.injEq _ _ ▸ h1
          have h3 : cv₁ = cv := Option.some.injEq _ _ ▸ h2
          rw [← h3]
          linarith

theorem find_weighted_eq_of_core (hp : Heap) (g : Graph) (a b : String) (rev : Bool)
    {found : Bool} {st' : DSt}
    (hcore : dijkstra_search_core hp g a (some b)
        (some (g.vertexes.map (fun v => (v, (none : Option String))))) =
      some (.ok (found, st'))) :
    find_weighted_shortest_path hp g a b rev =
      (if found then
        match extract_path (st'.pm.getD []) ((st'.pm.getD []).length + 1) (some b) with
        | none => none
        | some (.error e) => some (.error e)
        | some (.ok l) => some (.ok (some (if rev then l else l.reverse)))
      else some (.ok none)) := by
  unfold find_weighted_shortest_path
  rw [hcore]

/-- C2: for a well-formed heap with non-negative weights and `a` indexed, a
`dijkstra_search(a, b)` run that returns `true` guarantees that
`find_weighted_shortest_path(a, b)` (here with `reverse = false`, the
start-to-end order) returns a path from `a` to `b` whose summed edge weight
is minimal over all directed paths from `a` to `b`. -/
theorem dijkstra_min_weight (hp : Heap) (g : Graph) (a b : String)
    (hwf : WFHeap hp) (hnn : NonnegWeights hp) (ha : a ∈ g.vertexes)
    (hok : dijkstra_search hp g a b = some (.ok true)) :
    ∃ l, find_weighted_shortest_path hp g a b false = some (.ok (some l)) ∧
      ∃ tl c, l = a :: tl ∧ CChain hp a tl b c ∧
        ∀ tl' c', CChain hp a tl' b c' → c ≤ c' := by
  unfold dijkstra_search at hok
  cases hcore : dijkstra_search_core hp g a (some b) none with
  | none => rw [hcore] at hok; cases hok
  | some x =>
      cases x with
      | error e =>
          rw [hcore] at hok
          cases hok
      | ok y =>
          rcases y with ⟨r₀, st₁⟩
          rw [hcore] at hok
          have h2 : Except.ok (ε := GErr) r₀ = Except.ok true :=
            Option.some.injEq _ _ ▸ hok
          have h3 : r₀ = true := Except.ok.injEq _ _ ▸ h2
          subst h3
          have hloop₁ : dijkstra_loop hp (some b) (dijkstraFuel hp a)
              ⟨updateAssoc (g.vertexes.map (fun v => (v, (none : Option ℚ)))) a (some 0),
               [((0 : ℚ), a)], [], none⟩ = some (.ok (true, st₁)) := hcore
          have hproj0 : DProj
              ⟨updateAssoc (g.vertexes.map (fun v => (v, (none : Option ℚ)))) a (some 0),
               [((0 : ℚ), a)], [], none⟩
              ⟨updateAssoc (g.vertexes.map (fun v => (v, (none : Option ℚ)))) a (some 0),
               [((0 : ℚ), a)], [],
               some (g.vertexes.map (fun v => (v, (none : Option String))))⟩ :=
            ⟨rfl, rfl, rfl⟩
          rcases dloop_proj hp (some b) (dijkstraFuel hp a) _ _ hproj0 true st₁ hloop₁
            with ⟨st₂, hloop₂, hprojf⟩
          have hcore₂ : dijkstra_search_core hp g a (some b)
              (some (g.vertexes.map (fun v => (v, (none : Option String))))) =
              some (.ok (true, st₂)) := hloop₂
          have hinit : DInvP hp g a
              ⟨updateAssoc (g.vertexes.map (fun v => (v, (none : Option ℚ)))) a (some 0),
               [((0 : ℚ), a)], [],
               some (g.vertexes.map (fun v => (v, (none : Option String))))⟩ :=
            dinit_inv hp g a _ (Or.inr ⟨rfl, ha⟩)
          rcases dijkstra_loop_spec hp g a hwf hnn (some b) (dijkstraFuel hp a) _ true st₂
            hinit hloop₂ with ⟨hdinv, hfound⟩
          rcases hfound rfl with ⟨x, hxb, hxv⟩
          have hxb2 : b = x := Option.some.injEq _ _ ▸ hxb
          rw [← hxb2] at hxv
          have hpmS : st₂.pm.isSome = true := by
            rw [dloop_pm_isSome hp (some b) (dijkstraFuel hp a) _ true st₂ hloop₂]
            rfl
          rcases Option.isSome_iff_exists.mp hpmS with ⟨m, hm⟩
          have hpi : PmInv hp g a st₂.dist st₂.visited m := hdinv.pmap m hm
          have hsettle : ∀ x ∈ st₂.visited, ∃ c,
              lookupAssoc st₂.dist x = some (some c) := by
            intro x hx
            rcases hdinv.settled x hx with ⟨c, hc, _⟩
            exact ⟨c, hc⟩
          rcases d_extract hp g a st₂.dist st₂.visited m hpi hsettle hdinv.dstart
            (st₂.visited.indexOf b) b hxv rfl with
            ⟨lr, hext, hnd, hdep, tl, c, hrevx, hchain, hcb⟩
          have hsub : lr ⊆ m.map Prod.fst := by
            intro x hx
            have hxvis : x ∈ st₂.visited := (hdep x hx).1
            rcases hsettle x hxvis with ⟨cx, hcx⟩
            have hxs : (lookupAssoc st₂.dist x).isSome := by
              rw [hcx]
              rfl
            have hxg : x ∈ g.vertexes := by
              rcases (hdinv.dkeys x).mp hxs with h | h
              · exact h
              · rw [h]
                exact ha
            have := (hpi.dom x).mpr hxg
            exact (lookupAssoc_isSome_iff m x).mp this
          have hfuel : lr.length + 1 ≤ m.length + 1 := by
            have h1 := (List.subperm_of_subset hnd hsub).length_le
            rw [List.length_map] at h1
            omega
          have hextv := hext (m.length + 1) hfuel
          rw [find_weighted_eq_of_core hp g a b false hcore₂]
          rw [hm]
          simp only [Option.getD_some]
          rw [hextv]
          refine ⟨lr.reverse, rfl, tl, c, hrevx, hchain, ?_⟩
          intro tl' c' hc'
          rcases hdinv.settled b hxv with ⟨cb, hcbv, hminb⟩
          have h1 : c ≤ cb := hcb cb hcbv
          have h2 : cb ≤ c' := hminb tl' c' hc'
          linarith

/-- C2 witness: on the weighted edge a→b the Dijkstra run succeeds and the
minimal-weight-path guarantee holds at this concrete input. -/
theorem dijkstra_min_weight_witness :
    ∃ l, find_weighted_shortest_path [⟨"a", [("b", 1)]⟩, ⟨"b", []⟩]
        (graphInit [⟨"a", [("b", 1)]⟩, ⟨"b", []⟩] ["a", "b"]) "a" "b" false =
        some (.ok (some l)) ∧
      ∃ tl c, l = "a" :: tl ∧ CChain [⟨"a", [("b", 1)]⟩, ⟨"b", []⟩] "a" tl "b" c ∧
        ∀ tl' c', CChain [⟨"a", [("b", 1)]⟩, ⟨"b", []⟩] "a" tl' "b" c' → c ≤ c' :=
  dijkstra_min_weight [⟨"a", [("b", 1)]⟩, ⟨"b", []⟩]
    (graphInit [⟨"a", [("b", 1)]⟩, ⟨"b", []⟩] ["a", "b"]) "a" "b"
    (by decide) (by decide) (by decide) (by rfl)

theorem dijkstra_loop_first_hit (hp : Heap) (a : String) (fuel : Nat)
    (dist : List (String × Option ℚ)) (pm : Option PMap) (st' : DSt)
    (hrel : relax_neighbors a 0 (resolve hp a).neighbors ⟨dist, [], [a], pm⟩ = .ok st') :
    dijkstra_loop hp (some a) (fuel + 1) ⟨dist, [((0 : ℚ), a)], [], pm⟩ =
      some (.ok (true, st')) := by
  have h1 : dijkstra_loop hp (some a) (fuel + 1) ⟨dist, [((0 : ℚ), a)], [], pm⟩ =
      (match relax_neighbors a 0 (resolve hp a).neighbors ⟨dist, [], [a], pm⟩ with
      | .error er => some (.error er)
      | .ok st₂ => if some a = some a then some (.ok (true, st₂))
          else dijkstra_loop hp (some a) fuel st₂) := rfl
  rw [h1, hrel]
  show (if some a = some a then some (Except.ok (true, st'))
    else dijkstra_loop hp (some a) fuel st') = _
  rw [if_pos rfl]

/-- C10: (i) when every neighbor of `a` is present in the graph's index,
`dijkstra_search(a, a)` returns `true` — `a` is popped and finalized on the
first iteration and immediately matches `end`; (ii) a completed
`breadth_first_search(a, a)` run returns `true` exactly when `a` is reachable
from itself through at least one edge, i.e. when `a` lies on a directed
cycle, and `false` otherwise. -/
theorem dijkstra_vs_bfs_self :
    (∀ (hp : Heap) (g : Graph) (a : String),
      (∀ p ∈ (resolve hp a).neighbors, p.1 ∈ g.vertexes) →
      dijkstra_search hp g a a = some (.ok true)) ∧
    (∀ (hp : Heap) (g : Graph) (a : String) (r : Bool),
      breadth_first_search hp g a a = some (.ok r) → (r = true ↔ ReachNE hp a a)) := by
  constructor
  · intro hp g a hclosed
    rcases relax_ok a 0 (resolve hp a).neighbors
        ⟨updateAssoc (g.vertexes.map (fun v => (v, (none : Option ℚ)))) a (some 0),
         [], [a], none⟩
        (by
          intro p hpm
          show (lookupAssoc (updateAssoc (g.vertexes.map
            (fun v => (v, (none : Option ℚ)))) a (some 0)) p.1).isSome
          rw [dist0_keys g a p.1]
          exact Or.inl (hclosed p hpm)) with ⟨st', hrel⟩
    have hN : dijkstraFuel hp a = (((traversalNames hp a).map
        (fun n => (resolve hp n).neighbors.length + 1)).sum + 1) + 1 := rfl
    have hloop : dijkstra_loop hp (some a) (dijkstraFuel hp a)
        ⟨updateAssoc (g.vertexes.map (fun v => (v, (none : Option ℚ)))) a (some 0),
         [((0 : ℚ), a)], [], none⟩ = some (.ok (true, st')) := by
      rw [hN]
      exact dijkstra_loop_first_hit hp a _ _ none st' hrel
    have hcore : dijkstra_search_core hp g a (some a) none =
        some (.ok (true, st')) := hloop
    unfold dijkstra_search
    rw [hcore]
  · intro hp g a r hr
    exact breadth_first_search_iff hp g a a r hr

/-- C10 witness: on the edgeless one-vertex graph, Dijkstra from `a` to `a`
returns `true` while the completed BFS run returns `false`, and `a` indeed
lies on no directed cycle. -/
theorem dijkstra_vs_bfs_self_witness :
    dijkstra_search [⟨"a", []⟩] (graphInit [⟨"a", []⟩] ["a"]) "a" "a" =
      some (.ok true) ∧
    (false = true ↔ ReachNE [⟨"a", []⟩] "a" "a") :=
  ⟨dijkstra_vs_bfs_self.1 [⟨"a", []⟩] (graphInit [⟨"a", []⟩] ["a"]) "a"
      (by intro p hpm; cases hpm),
    dijkstra_vs_bfs_self.2 [⟨"a", []⟩] (graphInit [⟨"a", []⟩] ["a"]) "a" false (by rfl)⟩
